import Mathlib

/-!
# aocutil: puzzle-input accessor (`input.go`)

A shallow embedding of `input.go` and of the Go standard-library routines it
calls (`fmt`, `strconv`, `bufio`, `strings`, `unicode/utf8`), followed by the
theorems that settle the claims C1 .. C10 about it.

Conventions of the embedding:

* a Go `string` or `[]byte` is a `List Nat` of byte values; a nil slice and an
  empty slice are both `[]`;
* Go `int` / `int64` values are `Int`, `uint64` values are `Nat`, and every
  place where the source can wrap around carries an explicit `%`;
* a Go function returning `(T, error)` returns a pair whose second component is
  `Option GoError` (`none` is the nil error);
* the file system and the remote service are an explicit `World` that the
  stateful functions take and return; `log.Println` and `Close` are not
  observable in this model and are left out;
* a call that can panic returns an `Outcome`: the value returned, or the message
  of the panic.
-/

namespace Aocutil

/-- A Go `string` or `[]byte`. -/
abbrev ByteSeq := List Nat

/-- The bytes of an ASCII literal. -/
def ascii (s : String) : ByteSeq := s.toList.map Char.toNat

/-! ## Errors -/

/-- The error values that `input.go` can return. -/
inductive GoError where
  /-- `errors.New(s)`, also what `fmt.Errorf` returns when the format has no `%w`. -/
  | errorString (s : ByteSeq)
  /-- `&strconv.NumError{Func, Num, Err}`. -/
  | numError (fn : ByteSeq) (num : ByteSeq) (err : GoError)
  /-- `&fmt.wrapError{msg, err}` returned by `fmt.Errorf` for a format that ends
  in `%w`: `pre` is the formatted text in front of the verb, so that
  `msg = pre ++ err.Error()`. -/
  | wrapError (pre : ByteSeq) (err : GoError)
  /-- An error of the operating system or of the HTTP transport. -/
  | sysError (msg : ByteSeq)
  deriving DecidableEq, Repr

/-- The method `Error()`. `strconv.Quote` is taken as the parameter `quote`. -/
def GoError.Error (quote : ByteSeq → ByteSeq) : GoError → ByteSeq
  | .errorString s => s
  | .numError fn num err =>
      ascii "strconv." ++ fn ++ ascii ": parsing " ++ quote num ++ ascii ": " ++ err.Error quote
  | .wrapError pre err => pre ++ err.Error quote
  | .sysError msg => msg

/-- The function `errors.Unwrap`: the result of the error's `Unwrap` method, nil
when it has none. -/
def errorsUnwrap : GoError → Option GoError
  | .numError _ _ err => some err
  | .wrapError _ err => some err
  | _ => none

/-- The sentinel `bufio.ErrTooLong`. -/
def ErrTooLong : GoError := .errorString (ascii "bufio.Scanner: token too long")

/-! ## `fmt`: the verb `%d` -/

/-- The digit loop of `fmt.fmtInteger` in base 10 (`for u >= 10 ...`), most
significant digit first. The first argument bounds the number of digits. -/
def fmtDigits : Nat → Nat → ByteSeq
  | 0, u => [48 + u % 10]
  | fuel + 1, u => if u < 10 then [48 + u] else fmtDigits fuel (u / 10) ++ [48 + u % 10]

/-- The verb `%d` applied to a non-negative integer. -/
def fmtNat (u : Nat) : ByteSeq := fmtDigits u u

/-- The verb `%d` applied to an `int`. -/
def fmtInt (i : Int) : ByteSeq :=
  if i < 0 then 45 :: fmtNat i.natAbs else fmtNat i.natAbs

/-! ## `strconv`: `ParseUint`, `ParseInt`, `Atoi` -/

/-- The helper `lower(c) = c | ('x' - 'X')`: sets bit 5. -/
def lower (c : Nat) : Nat := if c / 32 % 2 = 1 then c else c + 32

def ErrSyntax : GoError := .errorString (ascii "invalid syntax")

def ErrRange : GoError := .errorString (ascii "value out of range")

def syntaxError (fn str : ByteSeq) : GoError := .numError fn str ErrSyntax

def rangeError (fn str : ByteSeq) : GoError := .numError fn str ErrRange

def baseError (fn str : ByteSeq) (base : Int) : GoError :=
  .numError fn str (.errorString (ascii "invalid base " ++ fmtInt base))

def bitSizeError (fn str : ByteSeq) (bitSize : Int) : GoError :=
  .numError fn str (.errorString (ascii "invalid bit size " ++ fmtInt bitSize))

def fnParseUint : ByteSeq := ascii "ParseUint"

def fnParseInt : ByteSeq := ascii "ParseInt"

def fnAtoi : ByteSeq := ascii "Atoi"

/-- The constant `strconv.IntSize` on a 64-bit platform. -/
def IntSize : Int := 64

/-- The state `saw` of `underscoreOK`. -/
inductive Saw where
  | start
  | digit
  | underscore
  | other
  deriving DecidableEq, Repr

/-- The loop `for ; i < len(s); i++` of `underscoreOK`. -/
def underscoreLoop (hex : Bool) : ByteSeq → Saw → Bool
  | [], saw => saw ≠ Saw.underscore
  | c :: rest, saw =>
    if (48 ≤ c ∧ c ≤ 57) ∨ (hex = true ∧ 97 ≤ lower c ∧ lower c ≤ 102) then
      underscoreLoop hex rest Saw.digit
    else if c = 95 then
      if saw ≠ Saw.digit then false else underscoreLoop hex rest Saw.underscore
    else if saw = Saw.underscore then false
    else underscoreLoop hex rest Saw.other

/-- The function `strconv.underscoreOK`. -/
def underscoreOK (s : ByteSeq) : Bool :=
  let s1 := match s with
    | c :: rest => if c = 45 ∨ c = 43 then rest else s
    | [] => s
  match s1 with
  | 48 :: p :: rest =>
    if lower p = 98 ∨ lower p = 111 ∨ lower p = 120 then
      underscoreLoop (lower p = 120) rest Saw.digit
    else underscoreLoop false s1 Saw.start
  | _ => underscoreLoop false s1 Saw.start

/-- The digit value of a byte in `ParseUint`: the cases `'0' <= c <= '9'` and
`'a' <= lower(c) <= 'z'` of its switch, `none` for its default case. -/
def digitValue (c : Nat) : Option Nat :=
  if 48 ≤ c ∧ c ≤ 57 then some (c - 48)
  else if 97 ≤ lower c ∧ lower c ≤ 122 then some (lower c - 97 + 10)
  else none

/-- The loop `for _, c := range []byte(s)` of `ParseUint` and the underscore
check after it; `n` is a `uint64`. -/
def parseUintLoop (s0 : ByteSeq) (base : Nat) (base0 : Bool) (cutoff maxVal : Nat) :
    ByteSeq → Nat → Bool → Nat × Option GoError
  | [], n, underscores =>
    if underscores = true ∧ underscoreOK s0 = false then (0, some (syntaxError fnParseUint s0))
    else (n, none)
  | c :: rest, n, underscores =>
    if c = 95 ∧ base0 = true then parseUintLoop s0 base base0 cutoff maxVal rest n true
    else
      match digitValue c with
      | none => (0, some (syntaxError fnParseUint s0))
      | some d =>
        if d ≥ base % 256 then (0, some (syntaxError fnParseUint s0))
        else if n ≥ cutoff then (maxVal, some (rangeError fnParseUint s0))
        else
          let n' := n * base % 2 ^ 64
          let n1 := (n' + d) % 2 ^ 64
          if n1 < n' ∨ n1 > maxVal then (maxVal, some (rangeError fnParseUint s0))
          else parseUintLoop s0 base base0 cutoff maxVal rest n1 underscores

/-- The prefix switch of `ParseUint` for `base == 0`: the base selected and the
text after the prefix. -/
def detectBase (s : ByteSeq) : Nat × ByteSeq :=
  match s with
  | 48 :: p :: q :: rest =>
    if lower p = 98 then (2, q :: rest)
    else if lower p = 111 then (8, q :: rest)
    else if lower p = 120 then (16, q :: rest)
    else (8, p :: q :: rest)
  | 48 :: rest => (8, rest)
  | _ => (10, s)

/-- The function `strconv.ParseUint`. -/
def ParseUint (s : ByteSeq) (base : Int) (bitSize : Int) : Nat × Option GoError :=
  if s = [] then (0, some (syntaxError fnParseUint s))
  else if ¬ ((2 ≤ base ∧ base ≤ 36) ∨ base = 0) then (0, some (baseError fnParseUint s base))
  else
    let base0 : Bool := decide (base = 0)
    let bs : Nat × ByteSeq := if base = 0 then detectBase s else (base.toNat, s)
    let bitSize' : Int := if bitSize = 0 then IntSize else bitSize
    if bitSize' < 0 ∨ bitSize' > 64 then (0, some (bitSizeError fnParseUint s bitSize'))
    else
      let cutoff := (2 ^ 64 - 1) / bs.1 + 1
      let maxVal := (2 ^ bitSize'.toNat % 2 ^ 64 + 2 ^ 64 - 1) % 2 ^ 64
      parseUintLoop s bs.1 base0 cutoff maxVal bs.2 0 false

/-- The conversion `int64(u)` of a `uint64`. -/
def toInt64 (u : Nat) : Int := if u % 2 ^ 64 < 2 ^ 63 then (u % 2 ^ 64 : Nat) else (u % 2 ^ 64 : Nat) - 2 ^ 64

/-- Negation of an `int64`, wrapping at the minimum value. -/
def negInt64 (n : Int) : Int := if n = -(2 : Int) ^ 63 then n else -n

/-- The function `strconv.ParseInt`. -/
def ParseInt (s : ByteSeq) (base : Int) (bitSize : Int) : Int × Option GoError :=
  match s with
  | [] => (0, some (syntaxError fnParseInt s))
  | c :: rest =>
    let neg : Bool := decide (c = 45)
    let s1 : ByteSeq := if c = 43 ∨ c = 45 then rest else s
    let r := ParseUint s1 base bitSize
    match r.2 with
    | some (.numError _ _ err) =>
      if err ≠ ErrRange then (0, some (.numError fnParseInt s err))
      else
        let bitSize' : Int := if bitSize = 0 then IntSize else bitSize
        let cutoff : Nat := 2 ^ (bitSize' - 1).toNat % 2 ^ 64
        if neg = false ∧ r.1 ≥ cutoff then (toInt64 (cutoff - 1), some (rangeError fnParseInt s))
        else if neg = true ∧ r.1 > cutoff then (negInt64 (toInt64 cutoff), some (rangeError fnParseInt s))
        else (if neg then negInt64 (toInt64 r.1) else toInt64 r.1, none)
    | some e => (0, some e)
    | none =>
      let bitSize' : Int := if bitSize = 0 then IntSize else bitSize
      let cutoff : Nat := 2 ^ (bitSize' - 1).toNat % 2 ^ 64
      if neg = false ∧ r.1 ≥ cutoff then (toInt64 (cutoff - 1), some (rangeError fnParseInt s))
      else if neg = true ∧ r.1 > cutoff then (negInt64 (toInt64 cutoff), some (rangeError fnParseInt s))
      else (if neg then negInt64 (toInt64 r.1) else toInt64 r.1, none)

/-- The digit loop of the fast path of `Atoi`: `ch -= '0'` on a byte, then
`n = n*10 + int(ch)`; `none` when a byte is not a decimal digit. -/
def atoiFast : ByteSeq → Int → Option Int
  | [], n => some n
  | c :: rest, n =>
    let ch := (c + 256 - 48) % 256
    if ch > 9 then none else atoiFast rest (n * 10 + ch)

/-- The function `strconv.Atoi` (64-bit `int`). -/
def Atoi (s : ByteSeq) : Int × Option GoError :=
  if 0 < s.length ∧ s.length < 19 then
    match s with
    | [] => (0, some (syntaxError fnAtoi s))
    | c :: rest =>
      let digits : ByteSeq := if c = 45 ∨ c = 43 then rest else s
      if (c = 45 ∨ c = 43) ∧ rest.length < 1 then (0, some (syntaxError fnAtoi s))
      else
        match atoiFast digits 0 with
        | none => (0, some (syntaxError fnAtoi s))
        | some n => (if c = 45 then -n else n, none)
  else
    match ParseInt s 10 0 with
    | (i64, some (.numError _ num err)) => (i64, some (.numError fnAtoi num err))
    | r => r

/-! ## `bufio`: a `Scanner` with the split function `ScanLines` -/

/-- The function `bytes.IndexByte`: the index of the first `c`, `none` for `-1`. -/
def IndexByte : ByteSeq → Nat → Option Nat
  | [], _ => none
  | b :: rest, c => if b = c then some 0 else (IndexByte rest c).map (· + 1)

/-- The helper `dropCR`: drops one terminal carriage return. -/
def dropCR (data : ByteSeq) : ByteSeq :=
  if data.getLast? = some 13 then data.dropLast else data

/-- The split function `bufio.ScanLines`: the advance and the token, `none` for
a nil token (a request for more data). -/
def ScanLines (data : ByteSeq) (atEOF : Bool) : Nat × Option ByteSeq :=
  if atEOF = true ∧ data.length = 0 then (0, none)
  else
    match IndexByte data 10 with
    | some i => (i + 1, some (dropCR (data.take i)))
    | none => if atEOF = true then (data.length, some (dropCR data)) else (0, none)

/-- The constant `bufio.MaxScanTokenSize`, the largest size the buffer of a
`Scanner` made by `NewScanner` grows to. -/
def MaxScanTokenSize : Nat := 64 * 1024

/-- The tokens that successive calls of `Scanner.Scan` deliver over unread input
`data`, and the value of `Scanner.Err()` once `Scan` has returned false.

The buffer holds at most the first `MaxScanTokenSize` unread bytes; the end of
the input is seen only when all unread bytes fit with room to spare. When the
split function asks for more data and the buffer is full, `Scan` stops with
`ErrTooLong`. The first argument bounds the number of calls. -/
def scanAll : Nat → ByteSeq → List ByteSeq × Option GoError
  | 0, _ => ([], none)
  | fuel + 1, data =>
    let atEOF : Bool := decide (data.length < MaxScanTokenSize)
    match ScanLines (data.take MaxScanTokenSize) atEOF with
    | (advance, some token) =>
      let r := scanAll fuel (data.drop advance)
      (token :: r.1, r.2)
    | (_, none) => ([], if atEOF = true then none else some ErrTooLong)

/-! ## The world: cache files and the remote service -/

/-- What `os.Open` finds under a file name. -/
inductive FileState where
  /-- No such file: `os.Open` fails with an error that is `os.ErrNotExist`. -/
  | missing
  /-- The file cannot be opened: `os.Open` fails with another error. -/
  | blocked (err : GoError)
  /-- The file opens; reading it delivers `data` and then `readErr` (`none` for
  `io.EOF`). -/
  | regular (data : ByteSeq) (readErr : Option GoError)
  deriving DecidableEq, Repr

/-- The function `validCookieValueByte` of `net/http`. -/
def validCookieValueByte (b : Nat) : Bool :=
  decide (0x20 ≤ b ∧ b < 0x7f ∧ b ≠ 34 ∧ b ≠ 59 ∧ b ≠ 92)

/-- The function `sanitizeCookieValue` of `net/http` for a cookie that is not
marked as quoted: the bytes that are not valid in a cookie value are dropped, and
a value that holds a space or a comma is put between double quotes. -/
def sanitizeCookieValue (v : ByteSeq) : ByteSeq :=
  let v1 := v.filter validCookieValueByte
  if v1.length = 0 then v1
  else if 32 ∈ v1 ∨ 44 ∈ v1 then 34 :: v1 ++ [34]
  else v1

/-- A request handed to `http.DefaultClient.Do`. -/
structure Request where
  url : ByteSeq
  /-- The header `Cookie`, set by `AddCookie`. -/
  cookie : ByteSeq
  deriving DecidableEq, Repr

/-- The outcome of `http.DefaultClient.Do`. -/
inductive Response where
  /-- The request could not be sent. -/
  | transportError (err : GoError)
  /-- A response with a status code; reading its body delivers `body` and then
  `readErr` (`none` for `io.EOF`). -/
  | reply (status : Int) (body : ByteSeq) (readErr : Option GoError)
  deriving DecidableEq, Repr

/-- The outcome of `os.WriteFile`. -/
inductive WriteOutcome where
  /-- The file now holds the data. -/
  | done
  /-- The write failed with `err` and left the file in state `left`. -/
  | failed (err : GoError) (left : FileState)
  deriving DecidableEq, Repr

/-- The environment of the accessor. -/
structure World where
  /-- The working directory: the state of each file name. -/
  files : ByteSeq → FileState
  /-- The requests sent so far, oldest first. -/
  sent : List Request
  /-- The remote service: its answer to a request, given the requests before it. -/
  remote : List Request → Request → Response
  /-- What `os.WriteFile` does for a file name and content. -/
  write : ByteSeq → ByteSeq → WriteOutcome

/-- An `io.ReadCloser`: the bytes it delivers, then the error its `Read`
reports (`none` for `io.EOF`). -/
structure Stream where
  data : ByteSeq
  err : Option GoError
  deriving DecidableEq, Repr

/-- The function `io.ReadAll`. -/
def ioReadAll (rc : Stream) : ByteSeq × Option GoError := (rc.data, rc.err)

/-- The lines `for sc.Scan() { ... sc.Text() ... }` visits for
`sc := bufio.NewScanner(rc)`, and `sc.Err()` after the loop. -/
def Scanner (rc : Stream) : List ByteSeq × Option GoError :=
  scanAll (rc.data.length + 1) rc.data

/-- The function `os.WriteFile(fn, data, 0644)`. -/
def osWriteFile (w : World) (fn data : ByteSeq) : Option GoError × World :=
  match w.write fn data with
  | .done =>
    (none, { w with files := fun n => if n = fn then .regular data none else w.files n })
  | .failed err left =>
    (some err, { w with files := fun n => if n = fn then left else w.files n })

/-! ## `input.go` -/

/-- The type `Input`. -/
structure Input where
  SessionID : ByteSeq
  deriving DecidableEq, Repr

/-- The cache file name `fmt.Sprintf("%d_%d.txt", year, day)`. -/
def cacheFileName (year day : Int) : ByteSeq :=
  fmtInt year ++ ascii "_" ++ fmtInt day ++ ascii ".txt"

/-- The request that `fetch` builds. `http.NewRequest` cannot fail on the method
`GET` and this URL, so its error branch is not represented. `AddCookie` writes
the cookie as `session=` followed by the sanitised `SessionID`. -/
def Input.request (i : Input) (year day : Int) : Request :=
  { url := ascii "https://adventofcode.com/" ++ fmtInt year ++ ascii "/day/" ++ fmtInt day
      ++ ascii "/input",
    cookie := ascii "session=" ++ sanitizeCookieValue i.SessionID }

/-- The method `Input.fetch`. -/
def Input.fetch (i : Input) (year day : Int) (w : World) : Except GoError Stream × World :=
  let r := i.request year day
  let w1 : World := { w with sent := w.sent ++ [r] }
  match w.remote w.sent r with
  | .transportError err => (.error err, w1)
  | .reply status body readErr =>
    if status ≠ 200 then
      match ioReadAll ⟨body, readErr⟩ with
      | (_, some err) => (.error err, w1)
      | (body, none) => (.error (.errorString body), w1)
    else (.ok ⟨body, readErr⟩, w1)

/-- The method `Input.Reader`. -/
def Input.Reader (i : Input) (year day : Int) (w : World) : Except GoError Stream × World :=
  let fn := cacheFileName year day
  match w.files fn with
  | .missing =>
    match i.fetch year day w with
    | (.error err, w1) => (.error err, w1)
    | (.ok rc, w1) =>
      match ioReadAll rc with
      | (_, some err) => (.error err, w1)
      | (data, none) =>
        let w2 := (osWriteFile w1 fn data).2
        (.ok ⟨data, none⟩, w2)
  | .blocked err => (.error err, w)
  | .regular data readErr => (.ok ⟨data, readErr⟩, w)

/-- The method `Input.Bytes`. -/
def Input.Bytes (i : Input) (year day : Int) (w : World) : (ByteSeq × Option GoError) × World :=
  match i.Reader year day w with
  | (.error err, w1) => (([], some err), w1)
  | (.ok rc, w1) => (ioReadAll rc, w1)

/-- The method `Input.Strings`. The loop appends every line the scanner
delivers; `sc.Err()` is not consulted. -/
def Input.Strings (i : Input) (year day : Int) (w : World) :
    (List ByteSeq × Option GoError) × World :=
  match i.Reader year day w with
  | (.error err, w1) => (([], some err), w1)
  | (.ok rc, w1) => (((Scanner rc).1, none), w1)

/-- The loop `for sc.Scan() { v, err := convert(sc.Text()); if err != nil { return
acc, failure }; acc = append(acc, v) }; return acc, nil` shared by the typed
accessors: `convert` is the conversion of one line and `failure` builds the
returned error from `len(acc)`, the line and what the conversion reported. -/
def scanLoop {α ε : Type} (convert : ByteSeq → Except ε α) (failure : Nat → ByteSeq → ε → GoError) :
    List ByteSeq → List α → List α × Option GoError
  | [], acc => (acc, none)
  | text :: rest, acc =>
    match convert text with
    | .error e => (acc, some (failure acc.length text e))
    | .ok v => scanLoop convert failure rest (acc ++ [v])

/-- The error `fmt.Errorf("At index %d: %w", n, err)`. -/
def atIndexWrap (n : Nat) (err : GoError) : GoError :=
  .wrapError (ascii "At index " ++ fmtNat n ++ ascii ": ") err

/-- The error `fmt.Errorf("At index %d: could not parse %s", n, s)`. -/
def atIndexCouldNotParse (n : Nat) (s : ByteSeq) : GoError :=
  .errorString (ascii "At index " ++ fmtNat n ++ ascii ": could not parse " ++ s)

/-- A `(value, error)` result as the branch `if err != nil` reads it. -/
def checkErr {α : Type} (r : α × Option GoError) : Except GoError α :=
  match r.2 with
  | some err => .error err
  | none => .ok r.1

/-- A `(value, ok)` result as the branch `if !ok` reads it. -/
def checkOk {α : Type} (r : Option α) : Except Unit α :=
  match r with
  | some v => .ok v
  | none => .error ()

/-- The method `Input.Ints`. -/
def Input.Ints (i : Input) (year day : Int) (w : World) :
    (List Int × Option GoError) × World :=
  match i.Reader year day w with
  | (.error err, w1) => (([], some err), w1)
  | (.ok rc, w1) =>
    (scanLoop (fun text => checkErr (Atoi text)) (fun n _ err => atIndexWrap n err)
      (Scanner rc).1 [], w1)

/-- The method `Input.Int64s`. -/
def Input.Int64s (i : Input) (year day : Int) (base : Int) (w : World) :
    (List Int × Option GoError) × World :=
  match i.Reader year day w with
  | (.error err, w1) => (([], some err), w1)
  | (.ok rc, w1) =>
    (scanLoop (fun text => checkErr (ParseInt text base 64)) (fun n _ err => atIndexWrap n err)
      (Scanner rc).1 [], w1)

/-- The method `Input.Floats`. The conversion `strconv.ParseFloat(s, 64)` is the
parameter `parseFloat`, over a type `F` of `float64` values. -/
def Input.Floats {F : Type} (parseFloat : ByteSeq → F × Option GoError)
    (i : Input) (year day : Int) (w : World) : (List F × Option GoError) × World :=
  match i.Reader year day w with
  | (.error err, w1) => (([], some err), w1)
  | (.ok rc, w1) =>
    (scanLoop (fun text => checkErr (parseFloat text)) (fun n _ err => atIndexWrap n err)
      (Scanner rc).1 [], w1)

/-- How a call ends: it returns a value, or it panics with a message. -/
inductive Outcome (α : Type) where
  | returns (value : α)
  | panics (msg : ByteSeq)
  deriving DecidableEq, Repr

/-- The call `new(big.Int).SetString(s, base)`. An empty text is rejected at the
sign, before the base is looked at. For any other text `nat.scan` panics with
`invalid number base` when the base is neither 0 nor from 2 to `big.MaxBase`,
which is 62. Elsewhere the conversion is the parameter `setString`: `none` when
it reports `ok == false`. -/
def bigIntSetString {Z : Type} (setString : ByteSeq → Int → Option Z) (s : ByteSeq)
    (base : Int) : Outcome (Option Z) :=
  if s.length = 0 then .returns none
  else if base = 0 ∨ (2 ≤ base ∧ base ≤ 62) then .returns (setString s base)
  else .panics (ascii "invalid number base " ++ fmtInt base)

/-- The loop `for sc.Scan() { ... }` of `BigInts`: as `scanLoop`, over a
conversion that can panic. -/
def bigIntsLoop {Z : Type} (setString : ByteSeq → Int → Option Z) (base : Int) :
    List ByteSeq → List Z → Outcome (List Z × Option GoError)
  | [], acc => .returns (acc, none)
  | s :: rest, acc =>
    match bigIntSetString setString s base with
    | .panics msg => .panics msg
    | .returns none => .returns (acc, some (atIndexCouldNotParse acc.length s))
    | .returns (some z) => bigIntsLoop setString base rest (acc ++ [z])

/-- The method `Input.BigInts`: how the call ends, and the world it leaves. -/
def Input.BigInts {Z : Type} (setString : ByteSeq → Int → Option Z)
    (i : Input) (year day : Int) (base : Int) (w : World) :
    Outcome (List Z × Option GoError) × World :=
  match i.Reader year day w with
  | (.error err, w1) => (.returns ([], some err), w1)
  | (.ok rc, w1) => (bigIntsLoop setString base (Scanner rc).1 [], w1)

/-- The method `Input.BigFloats`. The conversion `new(big.Float).SetString(s)` is
the parameter `setString`: `none` when it reports `ok == false`. -/
def Input.BigFloats {R : Type} (setString : ByteSeq → Option R)
    (i : Input) (year day : Int) (w : World) : (List R × Option GoError) × World :=
  match i.Reader year day w with
  | (.error err, w1) => (([], some err), w1)
  | (.ok rc, w1) =>
    (scanLoop (fun s => checkOk (setString s)) (fun n s _ => atIndexCouldNotParse n s)
      (Scanner rc).1 [], w1)

/-! ## `unicode/utf8`, `unicode` and `strings`: `TrimSpace` -/

/-- The constant `utf8.RuneError`. -/
def RuneError : Nat := 0xFFFD

/-- The constant `utf8.RuneSelf`. -/
def RuneSelf : Nat := 0x80

/-- The table `first` of `unicode/utf8`: information about the first byte of a
sequence (`as = 0xF0`, `xx = 0xF1`, `s1 = 0x02`, `s2 = 0x13`, `s3 = 0x03`,
`s4 = 0x23`, `s5 = 0x34`, `s6 = 0x04`, `s7 = 0x44`). -/
def first (b : Nat) : Nat :=
  if b < 0x80 then 0xF0
  else if b < 0xC2 then 0xF1
  else if b < 0xE0 then 0x02
  else if b = 0xE0 then 0x13
  else if b < 0xED then 0x03
  else if b = 0xED then 0x23
  else if b < 0xF0 then 0x03
  else if b = 0xF0 then 0x34
  else if b < 0xF4 then 0x04
  else if b = 0xF4 then 0x44
  else 0xF1

/-- The table `acceptRanges` of `unicode/utf8`: the bounds `lo`, `hi` of the
second byte. -/
def acceptRanges (i : Nat) : Nat × Nat :=
  match i with
  | 0 => (0x80, 0xBF)
  | 1 => (0xA0, 0xBF)
  | 2 => (0x80, 0x9F)
  | 3 => (0x90, 0xBF)
  | 4 => (0x80, 0x8F)
  | _ => (0, 0)

/-- The function `utf8.DecodeRuneInString`: the rune and its width. The masks
and shifts of the source are written with `%` and `*`. -/
def DecodeRuneInString (s : ByteSeq) : Nat × Nat :=
  match s with
  | [] => (RuneError, 0)
  | s0 :: rest =>
    let x := first s0
    if x ≥ 0xF0 then (if x % 2 = 0 then s0 else RuneError, 1)
    else
      let sz := x % 8
      let accept := acceptRanges (x / 16)
      if s.length < sz then (RuneError, 1)
      else
        match rest with
        | [] => (RuneError, 1)
        | s1 :: rest1 =>
          if s1 < accept.1 ∨ accept.2 < s1 then (RuneError, 1)
          else if sz ≤ 2 then (s0 % 32 * 64 + s1 % 64, 2)
          else
            match rest1 with
            | [] => (RuneError, 1)
            | s2 :: rest2 =>
              if s2 < 0x80 ∨ 0xBF < s2 then (RuneError, 1)
              else if sz ≤ 3 then (s0 % 16 * 4096 + s1 % 64 * 64 + s2 % 64, 3)
              else
                match rest2 with
                | [] => (RuneError, 1)
                | s3 :: _ =>
                  if s3 < 0x80 ∨ 0xBF < s3 then (RuneError, 1)
                  else (s0 % 8 * 262144 + s1 % 64 * 4096 + s2 % 64 * 64 + s3 % 64, 4)

/-- The function `utf8.RuneStart`: `b&0xC0 != 0x80`. -/
def RuneStart (b : Nat) : Bool := decide (b / 64 % 4 ≠ 2)

/-- The bytes `s[start:end]` that `utf8.DecodeLastRuneInString` decodes, from the
reversed string `s[end-1], s[end-2], ...` whose last byte is not ASCII: the loop
`for start--; start >= lim; start--` with `lim = max(0, end - UTFMax)` looks at
`s[end-2]`, `s[end-3]` and `s[end-4]` for a byte that starts a rune and else
leaves `start` at `max(0, end - 5)`. -/
def lastRuneBytes (rev : ByteSeq) : ByteSeq :=
  match rev with
  | [] => []
  | [b1] => [b1]
  | b1 :: b2 :: before2 =>
    if RuneStart b2 = true then [b2, b1]
    else
      match before2 with
      | [] => [b2, b1]
      | b3 :: before3 =>
        if RuneStart b3 = true then [b3, b2, b1]
        else
          match before3 with
          | [] => [b3, b2, b1]
          | b4 :: before4 =>
            if RuneStart b4 = true then [b4, b3, b2, b1]
            else
              match before4 with
              | [] => [b4, b3, b2, b1]
              | b5 :: _ => [b5, b4, b3, b2, b1]

/-- The function `utf8.DecodeLastRuneInString`: the rune and its width. -/
def DecodeLastRuneInString (s : ByteSeq) : Nat × Nat :=
  match s.reverse with
  | [] => (RuneError, 0)
  | b1 :: before =>
    if b1 < RuneSelf then (b1, 1)
    else
      let r := DecodeRuneInString (lastRuneBytes (b1 :: before))
      if r.2 ≠ (lastRuneBytes (b1 :: before)).length then (RuneError, 1) else r

/-- The function `unicode.IsSpace`: the Latin-1 switch, and the table
`White_Space` above Latin-1. -/
def IsSpace (r : Nat) : Bool :=
  if r ≤ 0xFF then
    decide (r = 0x09 ∨ r = 0x0A ∨ r = 0x0B ∨ r = 0x0C ∨ r = 0x0D ∨ r = 0x20 ∨ r = 0x85 ∨ r = 0xA0)
  else
    decide (r = 0x1680 ∨ (0x2000 ≤ r ∧ r ≤ 0x200A) ∨ r = 0x2028 ∨ r = 0x2029 ∨ r = 0x202F
      ∨ r = 0x205F ∨ r = 0x3000)

/-- The table `asciiSpace` of `strings`: whether the entry of a byte is 1. -/
def asciiSpace (c : Nat) : Bool :=
  decide (c = 0x09 ∨ c = 0x0A ∨ c = 0x0B ∨ c = 0x0C ∨ c = 0x0D ∨ c = 0x20)

/-- The function `strings.indexFunc(s, f, truth)`, over the text `rest = s[i:]`
that `for i, r := range s` has still to visit; `none` for `-1`. The first
argument bounds the number of runes. -/
def indexFunc (f : Nat → Bool) (truth : Bool) : Nat → ByteSeq → Nat → Option Nat
  | 0, _, _ => none
  | fuel + 1, rest, i =>
    if rest = [] then none
    else
      let r := DecodeRuneInString rest
      if f r.1 = truth then some i else indexFunc f truth fuel (rest.drop r.2) (i + r.2)

/-- The function `strings.TrimLeftFunc`. -/
def TrimLeftFunc (s : ByteSeq) (f : Nat → Bool) : ByteSeq :=
  match indexFunc f false (s.length + 1) s 0 with
  | none => []
  | some i => s.drop i

/-- The function `strings.lastIndexFunc(s, f, truth)` from index `i` down; `none`
for `-1`. The first argument bounds the number of runes. -/
def lastIndexFunc (f : Nat → Bool) (truth : Bool) (s : ByteSeq) : Nat → Nat → Option Nat
  | 0, _ => none
  | fuel + 1, i =>
    if i > 0 then
      let r := DecodeLastRuneInString (s.take i)
      if f r.1 = truth then some (i - r.2) else lastIndexFunc f truth s fuel (i - r.2)
    else none

/-- The function `strings.TrimRightFunc`. -/
def TrimRightFunc (s : ByteSeq) (f : Nat → Bool) : ByteSeq :=
  match lastIndexFunc f false s (s.length + 1) s.length with
  | some i =>
    if s.getD i 0 ≥ RuneSelf then s.take (i + (DecodeRuneInString (s.drop i)).2)
    else s.take (i + 1)
  | none => s.take 0

/-- The function `strings.TrimFunc`. -/
def TrimFunc (s : ByteSeq) (f : Nat → Bool) : ByteSeq :=
  TrimRightFunc (TrimLeftFunc s f) f

/-- The second loop of `strings.TrimSpace`, `for ; stop > start; stop--`, over
`t = s[start:]` with `stop` counted from `start`, and the final slice. -/
def trimSpaceStop (t : ByteSeq) : Nat → ByteSeq
  | 0 => []
  | stop + 1 =>
    let c := t.getD stop 0
    if c ≥ RuneSelf then TrimRightFunc (t.take (stop + 1)) IsSpace
    else if asciiSpace c = false then t.take (stop + 1)
    else trimSpaceStop t stop

/-- The function `strings.TrimSpace`: its first loop, `for ; start < len(s);
start++`, over `s[start:]`, followed by the second loop. -/
def TrimSpace : ByteSeq → ByteSeq
  | [] => []
  | c :: rest =>
    if c ≥ RuneSelf then TrimFunc (c :: rest) IsSpace
    else if asciiSpace c = false then trimSpaceStop (c :: rest) (c :: rest).length
    else TrimSpace rest

/-- The function `os.ReadFile`. -/
def osReadFile (w : World) (f : ByteSeq) : ByteSeq × Option GoError :=
  match w.files f with
  | .missing => ([], some (.sysError (ascii "open " ++ f ++ ascii ": no such file or directory")))
  | .blocked err => ([], some err)
  | .regular data readErr => (data, readErr)

/-- The function `NewInputFromFile`. -/
def NewInputFromFile (f : ByteSeq) (w : World) : Option Input × Option GoError :=
  match osReadFile w f with
  | (_, some err) => (none, some err)
  | (b, none) => (some { SessionID := TrimSpace b }, none)

/-! ## Sample worlds -/

/-- A world whose only file is `fn` with content `data`, and whose remote
service cannot be reached. -/
def cachedWorld (fn data : ByteSeq) : World :=
  { files := fun n => if n = fn then .regular data none else .missing,
    sent := [],
    remote := fun _ _ => .transportError (.sysError (ascii "no route to host")),
    write := fun _ _ => .done }

/-- A world with no file, whose remote service answers every request with
`resp` and in which every write has outcome `out`. -/
def freshWorld (resp : Response) (out : WriteOutcome) : World :=
  { files := fun _ => .missing,
    sent := [],
    remote := fun _ _ => resp,
    write := fun _ _ => out }

/-- A world in which no file can be opened: `os.Open` fails with `err`, which is
not `os.ErrNotExist`. The remote service answers every request with `resp`. -/
def blockedWorld (err : GoError) (resp : Response) : World :=
  { files := fun _ => .blocked err,
    sent := [],
    remote := fun _ _ => resp,
    write := fun _ _ => .done }

/-! ## Reference notions for the claims -/

/-- The pieces of a text between its newline characters, without the final
piece when that piece is empty. -/
def splitLines (data : ByteSeq) : List ByteSeq :=
  let pieces := data.splitOn 10
  if pieces.getLast? = some [] then pieces.dropLast else pieces

/-- The lines of a text: its pieces, each without the carriage return that may
precede the newline. -/
def textLines (data : ByteSeq) : List ByteSeq := (splitLines data).map dropCR

/-- The UTF-8 encoding of a code point. -/
def encodeRune (r : Nat) : ByteSeq :=
  if r < 0x80 then [r]
  else if r < 0x800 then [0xC0 + r / 64, 0x80 + r % 64]
  else if r < 0x10000 then [0xE0 + r / 4096, 0x80 + r / 64 % 64, 0x80 + r % 64]
  else [0xF0 + r / 262144, 0x80 + r / 4096 % 64, 0x80 + r / 64 % 64, 0x80 + r % 64]

/-- The code points with the Unicode property `White_Space`. -/
def whiteSpace : List Nat :=
  [0x09, 0x0A, 0x0B, 0x0C, 0x0D, 0x20, 0x85, 0xA0, 0x1680, 0x2000, 0x2001, 0x2002, 0x2003,
    0x2004, 0x2005, 0x2006, 0x2007, 0x2008, 0x2009, 0x200A, 0x2028, 0x2029, 0x202F, 0x205F,
    0x3000]

/-- The UTF-8 encodings of the white space characters. -/
def spaceEncodings : List ByteSeq := whiteSpace.map encodeRune

/-- A text that consists of white space characters only. -/
inductive AllSpace : ByteSeq → Prop where
  | nil : AllSpace []
  | cons (e rest : ByteSeq) : e ∈ spaceEncodings → AllSpace rest → AllSpace (e ++ rest)

/-- A text whose first character is a white space character. -/
def StartsWithSpace (s : ByteSeq) : Prop := ∃ e ∈ spaceEncodings, e <+: s

/-- A text whose last character is a white space character. -/
def EndsWithSpace (s : ByteSeq) : Prop := ∃ e ∈ spaceEncodings, e <:+ s

/-- The shapes of a text and of the rune that `DecodeRuneInString` returns for it. -/
def RuneShape (s : ByteSeq) (r size : Nat) : Prop :=
  (size = 1 ∧ ∃ s0 rest, s = s0 :: rest ∧ ((s0 < 0x80 ∧ r = s0) ∨ (0x80 ≤ s0 ∧ r = RuneError)))
    ∨ (size = 2 ∧ ∃ s0 s1 x, s = s0 :: s1 :: x ∧ (0xC2 ≤ s0 ∧ s0 < 0xE0)
        ∧ (0x80 ≤ s1 ∧ s1 ≤ 0xBF) ∧ r = s0 % 32 * 64 + s1 % 64)
    ∨ (size = 3 ∧ ∃ s0 s1 s2 x, s = s0 :: s1 :: s2 :: x ∧ (0xE0 ≤ s0 ∧ s0 < 0xF0)
        ∧ (0x80 ≤ s1 ∧ s1 ≤ 0xBF) ∧ (s0 = 0xE0 → 0xA0 ≤ s1) ∧ (s0 = 0xED → s1 ≤ 0x9F)
        ∧ (0x80 ≤ s2 ∧ s2 ≤ 0xBF) ∧ r = s0 % 16 * 4096 + s1 % 64 * 64 + s2 % 64)
    ∨ (size = 4 ∧ ∃ s0 s1 s2 s3 x, s = s0 :: s1 :: s2 :: s3 :: x ∧ (0xF0 ≤ s0 ∧ s0 ≤ 0xF4)
        ∧ (0x80 ≤ s1 ∧ s1 ≤ 0xBF) ∧ (s0 = 0xF0 → 0x90 ≤ s1) ∧ (s0 = 0xF4 → s1 ≤ 0x8F)
        ∧ (0x80 ≤ s2 ∧ s2 ≤ 0xBF) ∧ (0x80 ≤ s3 ∧ s3 ≤ 0xBF)
        ∧ r = s0 % 8 * 262144 + s1 % 64 * 4096 + s2 % 64 * 64 + s3 % 64)

/-- An input whose first line is 65536 zeros: a decimal numeral of value 0 that
does not fit the buffer of the scanner. -/
def longLineInput : ByteSeq := List.replicate 65536 48 ++ ascii "\nbad\n"

/-- The value of a digit character: `0` to `9`, and `a` to `z` or `A` to `Z` for
ten to thirty-five. -/
def digitOfChar (c : Nat) : Option Nat :=
  if 48 ≤ c ∧ c ≤ 57 then some (c - 48)
  else if 97 ≤ c ∧ c ≤ 122 then some (c - 87)
  else if 65 ≤ c ∧ c ≤ 90 then some (c - 55)
  else none

/-- The positional value in base `b` of a string of digits that continues a
numeral of value `n`; `none` when a character is not a digit of base `b`. -/
def digitsValue (b : Nat) : ByteSeq → Nat → Option Nat
  | [], n => some n
  | c :: rest, n =>
    match digitOfChar c with
    | some d => if d < b then digitsValue b rest (n * b + d) else none
    | none => none

/-- The positional value in base `b` of digits that single underscores may
separate, continuing a numeral of value `n`. An underscore may stand only where
`sep` holds, that is right after a digit or right after the base prefix, and the
text may end only there too; `none` for any other text. -/
def separatedValue (b : Nat) : ByteSeq → Bool → Nat → Option Nat
  | [], sep, n => if sep = true then some n else none
  | c :: rest, sep, n =>
    if c = 95 then (if sep = true then separatedValue b rest false n else none)
    else
      match digitOfChar c with
      | some d => if d < b then separatedValue b rest true (n * b + d) else none
      | none => none

/-- The value of an unsigned integer literal, the numerals of base 0: the prefix
`0b`, `0o` or `0x` (in either case) and digits of base 2, 8 or 16; or a leading
`0` and digits of base 8; or decimal digits; underscores may separate the digits
and follow the prefix. `none` for any other text. -/
def literalValue (s : ByteSeq) : Option Nat :=
  match s with
  | 48 :: p :: q :: rest =>
    if p = 98 ∨ p = 66 then separatedValue 2 (q :: rest) true 0
    else if p = 111 ∨ p = 79 then separatedValue 8 (q :: rest) true 0
    else if p = 120 ∨ p = 88 then separatedValue 16 (q :: rest) true 0
    else separatedValue 8 (p :: q :: rest) true 0
  | 48 :: rest => separatedValue 8 rest true 0
  | _ => separatedValue 10 s false 0

/-- The value of an unsigned base-`b` numeral: for `2 ≤ b ≤ 36` one or more
digits of base `b`, for `b = 0` an integer literal whose prefix tells the base.
No text is a numeral of another base. -/
def unsignedValue (b : Int) (s : ByteSeq) : Option Nat :=
  if b = 0 then literalValue s
  else if 2 ≤ b ∧ b ≤ 36 then (if s = [] then none else digitsValue b.toNat s 0)
  else none

/-- The value of a base-`b` numeral: an optional sign followed by an unsigned
base-`b` numeral. `none` for any other text. -/
def numeralValue (b : Int) (s : ByteSeq) : Option Int :=
  match s with
  | [] => none
  | 43 :: ds => Option.map (fun u : Nat => (u : Int)) (unsignedValue b ds)
  | 45 :: ds => Option.map (fun u : Nat => -(u : Int)) (unsignedValue b ds)
  | ds => Option.map (fun u : Nat => (u : Int)) (unsignedValue b ds)

/-- An input of one line of 65536 zeros. -/
def longZeroLine : ByteSeq := List.replicate 65536 48 ++ ascii "\n"

/-- An input whose first line is 65535 zeros and ends with a carriage return and
a newline: the line has 65535 bytes, the text in front of its newline 65536. -/
def longLineCRInput : ByteSeq := List.replicate 65535 48 ++ ascii "\r\nbad\n"

/-- An input of one line of 65535 zeros that ends with a carriage return and a
newline. -/
def longZeroLineCR : ByteSeq := List.replicate 65535 48 ++ ascii "\r\n"

/-- Two successive calls send at most one request: `call` maps the world before
a call to the world after it, `fn` is the cache file. The two calls together
send at most one request, the second call sends none, and unless the cache file
could not be opened at the start, the second call finds the cache file. -/
def AtMostOneRequest (fn : ByteSeq) (call : World → World) (w : World) : Prop :=
  (call (call w)).sent.length ≤ w.sent.length + 1
    ∧ (call (call w)).sent = (call w).sent
    ∧ ((∀ e, w.files fn ≠ .blocked e) → ∃ data e, (call w).files fn = .regular data e)

/-! ## Lines and the scanner -/

theorem splitOn_ne_nil (data : ByteSeq) : data.splitOn 10 ≠ [] := by
  unfold List.splitOn
  exact List.splitOnP_ne_nil _ _

theorem splitOn_first (line rest : ByteSeq) (h : 10 ∉ line) :
    (line ++ 10 :: rest).splitOn 10 = line :: rest.splitOn 10 := by
  unfold List.splitOn
  apply List.splitOnP_first
  · intro x hx
    simp only [beq_iff_eq]
    rintro rfl
    exact h hx
  · simp

theorem splitOn_single (data : ByteSeq) (h : 10 ∉ data) : data.splitOn 10 = [data] := by
  unfold List.splitOn
  apply List.splitOnP_eq_single
  intro x hx
  simp only [beq_iff_eq]
  rintro rfl
  exact h hx

theorem splitLines_nil : splitLines [] = [] := by decide

theorem splitLines_single (data : ByteSeq) (h : 10 ∉ data) (hne : data ≠ []) :
    splitLines data = [data] := by
  unfold splitLines
  simp [splitOn_single data h, hne]

theorem splitLines_first (line rest : ByteSeq) (h : 10 ∉ line) :
    splitLines (line ++ 10 :: rest) = line :: splitLines rest := by
  unfold splitLines
  have hne := splitOn_ne_nil rest
  simp only [splitOn_first line rest h]
  rcases hsp : rest.splitOn 10 with _ | ⟨p, ps⟩
  · exact absurd hsp hne
  · simp only [List.getLast?_cons_cons, List.dropLast_cons₂]
    split <;> rfl

theorem exists_first_newline : ∀ data : ByteSeq, 10 ∈ data →
    ∃ line rest, data = line ++ 10 :: rest ∧ 10 ∉ line
  | [], h => by simp at h
  | b :: data, h => by
    by_cases hb : b = 10
    · exact ⟨[], data, by simp [hb], by simp⟩
    · have h' : 10 ∈ data := by
        rcases List.mem_cons.1 h with h1 | h1
        · exact absurd h1.symm hb
        · exact h1
      obtain ⟨line, rest, h1, h2⟩ := exists_first_newline data h'
      refine ⟨b :: line, rest, by simp [h1], ?_⟩
      simp only [List.mem_cons, not_or]
      exact ⟨fun h3 => hb h3.symm, h2⟩


theorem IndexByte_first : ∀ (line rest : ByteSeq), 10 ∉ line →
    IndexByte (line ++ 10 :: rest) 10 = some line.length
  | [], rest, _ => by simp [IndexByte]
  | b :: line, rest, h => by
    have hb : b ≠ 10 := fun hb => h (by simp [hb])
    have hl : 10 ∉ line := fun hl => h (by simp [hl])
    simp [IndexByte, hb, IndexByte_first line rest hl]

theorem IndexByte_none : ∀ (data : ByteSeq), 10 ∉ data → IndexByte data 10 = none
  | [], _ => by simp [IndexByte]
  | b :: data, h => by
    have hb : b ≠ 10 := fun hb => h (by simp [hb])
    have hl : 10 ∉ data := fun hl => h (by simp [hl])
    simp [IndexByte, hb, IndexByte_none data hl]

theorem scanAll_nil (fuel : Nat) : scanAll fuel [] = ([], none) := by
  cases fuel with
  | zero => rfl
  | succ n => simp [scanAll, ScanLines, MaxScanTokenSize]

theorem scanAll_line (fuel : Nat) (line rest : ByteSeq) (h : 10 ∉ line)
    (hlen : line.length < MaxScanTokenSize) :
    scanAll (fuel + 1) (line ++ 10 :: rest)
      = (dropCR line :: (scanAll fuel rest).1, (scanAll fuel rest).2) := by
  obtain ⟨k, hk⟩ : ∃ k, MaxScanTokenSize - line.length = k + 1 :=
    ⟨MaxScanTokenSize - line.length - 1, by omega⟩
  have hwin : List.take MaxScanTokenSize (line ++ 10 :: rest) = line ++ 10 :: List.take k rest := by
    rw [List.take_append_eq_append_take, List.take_of_length_le (le_of_lt hlen), hk,
      List.take_succ_cons]
  have hscan : ∀ atEOF, ScanLines (line ++ 10 :: List.take k rest) atEOF
      = (line.length + 1, some (dropCR line)) := by
    intro atEOF
    unfold ScanLines
    rw [IndexByte_first line _ h]
    simp
  simp only [scanAll, hwin, hscan]
  simp

theorem scanAll_last (fuel : Nat) (data : ByteSeq) (h : 10 ∉ data) (hne : data ≠ [])
    (hlen : data.length < MaxScanTokenSize) :
    scanAll (fuel + 1) data = ([dropCR data], none) := by
  have hwin : List.take MaxScanTokenSize data = data := List.take_of_length_le (le_of_lt hlen)
  have hpos : data.length ≠ 0 := by
    intro h0
    exact hne (List.length_eq_zero.1 h0)
  have hscan : ScanLines data true = (data.length, some (dropCR data)) := by
    unfold ScanLines
    rw [IndexByte_none data h]
    simp [hpos]
  simp only [scanAll, hwin, hlen, decide_True, hscan, List.drop_length, scanAll_nil]

theorem scanAll_tooLong (fuel : Nat) (data : ByteSeq)
    (h : 10 ∉ List.take MaxScanTokenSize data) (hlen : MaxScanTokenSize ≤ data.length) :
    scanAll (fuel + 1) data = ([], some ErrTooLong) := by
  have hnot : ¬ data.length < MaxScanTokenSize := by omega
  have hscan : ScanLines (List.take MaxScanTokenSize data) false = (0, none) := by
    unfold ScanLines
    rw [IndexByte_none _ h]
    simp
  simp only [scanAll, hnot, decide_False, hscan]
  simp

/-- The scanner delivers the lines in front of any point up to which every piece
fits the buffer, and continues on the text behind them. -/
theorem scanAll_front : ∀ (pre post : List ByteSeq) (data : ByteSeq) (fuel : Nat),
    splitLines data = pre ++ post → (∀ l ∈ pre, l.length < MaxScanTokenSize) →
    data.length < fuel →
    ∃ data' fuel', data'.length < fuel' ∧ splitLines data' = post ∧
      scanAll fuel data = (pre.map dropCR ++ (scanAll fuel' data').1, (scanAll fuel' data').2)
  | [], post, data, fuel, hs, _, hf => ⟨data, fuel, hf, by simpa using hs, by simp⟩
  | l :: pre, post, data, fuel, hs, hl, hf => by
    obtain ⟨fuel, rfl⟩ : ∃ n, fuel = n + 1 := ⟨fuel - 1, by omega⟩
    by_cases hnl : 10 ∈ data
    · obtain ⟨line, rest, rfl, hline⟩ := exists_first_newline data hnl
      rw [splitLines_first line rest hline] at hs
      simp only [List.cons_append, List.cons.injEq] at hs
      obtain ⟨rfl, hs⟩ := hs
      have hlen : line.length < MaxScanTokenSize := hl line (by simp)
      have hf' : rest.length < fuel := by
        simp only [List.length_append, List.length_cons] at hf
        omega
      obtain ⟨data', fuel', h1, h2, h3⟩ :=
        scanAll_front pre post rest fuel hs (fun x hx => hl x (by simp [hx])) hf'
      refine ⟨data', fuel', h1, h2, ?_⟩
      rw [scanAll_line fuel line rest hline hlen, h3]
      simp
    · have hne : data ≠ [] := by
        rintro rfl
        rw [splitLines_nil] at hs
        simp at hs
      rw [splitLines_single data hnl hne] at hs
      simp only [List.cons_append, List.cons.injEq] at hs
      obtain ⟨rfl, hs⟩ := hs
      obtain ⟨rfl, rfl⟩ : pre = [] ∧ post = [] := by
        cases pre <;> simp_all
      refine ⟨[], 1, by simp, splitLines_nil, ?_⟩
      rw [scanAll_last fuel data hnl hne (hl data (by simp)), scanAll_nil]
      simp

theorem splitLines_eq_nil (data : ByteSeq) (h : splitLines data = []) : data = [] := by
  by_contra hne
  by_cases hnl : 10 ∈ data
  · obtain ⟨line, rest, rfl, hline⟩ := exists_first_newline data hnl
    rw [splitLines_first line rest hline] at h
    simp at h
  · rw [splitLines_single data hnl hne] at h
    simp at h

/-- When every piece of the text fits the buffer the scanner delivers exactly
the lines of the text and ends without error. -/
theorem Scanner_all (rc : Stream) (h : ∀ l ∈ splitLines rc.data, l.length < MaxScanTokenSize) :
    Scanner rc = (textLines rc.data, none) := by
  obtain ⟨data', fuel', _, h2, h3⟩ :=
    scanAll_front (splitLines rc.data) [] rc.data (rc.data.length + 1) (by simp) h (by omega)
  have := splitLines_eq_nil data' h2
  subst this
  rw [scanAll_nil] at h3
  simpa [Scanner, textLines] using h3

/-- The scanner delivers the lines in front of any point up to which every
piece fits the buffer. -/
theorem Scanner_front (rc : Stream) (pre post : List ByteSeq)
    (hs : splitLines rc.data = pre ++ post) (h : ∀ l ∈ pre, l.length < MaxScanTokenSize) :
    ∃ rest, (Scanner rc).1 = pre.map dropCR ++ rest := by
  obtain ⟨data', fuel', _, _, h3⟩ :=
    scanAll_front pre post rc.data (rc.data.length + 1) hs h (by omega)
  exact ⟨(scanAll fuel' data').1, by simp [Scanner, h3]⟩


theorem scanLoop_ok_front {α ε : Type} (convert : ByteSeq → Except ε α)
    (failure : Nat → ByteSeq → ε → GoError) (f : ByteSeq → α) :
    ∀ (toks rest : List ByteSeq) (acc : List α), (∀ t ∈ toks, convert t = .ok (f t)) →
      scanLoop convert failure (toks ++ rest) acc
        = scanLoop convert failure rest (acc ++ toks.map f)
  | [], rest, acc, _ => by simp
  | t :: toks, rest, acc, h => by
    have ht : convert t = .ok (f t) := h t (by simp)
    have ih := scanLoop_ok_front convert failure f toks rest (acc ++ [f t])
      (fun x hx => h x (by simp [hx]))
    rw [List.cons_append, scanLoop]
    simp only [ht]
    rw [ih]
    simp

theorem scanLoop_error {α ε : Type} (convert : ByteSeq → Except ε α)
    (failure : Nat → ByteSeq → ε → GoError) (t : ByteSeq) (rest : List ByteSeq) (acc : List α)
    (e : ε) (h : convert t = .error e) :
    scanLoop convert failure (t :: rest) acc = (acc, some (failure acc.length t e)) := by
  simp only [scanLoop, h]

theorem checkErr_ok {α : Type} (r : α × Option GoError) (h : r.2 = none) :
    checkErr r = .ok r.1 := by
  simp only [checkErr, h]

theorem checkErr_error {α : Type} (r : α × Option GoError) (e : GoError) (h : r.2 = some e) :
    checkErr r = .error e := by
  simp only [checkErr, h]

theorem Reader_hit (i : Input) (year day : Int) (w : World) (data : ByteSeq)
    (e : Option GoError) (h : w.files (cacheFileName year day) = .regular data e) :
    i.Reader year day w = (.ok ⟨data, e⟩, w) := by
  simp only [Input.Reader, h]

theorem Reader_cachedWorld (i : Input) (year day : Int) (data : ByteSeq) :
    i.Reader year day (cachedWorld (cacheFileName year day) data)
      = (.ok ⟨data, none⟩, cachedWorld (cacheFileName year day) data) := by
  apply Reader_hit
  simp [cachedWorld]

/-- The shape of the result of a typed accessor: the first lines that convert, then
a line that does not. -/
theorem scanLoop_stops {α ε : Type} (convert : ByteSeq → Except ε α)
    (failure : Nat → ByteSeq → ε → GoError) (f : ByteSeq → α) (rc : Stream)
    (good : List ByteSeq) (bad : ByteSeq) (later : List ByteSeq) (e : ε)
    (hlines : splitLines rc.data = good ++ bad :: later)
    (hfit : ∀ l ∈ good ++ [bad], l.length < MaxScanTokenSize)
    (hgood : ∀ l ∈ good, convert (dropCR l) = .ok (f (dropCR l)))
    (hbad : convert (dropCR bad) = .error e) :
    scanLoop convert failure (Scanner rc).1 []
      = (good.map (fun l => f (dropCR l)), some (failure good.length (dropCR bad) e)) := by
  obtain ⟨rest, hrest⟩ := Scanner_front rc (good ++ [bad]) later (by simpa using hlines) hfit
  rw [hrest, List.map_append, List.append_assoc,
    scanLoop_ok_front convert failure f (good.map dropCR) _ []
      (by simpa using hgood)]
  simp only [List.map_cons, List.map_nil, List.singleton_append, List.nil_append]
  rw [scanLoop_error convert failure _ _ _ e hbad]
  simp

/-- The shape of the result of a typed accessor when every line converts. -/
theorem scanLoop_total {α ε : Type} (convert : ByteSeq → Except ε α)
    (failure : Nat → ByteSeq → ε → GoError) (f : ByteSeq → α) (rc : Stream)
    (hfit : ∀ l ∈ splitLines rc.data, l.length < MaxScanTokenSize)
    (hgood : ∀ l ∈ textLines rc.data, convert l = .ok (f l)) :
    scanLoop convert failure (Scanner rc).1 [] = ((textLines rc.data).map f, none) := by
  rw [Scanner_all rc hfit]
  have := scanLoop_ok_front convert failure f (textLines rc.data) [] [] hgood
  simpa [scanLoop] using this

/-- C1, amended: the partial-result law of `Ints`. Let the stream that `Reader`
returns have the pieces `good ++ bad :: later` between its newlines, each piece of
`good` and `bad` shorter than `MaxScanTokenSize` bytes, let every line of `good`
(its piece without the carriage return that may end it) convert under `Atoi` and
let the line of `bad` fail with `cause`. Then `Ints` returns exactly the values
of the lines of `good`, in order, together with the error
`fmt.Errorf("At index %d: %w", len(good), cause)`, whose message starts with
`At index k: ` for `k = len(good)`; the pieces `later` do not occur in the
result. -/
theorem Ints_partial_result (i : Input) (year day : Int) (w w1 : World) (rc : Stream)
    (good : List ByteSeq) (bad : ByteSeq) (later : List ByteSeq) (cause : GoError)
    (hread : i.Reader year day w = (.ok rc, w1))
    (hlines : splitLines rc.data = good ++ bad :: later)
    (hfit : ∀ l ∈ good ++ [bad], l.length < MaxScanTokenSize)
    (hgood : ∀ l ∈ good, (Atoi (dropCR l)).2 = none)
    (hbad : (Atoi (dropCR bad)).2 = some cause) :
    i.Ints year day w
        = ((good.map (fun l => (Atoi (dropCR l)).1), some (atIndexWrap good.length cause)), w1)
      ∧ ∀ quote : ByteSeq → ByteSeq, (atIndexWrap good.length cause).Error quote
          = ascii "At index " ++ fmtNat good.length ++ ascii ": " ++ cause.Error quote := by
  constructor
  · simp only [Input.Ints, hread]
    rw [scanLoop_stops _ _ (fun t => (Atoi t).1) rc good bad later cause hlines hfit
      (fun l hl => checkErr_ok _ (hgood l hl)) (checkErr_error _ _ hbad)]
  · intro quote
    simp [atIndexWrap, GoError.Error]

/-- C1, witness: the lines `10`, `20`, `bad`, `40` give `[10, 20]` and an error that
wraps the failure of `Atoi` on `bad` at index 2. -/
theorem Ints_partial_result_witness :
    (Input.Ints ⟨[]⟩ 2018 1 (cachedWorld (cacheFileName 2018 1) (ascii "10\n20\nbad\n40"))).1
        = ([10, 20], some (atIndexWrap 2 (syntaxError fnAtoi (ascii "bad"))))
      ∧ fmtNat 2 = ascii "2" :=
  ⟨(congrArg Prod.fst (Ints_partial_result ⟨[]⟩ 2018 1
      (cachedWorld (cacheFileName 2018 1) (ascii "10\n20\nbad\n40")) _ _
      [ascii "10", ascii "20"] (ascii "bad") [ascii "40"] (syntaxError fnAtoi (ascii "bad"))
      (Reader_cachedWorld _ _ _ _) (by decide) (by decide) (by decide) (by decide)).1).trans
      (by decide),
    by decide⟩

theorem parseUintLoop_zeros (s0 : ByteSeq) (cutoff maxVal : Nat) (hc : 0 < cutoff) :
    ∀ m : Nat, parseUintLoop s0 10 false cutoff maxVal (List.replicate m 48) 0 false = (0, none)
  | 0 => by simp [parseUintLoop]
  | m + 1 => by
    have hcut : ¬ cutoff ≤ 0 := by omega
    simp [List.replicate_succ, parseUintLoop, digitValue, hcut, parseUintLoop_zeros s0 cutoff maxVal hc m]


theorem ParseUint_zeros (m : Nat) : ParseUint (48 :: List.replicate m 48) 10 0 = (0, none) := by
  have hloop := parseUintLoop_zeros (48 :: List.replicate m 48) ((2 ^ 64 - 1) / 10 + 1)
    ((2 ^ 64 % 2 ^ 64 + 2 ^ 64 - 1) % 2 ^ 64) (Nat.succ_pos _) (m + 1)
  rw [List.replicate_succ] at hloop
  have h10 : Int.toNat 10 = 10 := rfl
  have h64 : Int.toNat 64 = 64 := rfl
  unfold ParseUint
  simp only [IntSize]
  norm_num [h10, h64]
  exact hloop

theorem ParseInt_zeros (m : Nat) : ParseInt (48 :: List.replicate m 48) 10 0 = (0, none) := by
  simp [ParseInt, ParseUint_zeros, toInt64, IntSize]

theorem Atoi_zeros (n : Nat) (hn : 19 ≤ n) : Atoi (List.replicate n 48) = (0, none) := by
  obtain ⟨m, rfl⟩ : ∃ m, n = m + 1 := ⟨n - 1, by omega⟩
  have hlen : ¬ (m + 1 < 19) := by omega
  simp [Atoi, List.replicate_succ, hlen, ParseInt_zeros]

theorem Scanner_tooLong (n : Nat) (tail : ByteSeq) (e : Option GoError)
    (hn : MaxScanTokenSize ≤ n) :
    Scanner ⟨List.replicate n 48 ++ tail, e⟩ = ([], some ErrTooLong) := by
  have hmem : 10 ∉ List.take MaxScanTokenSize (List.replicate n 48 ++ tail) := by
    intro h
    rw [List.take_append_of_le_length (by simpa using hn)] at h
    have h2 := List.mem_of_mem_take h
    simp [List.mem_replicate] at h2
  exact scanAll_tooLong (List.replicate n 48 ++ tail).length _ hmem (by simp; omega)

theorem Scanner_stops_early (pre tail : ByteSeq) (e : Option GoError) (h10 : 10 ∉ pre)
    (hn : MaxScanTokenSize ≤ pre.length) :
    Scanner ⟨pre ++ tail, e⟩ = ([], some ErrTooLong) := by
  have hmem : 10 ∉ List.take MaxScanTokenSize (pre ++ tail) := by
    intro h
    rw [List.take_append_of_le_length hn] at h
    exact h10 (List.mem_of_mem_take h)
  exact scanAll_tooLong (pre ++ tail).length _ hmem (by simp; omega)

theorem Ints_stops_early (i : Input) (year day : Int) (pre tail : ByteSeq) (h10 : 10 ∉ pre)
    (hn : MaxScanTokenSize ≤ pre.length) :
    (i.Ints year day (cachedWorld (cacheFileName year day) (pre ++ tail))).1 = ([], none) := by
  simp only [Input.Ints, Reader_cachedWorld, Scanner_stops_early pre tail none h10 hn, scanLoop]

theorem Int64s_stops_early (i : Input) (year day base : Int) (pre tail : ByteSeq)
    (h10 : 10 ∉ pre) (hn : MaxScanTokenSize ≤ pre.length) :
    (i.Int64s year day base (cachedWorld (cacheFileName year day) (pre ++ tail))).1
      = ([], none) := by
  simp only [Input.Int64s, Reader_cachedWorld, Scanner_stops_early pre tail none h10 hn, scanLoop]

theorem zerosCR_no_newline (n : Nat) : 10 ∉ List.replicate n 48 ++ [13] := by
  intro h
  rcases List.mem_append.1 h with h | h
  · exact absurd (List.eq_of_mem_replicate h) (by decide)
  · simp at h

theorem dropCR_zerosCR (n : Nat) : dropCR (List.replicate n 48 ++ [13]) = List.replicate n 48 := by
  simp [dropCR]

theorem splitLines_zerosCR (n : Nat) (rest : ByteSeq) :
    splitLines (List.replicate n 48 ++ 13 :: 10 :: rest)
      = (List.replicate n 48 ++ [13]) :: splitLines rest := by
  have h : List.replicate n 48 ++ 13 :: 10 :: rest
      = (List.replicate n 48 ++ [13]) ++ 10 :: rest := by simp
  rw [h, splitLines_first _ _ (zerosCR_no_newline n)]

theorem textLines_longLineCRInput :
    textLines longLineCRInput = [List.replicate 65535 48, ascii "bad"] := by
  have h : ascii "\r\nbad\n" = 13 :: 10 :: ascii "bad\n" := by decide
  have h2 : splitLines (ascii "bad\n") = [ascii "bad"] := by decide
  have h3 : dropCR (ascii "bad") = ascii "bad" := by decide
  rw [textLines, longLineCRInput, h, splitLines_zerosCR, h2, List.map_cons, List.map_cons,
    List.map_nil, dropCR_zerosCR, h3]

theorem Ints_longLineCRInput (i : Input) (year day : Int) :
    (i.Ints year day (cachedWorld (cacheFileName year day) longLineCRInput)).1 = ([], none) := by
  have h : longLineCRInput = (List.replicate 65535 48 ++ [13]) ++ ascii "\nbad\n" := by
    have h1 : ascii "\r\nbad\n" = [13] ++ ascii "\nbad\n" := by decide
    rw [longLineCRInput, h1, List.append_assoc]
  rw [h]
  exact Ints_stops_early i year day _ _ (zerosCR_no_newline 65535)
    (by rw [List.length_append, List.length_replicate]; decide)

theorem Int64s_longLineCRInput (i : Input) (year day base : Int) :
    (i.Int64s year day base (cachedWorld (cacheFileName year day) longLineCRInput)).1
      = ([], none) := by
  have h : longLineCRInput = (List.replicate 65535 48 ++ [13]) ++ ascii "\nbad\n" := by
    have h1 : ascii "\r\nbad\n" = [13] ++ ascii "\nbad\n" := by decide
    rw [longLineCRInput, h1, List.append_assoc]
  rw [h]
  exact Int64s_stops_early i year day base _ _ (zerosCR_no_newline 65535)
    (by rw [List.length_append, List.length_replicate]; decide)

theorem Ints_tooLong (i : Input) (year day : Int) (n : Nat) (tail : ByteSeq)
    (hn : MaxScanTokenSize ≤ n) :
    (i.Ints year day (cachedWorld (cacheFileName year day) (List.replicate n 48 ++ tail))).1
      = ([], none) := by
  simp only [Input.Ints, Reader_cachedWorld, Scanner_tooLong n tail none hn, scanLoop]

theorem Int64s_tooLong (i : Input) (year day base : Int) (n : Nat) (tail : ByteSeq)
    (hn : MaxScanTokenSize ≤ n) :
    (i.Int64s year day base
      (cachedWorld (cacheFileName year day) (List.replicate n 48 ++ tail))).1 = ([], none) := by
  simp only [Input.Int64s, Reader_cachedWorld, Scanner_tooLong n tail none hn, scanLoop]

theorem splitLines_longLineInput :
    splitLines longLineInput = [List.replicate 65536 48, ascii "bad"] := by
  have h : ascii "\nbad\n" = 10 :: ascii "bad\n" := by decide
  have h2 : splitLines (ascii "bad\n") = [ascii "bad"] := by decide
  rw [longLineInput, h,
    splitLines_first _ _ (fun hm => absurd (List.eq_of_mem_replicate hm) (by decide)), h2]

/-- C1, counterexample: the input of `longLineInput` has the two lines `0...0`
(65536 zeros) and `bad`; `Atoi` converts the first to 0 and rejects the second, so
the claim asks for `[0]` and an error at index 1. The scanner stops on the first
line with `ErrTooLong`, which `Ints` does not consult: it returns no value and a
nil error. The same holds for the input of `longLineCRInput`, whose first line
has 65535 zeros and a carriage return in front of its newline: what counts is
the text between the newlines, the carriage return included. -/
theorem Ints_long_line_counterexample :
    splitLines longLineInput = [List.replicate 65536 48, ascii "bad"]
      ∧ Atoi (List.replicate 65536 48) = (0, none)
      ∧ (Atoi (ascii "bad")).2 = some (syntaxError fnAtoi (ascii "bad"))
      ∧ (Input.Ints ⟨[]⟩ 2018 1 (cachedWorld (cacheFileName 2018 1) longLineInput)).1
          = ([], none)
      ∧ textLines longLineCRInput = [List.replicate 65535 48, ascii "bad"]
      ∧ Atoi (List.replicate 65535 48) = (0, none)
      ∧ (Input.Ints ⟨[]⟩ 2018 1 (cachedWorld (cacheFileName 2018 1) longLineCRInput)).1
          = ([], none) := by
  exact ⟨splitLines_longLineInput, Atoi_zeros 65536 (by norm_num), by decide,
    Ints_tooLong _ _ _ 65536 _ (by norm_num [MaxScanTokenSize]),
    textLines_longLineCRInput, Atoi_zeros 65535 (by norm_num), Ints_longLineCRInput _ _ _⟩

/-! ## Numerals -/

theorem digitValue_eq (c : Nat) : digitValue c = digitOfChar c := by
  unfold digitValue digitOfChar lower
  split_ifs <;> first | rfl | omega | (congr 1; omega)

theorem digitsValue_ge (b : Nat) : ∀ (ds : ByteSeq) (n V : Nat),
    digitsValue b ds n = some V → n ≤ V
  | [], n, V, h => by
    simp only [digitsValue, Option.some.injEq] at h
    omega
  | c :: rest, n, V, h => by
    simp only [digitsValue] at h
    split at h
    · split at h
      · have := digitsValue_ge b rest _ V h
        have h1 : n ≤ n * b := Nat.le_mul_of_pos_right n (by omega)
        omega
      · exact absurd h (by simp)
    · exact absurd h (by simp)

theorem parseUintLoop_digits (s0 : ByteSeq) (b : Nat) (hb2 : 2 ≤ b) (hb36 : b ≤ 36) :
    ∀ (ds : ByteSeq) (n V : Nat), digitsValue b ds n = some V → V < 2 ^ 64 →
      parseUintLoop s0 b false ((2 ^ 64 - 1) / b + 1) (2 ^ 64 - 1) ds n false = (V, none)
  | [], n, V, h, _ => by
    simp only [digitsValue, Option.some.injEq] at h
    simp [parseUintLoop, h]
  | c :: rest, n, V, h, hV => by
    simp only [digitsValue] at h
    split at h
    · rename_i d hd
      split at h
      · rename_i hdb
        have hge := digitsValue_ge b rest _ V h
        have ih := parseUintLoop_digits s0 b hb2 hb36 rest _ V h hV
        have hmod : b % 256 = b := Nat.mod_eq_of_lt (by omega)
        have hnb : n * b ≤ 2 ^ 64 - 1 := by omega
        have hcut : ¬ n ≥ (2 ^ 64 - 1) / b + 1 := by
          have := (Nat.le_div_iff_mul_le (by omega : 0 < b)).2 hnb
          omega
        have hm1 : n * b % 2 ^ 64 = n * b := Nat.mod_eq_of_lt (by omega)
        have hm2 : (n * b + d) % 2 ^ 64 = n * b + d := Nat.mod_eq_of_lt (by omega)
        have hov : ¬ (n * b + d < n * b ∨ n * b + d > 2 ^ 64 - 1) := by omega
        rw [parseUintLoop]
        simp only [Bool.false_eq_true, and_false, if_false, digitValue_eq, hd, hmod]
        rw [if_neg (by omega), if_neg hcut]
        simp only [hm1, hm2, if_neg hov]
        exact ih
      · exact absurd h (by simp)
    · exact absurd h (by simp)

theorem separatedValue_ge (b : Nat) : ∀ (ds : ByteSeq) (sep : Bool) (n V : Nat),
    separatedValue b ds sep n = some V → n ≤ V
  | [], sep, n, V, h => by
    simp only [separatedValue] at h
    split_ifs at h
    simp only [Option.some.injEq] at h
    omega
  | c :: rest, sep, n, V, h => by
    simp only [separatedValue] at h
    split_ifs at h with h95 hsep
    · exact separatedValue_ge b rest _ n V h
    · split at h
      · split_ifs at h
        have := separatedValue_ge b rest _ _ V h
        have h1 : n ≤ n * b := Nat.le_mul_of_pos_right n (by omega)
        omega
      · exact absurd h (by simp)

theorem parseUintLoop_separated (s0 : ByteSeq) (b : Nat) (hb2 : 2 ≤ b) (hb36 : b ≤ 36)
    (hok : underscoreOK s0 = true) :
    ∀ (ds : ByteSeq) (sep : Bool) (n V : Nat) (us : Bool),
      separatedValue b ds sep n = some V → V < 2 ^ 64 →
      parseUintLoop s0 b true ((2 ^ 64 - 1) / b + 1) (2 ^ 64 - 1) ds n us = (V, none)
  | [], sep, n, V, us, h, _ => by
    simp only [separatedValue] at h
    split_ifs at h
    simp only [Option.some.injEq] at h
    simp [parseUintLoop, h, hok]
  | c :: rest, sep, n, V, us, h, hV => by
    simp only [separatedValue] at h
    split_ifs at h with h95 hsep
    · rw [parseUintLoop, if_pos ⟨h95, rfl⟩]
      exact parseUintLoop_separated s0 b hb2 hb36 hok rest _ n V true h hV
    · split at h
      · rename_i d hd
        split_ifs at h with hdb
        have hge := separatedValue_ge b rest _ _ V h
        have ih := parseUintLoop_separated s0 b hb2 hb36 hok rest _ _ V us h hV
        have hmod : b % 256 = b := Nat.mod_eq_of_lt (by omega)
        have hnb : n * b ≤ 2 ^ 64 - 1 := by omega
        have hcut : ¬ n ≥ (2 ^ 64 - 1) / b + 1 := by
          have := (Nat.le_div_iff_mul_le (by omega : 0 < b)).2 hnb
          omega
        have hm1 : n * b % 2 ^ 64 = n * b := Nat.mod_eq_of_lt (by omega)
        have hm2 : (n * b + d) % 2 ^ 64 = n * b + d := Nat.mod_eq_of_lt (by omega)
        have hov : ¬ (n * b + d < n * b ∨ n * b + d > 2 ^ 64 - 1) := by omega
        rw [parseUintLoop, if_neg (fun hh => h95 hh.1)]
        simp only [digitValue_eq, hd, hmod]
        rw [if_neg (by omega), if_neg hcut]
        simp only [hm1, hm2, if_neg hov]
        exact ih
      · exact absurd h (by simp)

theorem digitOfChar_decimal (c d : Nat) (h : digitOfChar c = some d) (hd : d < 10) :
    48 ≤ c ∧ c ≤ 57 := by
  unfold digitOfChar at h
  split_ifs at h with h1 h2 h3
  · exact h1
  · simp only [Option.some.injEq] at h; omega
  · simp only [Option.some.injEq] at h; omega

theorem digitOfChar_hex (c d : Nat) (h : digitOfChar c = some d) (hd : d < 16) :
    (48 ≤ c ∧ c ≤ 57) ∨ (97 ≤ lower c ∧ lower c ≤ 102) := by
  unfold digitOfChar at h
  unfold lower
  split_ifs at h with h1 h2 h3 <;> simp only [Option.some.injEq] at h
  · exact Or.inl h1
  · right; split_ifs <;> omega
  · right; split_ifs <;> omega

theorem underscoreLoop_separated (b : Nat) (hex : Bool)
    (hbh : b ≤ 10 ∨ (b ≤ 16 ∧ hex = true)) :
    ∀ (ds : ByteSeq) (sep : Bool) (n V : Nat) (saw : Saw),
      separatedValue b ds sep n = some V → (sep = true → saw = Saw.digit) →
      underscoreLoop hex ds saw = true
  | [], sep, n, V, saw, h, hs => by
    simp only [separatedValue] at h
    split_ifs at h with hsep
    simp [underscoreLoop, hs hsep]
  | c :: rest, sep, n, V, saw, h, hs => by
    simp only [separatedValue] at h
    split_ifs at h with h95 hsep
    · subst h95
      rw [underscoreLoop, if_neg (by simp [lower]), if_pos rfl, if_neg (by simp [hs hsep])]
      exact underscoreLoop_separated b hex hbh rest _ n V _ h (by simp)
    · split at h
      · rename_i d hd
        split_ifs at h with hdb
        have hdig : (48 ≤ c ∧ c ≤ 57) ∨ (hex = true ∧ 97 ≤ lower c ∧ lower c ≤ 102) := by
          rcases hbh with h10 | ⟨h16, hx⟩
          · exact Or.inl (digitOfChar_decimal c d hd (by omega))
          · rcases digitOfChar_hex c d hd (by omega) with h1 | h1
            · exact Or.inl h1
            · exact Or.inr ⟨hx, h1⟩
        rw [underscoreLoop, if_pos hdig]
        exact underscoreLoop_separated b hex hbh rest _ _ V _ h (fun _ => rfl)
      · exact absurd h (by simp)


theorem lower_eq_iff (p x : Nat) (hx : x / 32 % 2 = 1) (hx32 : 32 ≤ x) :
    lower p = x ↔ p = x ∨ p = x - 32 := by
  unfold lower
  split_ifs <;> omega

theorem digitOfChar_letter (p : Nat) (h : lower p = 98 ∨ lower p = 111 ∨ lower p = 120) :
    ∃ d, digitOfChar p = some d ∧ 10 ≤ d ∧ p ≠ 95 := by
  have h1 := lower_eq_iff p 98 (by norm_num) (by norm_num)
  have h2 := lower_eq_iff p 111 (by norm_num) (by norm_num)
  have h3 := lower_eq_iff p 120 (by norm_num) (by norm_num)
  rw [h1, h2, h3] at h
  rcases h with (h | h) | (h | h) | (h | h) <;> subst h <;> decide

theorem separatedValue_letter (p : Nat) (rest : ByteSeq) (sep : Bool) (n V : Nat)
    (h : lower p = 98 ∨ lower p = 111 ∨ lower p = 120) :
    separatedValue 8 (p :: rest) sep n ≠ some V := by
  obtain ⟨d, hd, h10, h95⟩ := digitOfChar_letter p h
  simp only [separatedValue, if_neg h95, hd]
  rw [if_neg (by omega)]
  simp

theorem separatedValue_first (b c : Nat) (rest : ByteSeq) (n V : Nat)
    (h : separatedValue b (c :: rest) false n = some V) :
    c ≠ 43 ∧ c ≠ 45 ∧ c ≠ 95 := by
  have h95 : c ≠ 95 := by
    rintro rfl
    simp [separatedValue] at h
  refine ⟨?_, ?_, h95⟩
  · rintro rfl
    simp [separatedValue, digitOfChar] at h
  · rintro rfl
    simp [separatedValue, digitOfChar] at h

theorem underscoreOK_literal (s : ByteSeq) (V : Nat) (h : literalValue s = some V) :
    underscoreOK s = true := by
  rcases s with _ | ⟨c, t⟩
  · simp [literalValue, separatedValue] at h
  by_cases hc : c = 48
  · subst hc
    rcases t with _ | ⟨p, t2⟩
    · decide
    · by_cases hp : lower p = 98 ∨ lower p = 111 ∨ lower p = 120
      · rcases t2 with _ | ⟨q, rest⟩
        · exact absurd h (by
            simp only [literalValue]
            exact separatedValue_letter p [] true 0 V hp)
        · have h1 := lower_eq_iff p 98 (by norm_num) (by norm_num)
          have h2 := lower_eq_iff p 111 (by norm_num) (by norm_num)
          have h3 := lower_eq_iff p 120 (by norm_num) (by norm_num)
          simp only [underscoreOK]
          norm_num
          rw [if_pos hp]
          simp only [literalValue] at h
          by_cases hb : p = 98 ∨ p = 66
          · rw [if_pos hb] at h
            exact underscoreLoop_separated 2 _ (Or.inl (by norm_num)) _ _ _ _ _ h (fun _ => rfl)
          · rw [if_neg hb] at h
            by_cases ho : p = 111 ∨ p = 79
            · rw [if_pos ho] at h
              exact underscoreLoop_separated 8 _ (Or.inl (by norm_num)) _ _ _ _ _ h (fun _ => rfl)
            · rw [if_neg ho] at h
              have hx : p = 120 ∨ p = 88 := by
                rw [h1, h2, h3] at hp
                omega
              rw [if_pos hx] at h
              have hl : lower p = 120 := h3.2 hx
              exact underscoreLoop_separated 16 _ (Or.inr ⟨by norm_num, by simp [hl]⟩)
                _ _ _ _ _ h (fun _ => rfl)
      · have hsv : separatedValue 8 (p :: t2) true 0 = some V := by
          have h1 := lower_eq_iff p 98 (by norm_num) (by norm_num)
          have h2 := lower_eq_iff p 111 (by norm_num) (by norm_num)
          have h3 := lower_eq_iff p 120 (by norm_num) (by norm_num)
          rw [h1, h2, h3] at hp
          rcases t2 with _ | ⟨q, rest⟩
          · simpa only [literalValue] using h
          · simp only [literalValue] at h
            rw [if_neg (by omega), if_neg (by omega), if_neg (by omega)] at h
            exact h
        simp only [underscoreOK]
        norm_num
        rw [if_neg hp, underscoreLoop, if_pos (Or.inl (by norm_num))]
        exact underscoreLoop_separated 8 _ (Or.inl (by norm_num)) _ _ _ _ _ hsv (fun _ => rfl)
  · have hsv : separatedValue 10 (c :: t) false 0 = some V := by
      rw [← h]
      unfold literalValue
      split <;> simp_all
    obtain ⟨h43, h45, _⟩ := separatedValue_first 10 c t 0 V hsv
    have hu : underscoreOK (c :: t) = underscoreLoop false (c :: t) Saw.start := by
      unfold underscoreOK
      simp only [h43, h45, or_self, if_false]
      split <;> simp_all
    rw [hu]
    exact underscoreLoop_separated 10 _ (Or.inl (by norm_num)) _ _ _ _ _ hsv (by simp)

theorem detectBase_literal (s : ByteSeq) (V : Nat) (h : literalValue s = some V) :
    ∃ sep, separatedValue (detectBase s).1 (detectBase s).2 sep 0 = some V
      ∧ 2 ≤ (detectBase s).1 ∧ (detectBase s).1 ≤ 36 := by
  rcases s with _ | ⟨c, t⟩
  · simp [literalValue, separatedValue] at h
  by_cases hc : c = 48
  · subst hc
    rcases t with _ | ⟨p, t2⟩
    · exact ⟨true, by simpa [literalValue, detectBase] using h, by simp [detectBase],
        by simp [detectBase]⟩
    · rcases t2 with _ | ⟨q, rest⟩
      · exact ⟨true, by simpa [literalValue, detectBase] using h, by simp [detectBase],
          by simp [detectBase]⟩
      · have h1 := lower_eq_iff p 98 (by norm_num) (by norm_num)
        have h2 := lower_eq_iff p 111 (by norm_num) (by norm_num)
        have h3 := lower_eq_iff p 120 (by norm_num) (by norm_num)
        simp only [literalValue] at h
        simp only [detectBase, h1, h2, h3, Nat.reduceSub]
        by_cases hb : p = 98 ∨ p = 66
        · rw [if_pos hb] at h ⊢
          exact ⟨true, h, by norm_num, by norm_num⟩
        · rw [if_neg hb] at h ⊢
          by_cases ho : p = 111 ∨ p = 79
          · rw [if_pos ho] at h ⊢
            exact ⟨true, h, by norm_num, by norm_num⟩
          · rw [if_neg ho] at h ⊢
            by_cases hx : p = 120 ∨ p = 88
            · rw [if_pos hx] at h ⊢
              exact ⟨true, h, by norm_num, by norm_num⟩
            · rw [if_neg hx] at h ⊢
              exact ⟨true, h, by norm_num, by norm_num⟩
  · have hsv : separatedValue 10 (c :: t) false 0 = some V := by
      rw [← h]
      unfold literalValue
      split <;> simp_all
    have hd : detectBase (c :: t) = (10, c :: t) := by
      unfold detectBase
      split <;> simp_all
    rw [hd]
    exact ⟨false, hsv, by norm_num, by norm_num⟩

theorem ParseUint_literal (s : ByteSeq) (V : Nat) (h : literalValue s = some V)
    (hV : V < 2 ^ 64) : ParseUint s 0 64 = (V, none) := by
  have hne : s ≠ [] := by
    rintro rfl
    simp [literalValue, separatedValue] at h
  have h64 : Int.toNat 64 = 64 := rfl
  obtain ⟨sep, hsv, hb2, hb36⟩ := detectBase_literal s V h
  have hloop := parseUintLoop_separated s _ hb2 hb36 (underscoreOK_literal s V h) _ sep 0 V false
    hsv hV
  unfold ParseUint
  rw [if_neg hne, if_neg (by simp)]
  norm_num [h64]
  exact hloop

theorem ParseUint_digits (base : Int) (hb : 2 ≤ base ∧ base ≤ 36) (ds : ByteSeq) (V : Nat)
    (hne : ds ≠ []) (h : digitsValue base.toNat ds 0 = some V) (hV : V < 2 ^ 64) :
    ParseUint ds base 64 = (V, none) := by
  have hb0 : base ≠ 0 := by omega
  have h64 : Int.toNat 64 = 64 := rfl
  have hloop := parseUintLoop_digits ds base.toNat (by omega) (by omega) ds 0 V h hV
  unfold ParseUint
  rw [if_neg hne, if_neg (by simp [hb])]
  simp only [hb0, if_false, decide_False]
  norm_num [h64]
  exact hloop

theorem ParseUint_unsigned (base : Int) (s : ByteSeq) (V : Nat)
    (h : unsignedValue base s = some V) (hV : V < 2 ^ 64) :
    ParseUint s base 64 = (V, none) := by
  unfold unsignedValue at h
  split_ifs at h with h0 hb hs
  · subst h0
    exact ParseUint_literal s V h hV
  · exact ParseUint_digits base hb s V hs h hV

theorem ParseInt_numeral (base : Int) (s : ByteSeq) (v : Int)
    (h : numeralValue base s = some v) (hlo : -(2 : Int) ^ 63 ≤ v) (hhi : v < (2 : Int) ^ 63) :
    ParseInt s base 64 = (v, none) := by
  unfold numeralValue at h
  have h63 : Int.toNat 63 = 63 := rfl
  rcases s with _ | ⟨c, rest⟩
  · simp at h
  · by_cases h43 : c = 43
    · subst h43
      simp only at h
      obtain ⟨V, hV, rfl⟩ := Option.map_eq_some'.1 h
      have hu := ParseUint_unsigned base rest V hV (by omega)
      have h1 : ¬ (9223372036854775808 ≤ V) := by omega
      have h2 : V % 18446744073709551616 = V := Nat.mod_eq_of_lt (by omega)
      norm_num [ParseInt, hu, h63, toInt64, h1, h2]
    · by_cases h45 : c = 45
      · subst h45
        simp only at h
        obtain ⟨V, hV, rfl⟩ := Option.map_eq_some'.1 h
        have hu := ParseUint_unsigned base rest V hV (by omega)
        have h1 : ¬ (9223372036854775808 < V) := by omega
        have h2 : V % 18446744073709551616 = V := Nat.mod_eq_of_lt (by omega)
        norm_num [ParseInt, hu, h63, toInt64, negInt64, h1, h2]
        rcases Nat.lt_or_ge V 9223372036854775808 with hv | hv
        · rw [if_pos hv, if_neg (by omega)]
        · have hV' : V = 9223372036854775808 := by omega
          subst hV'
          norm_num
      · have hm : Option.map (fun u : Nat => (u : Int)) (unsignedValue base (c :: rest))
            = some v := by
          rw [← h]
          split <;> simp_all
        obtain ⟨V, hV, rfl⟩ := Option.map_eq_some'.1 hm
        have hu := ParseUint_unsigned base (c :: rest) V hV (by omega)
        have h1 : ¬ (9223372036854775808 ≤ V) := by omega
        have h2 : V % 18446744073709551616 = V := Nat.mod_eq_of_lt (by omega)
        norm_num [ParseInt, hu, h63, toInt64, h1, h2, h43, h45]

theorem digitsValue_zeros (b : Nat) (hb : 0 < b) :
    ∀ m : Nat, digitsValue b (List.replicate m 48) 0 = some 0
  | 0 => rfl
  | m + 1 => by
    simp [List.replicate_succ, digitsValue, digitOfChar, hb, digitsValue_zeros b hb m]

theorem numeralValue_zeros (m : Nat) : numeralValue 10 (List.replicate (m + 1) 48) = some 0 := by
  have h10 : Int.toNat 10 = 10 := rfl
  have := digitsValue_zeros 10 (by norm_num) (m + 1)
  rw [List.replicate_succ] at this
  simp [numeralValue, unsignedValue, List.replicate_succ, h10, this]

theorem dropCR_zeros (m : Nat) : dropCR (List.replicate (m + 1) 48) = List.replicate (m + 1) 48 := by
  have h : (List.replicate (m + 1) 48).getLast? = some 48 := by
    rw [List.getLast?_eq_getLast _ (by simp)]
    simp
  simp only [dropCR, h]
  simp

/-- C2, amended: base parsing of `Int64s`, for every base. Let every piece
between the newlines of the stream that `Reader` returns (a line together with
the carriage return that may stand in front of its newline) be shorter than
`MaxScanTokenSize` bytes, and let every line be a base-`base` numeral
(`numeralValue`: digits of the base for a base from 2 to 36, an integer literal
with its radix prefix for base 0) whose value fits in 64 bits. Then `Int64s`
returns a nil error and one value per line, in line order, each the value of its
line in that base. -/
theorem Int64s_base_parsing (i : Input) (year day base : Int) (w w1 : World) (rc : Stream)
    (hread : i.Reader year day w = (.ok rc, w1))
    (hfit : ∀ l ∈ splitLines rc.data, l.length < MaxScanTokenSize)
    (hnum : ∀ l ∈ textLines rc.data,
      ∃ v, numeralValue base l = some v ∧ -(2 : Int) ^ 63 ≤ v ∧ v < (2 : Int) ^ 63) :
    ∃ vals : List Int, i.Int64s year day base w = ((vals, none), w1)
      ∧ vals.map some = (textLines rc.data).map (numeralValue base) := by
  have hconv : ∀ l ∈ textLines rc.data, ParseInt l base 64 = ((ParseInt l base 64).1, none)
      ∧ numeralValue base l = some (ParseInt l base 64).1 := by
    intro l hl
    obtain ⟨v, hv, hlo, hhi⟩ := hnum l hl
    have := ParseInt_numeral base l v hv hlo hhi
    rw [this]
    exact ⟨rfl, hv⟩
  refine ⟨(textLines rc.data).map (fun l => (ParseInt l base 64).1), ?_, ?_⟩
  · simp only [Input.Int64s, hread]
    rw [scanLoop_total _ _ (fun l => (ParseInt l base 64).1) rc hfit
      (fun l hl => checkErr_ok _ (by rw [(hconv l hl).1]))]
  · rw [List.map_map]
    apply List.map_congr_left
    intro l hl
    exact ((hconv l hl).2).symm

/-- C2, witness: the line `ff` in base 16 yields 255; the lines `10` and `-7` in
base 10 yield 10 and -7; in base 0 the lines `0x1f`, `-0b1_01`, `017` and `1_000`
yield 31, -5, 15 and 1000. -/
theorem Int64s_base_parsing_witness :
    (∃ vals : List Int,
      Input.Int64s ⟨[]⟩ 2018 1 16 (cachedWorld (cacheFileName 2018 1) (ascii "ff"))
          = ((vals, none), cachedWorld (cacheFileName 2018 1) (ascii "ff"))
        ∧ vals.map some = [some 255])
    ∧ (∃ vals : List Int,
      Input.Int64s ⟨[]⟩ 2018 1 10 (cachedWorld (cacheFileName 2018 1) (ascii "10\n-7\n"))
          = ((vals, none), cachedWorld (cacheFileName 2018 1) (ascii "10\n-7\n"))
        ∧ vals.map some = [some 10, some (-7)])
    ∧ (∃ vals : List Int,
      Input.Int64s ⟨[]⟩ 2018 1 0
          (cachedWorld (cacheFileName 2018 1) (ascii "0x1f\n-0b1_01\n017\n1_000\n"))
          = ((vals, none),
              cachedWorld (cacheFileName 2018 1) (ascii "0x1f\n-0b1_01\n017\n1_000\n"))
        ∧ vals.map some = [some 31, some (-5), some 15, some 1000]) :=
  ⟨Int64s_base_parsing ⟨[]⟩ 2018 1 16 (cachedWorld (cacheFileName 2018 1) (ascii "ff")) _ _
      (Reader_cachedWorld _ _ _ _) (by decide) (by decide),
    Int64s_base_parsing ⟨[]⟩ 2018 1 10 (cachedWorld (cacheFileName 2018 1) (ascii "10\n-7\n")) _ _
      (Reader_cachedWorld _ _ _ _) (by decide) (by decide),
    Int64s_base_parsing ⟨[]⟩ 2018 1 0
      (cachedWorld (cacheFileName 2018 1) (ascii "0x1f\n-0b1_01\n017\n1_000\n")) _ _
      (Reader_cachedWorld _ _ _ _) (by decide) (by decide)⟩

/-- C2, counterexample: the one line of `longZeroLine`, 65536 zeros, is a base-10
numeral of value 0, yet `Int64s` returns no element for it (and a nil error):
the scanner stops on the line with `ErrTooLong`, which `Int64s` does not
consult. The same holds for the one line of `longZeroLineCR`, 65535 zeros with a
carriage return in front of the newline: what counts is the text between the
newlines, the carriage return included. -/
theorem Int64s_long_line_counterexample :
    textLines longZeroLine = [List.replicate 65536 48]
      ∧ numeralValue 10 (List.replicate 65536 48) = some 0
      ∧ (Input.Int64s ⟨[]⟩ 2018 1 10 (cachedWorld (cacheFileName 2018 1) longZeroLine)).1
          = ([], none)
      ∧ textLines longZeroLineCR = [List.replicate 65535 48]
      ∧ numeralValue 10 (List.replicate 65535 48) = some 0
      ∧ (Input.Int64s ⟨[]⟩ 2018 1 10 (cachedWorld (cacheFileName 2018 1) longZeroLineCR)).1
          = ([], none) := by
  have hcr : ascii "\r\n" = 13 :: 10 :: [] := by decide
  refine ⟨?_, numeralValue_zeros 65535, ?_, ?_, numeralValue_zeros 65534, ?_⟩
  · have h : ascii "\n" = 10 :: [] := by decide
    rw [textLines, longZeroLine, h,
      splitLines_first _ _ (fun hm => absurd (List.eq_of_mem_replicate hm) (by decide)),
      splitLines_nil, List.map_cons, List.map_nil]
    exact congrArg (fun x => [x]) (dropCR_zeros 65535)
  · exact Int64s_tooLong _ _ _ _ 65536 _ (by norm_num [MaxScanTokenSize])
  · rw [textLines, longZeroLineCR, hcr, splitLines_zerosCR, splitLines_nil, List.map_cons,
      List.map_nil, dropCR_zerosCR]
  · have h : longZeroLineCR = (List.replicate 65535 48 ++ [13]) ++ [10] := by
      rw [longZeroLineCR, hcr]
      simp only [List.append_assoc, List.singleton_append]
    rw [h]
    exact Int64s_stops_early _ _ _ _ _ _ (zerosCR_no_newline 65535)
      (by rw [List.length_append, List.length_replicate]; decide)

/-! ## Lines of a text -/

/-- Induction over a text line by line. -/
theorem lines_induction {P : ByteSeq → Prop} (hnil : P [])
    (hlast : ∀ data : ByteSeq, 10 ∉ data → data ≠ [] → P data)
    (hstep : ∀ line rest : ByteSeq, 10 ∉ line → P rest → P (line ++ 10 :: rest)) :
    ∀ data : ByteSeq, P data := by
  intro data
  generalize hn : data.length = n
  induction n using Nat.strong_induction_on generalizing data with
  | _ n ih =>
    by_cases hnl : 10 ∈ data
    · obtain ⟨line, rest, rfl, hline⟩ := exists_first_newline data hnl
      refine hstep line rest hline (ih rest.length ?_ rest rfl)
      rw [← hn]
      simp only [List.length_append, List.length_cons]
      omega
    · by_cases hne : data = []
      · rw [hne]
        exact hnil
      · exact hlast data hnl hne

theorem splitLines_mem : ∀ data : ByteSeq, ∀ l ∈ splitLines data, ∀ x ∈ l, x ∈ data ∧ x ≠ 10 := by
  apply lines_induction
  · simp [splitLines_nil]
  · intro data hnl hne l hl x hx
    rw [splitLines_single data hnl hne, List.mem_singleton] at hl
    subst hl
    exact ⟨hx, fun h => hnl (h ▸ hx)⟩
  · intro line rest hline ih l hl x hx
    rw [splitLines_first line rest hline, List.mem_cons] at hl
    rcases hl with rfl | hl
    · exact ⟨by simp [hx], fun h => hline (h ▸ hx)⟩
    · have := ih l hl x hx
      exact ⟨by simp [this.1], this.2⟩

theorem splitLines_join : ∀ data : ByteSeq,
    [10].intercalate (splitLines data) = data
      ∨ [10].intercalate (splitLines data) ++ [10] = data := by
  apply lines_induction
  · left
    simp [splitLines_nil, List.intercalate]
  · intro data hnl hne
    left
    simp [splitLines_single data hnl hne, List.intercalate]
  · intro line rest hline ih
    rw [splitLines_first line rest hline]
    rcases hL : splitLines rest with _ | ⟨a, L⟩
    · right
      have := splitLines_eq_nil rest hL
      subst this
      simp [List.intercalate]
    · have hcons : [10].intercalate (line :: a :: L) = line ++ 10 :: [10].intercalate (a :: L) := by
        simp [List.intercalate]
      rw [hcons, ← hL]
      rcases ih with ih | ih
      · left
        rw [ih]
      · right
        have hrest : line ++ 10 :: rest
            = line ++ 10 :: ([10].intercalate (splitLines rest) ++ [10]) := by rw [ih]
        rw [hrest]
        simp

theorem dropCR_of_not_mem (l : ByteSeq) (h : 13 ∉ l) : dropCR l = l := by
  unfold dropCR
  rw [if_neg]
  intro hlast
  exact h (List.mem_of_mem_getLast? hlast)

/-- C9: line splitting without trimming in `Strings`. For a stream that contains
no carriage return and whose pieces between newlines are all shorter than
`MaxScanTokenSize` bytes (so that each piece and its newline fit the buffer of
the scanner), `Strings` returns a nil error and exactly `splitLines` of the
content: the content split at each newline, without the final piece when that
piece is empty. No returned line contains a newline, and joining the lines with
newlines gives back the content, up to one newline at its end. -/
theorem Strings_split_lines (i : Input) (year day : Int) (w w1 : World) (rc : Stream)
    (hread : i.Reader year day w = (.ok rc, w1))
    (hcr : 13 ∉ rc.data)
    (hfit : ∀ l ∈ splitLines rc.data, l.length < MaxScanTokenSize) :
    i.Strings year day w = ((splitLines rc.data, none), w1)
      ∧ (∀ l ∈ splitLines rc.data, 10 ∉ l)
      ∧ ([10].intercalate (splitLines rc.data) = rc.data
          ∨ [10].intercalate (splitLines rc.data) ++ [10] = rc.data) := by
  refine ⟨?_, ?_, splitLines_join rc.data⟩
  · have hmap : (splitLines rc.data).map dropCR = splitLines rc.data := by
      conv_rhs => rw [← List.map_id (splitLines rc.data)]
      apply List.map_congr_left
      intro l hl
      exact dropCR_of_not_mem l (fun h13 => hcr (splitLines_mem rc.data l hl 13 h13).1)
    simp only [Input.Strings, hread, Scanner_all rc hfit, textLines, hmap]
  · intro l hl h10
    exact (splitLines_mem rc.data l hl 10 h10).2 rfl

/-- C9, witness: the content ` a<TAB>b `, an empty line and `c`, each ended by a
newline, gives these three lines with their spaces and the tab kept. -/
theorem Strings_split_lines_witness :
    Input.Strings ⟨[]⟩ 2018 1 (cachedWorld (cacheFileName 2018 1) (ascii " a\tb \n\nc\n"))
        = (([ascii " a\tb ", [], ascii "c"], none),
            cachedWorld (cacheFileName 2018 1) (ascii " a\tb \n\nc\n"))
      ∧ [10].intercalate [ascii " a\tb ", [], ascii "c"] ++ [10] = ascii " a\tb \n\nc\n" :=
  ⟨(Strings_split_lines ⟨[]⟩ 2018 1 (cachedWorld (cacheFileName 2018 1) (ascii " a\tb \n\nc\n"))
      _ _ (Reader_cachedWorld _ _ _ _) (by decide) (by decide)).1,
    by decide⟩

/-! ## The cache and the remote service -/

theorem Reader_fetch_failure (i : Input) (year day : Int) (w : World) (status : Int) (m : ByteSeq)
    (hmiss : w.files (cacheFileName year day) = .missing)
    (hresp : w.remote w.sent (i.request year day) = .reply status m none)
    (hstatus : status ≠ 200) :
    i.Reader year day w
      = (.error (.errorString m), { w with sent := w.sent ++ [i.request year day] }) := by
  simp only [Input.Reader, hmiss, Input.fetch, hresp, ioReadAll]
  simp [hstatus]

theorem Reader_fetch_success (i : Input) (year day : Int) (w : World) (d : ByteSeq)
    (hmiss : w.files (cacheFileName year day) = .missing)
    (hresp : w.remote w.sent (i.request year day) = .reply 200 d none) :
    i.Reader year day w
      = (.ok ⟨d, none⟩,
          (osWriteFile { w with sent := w.sent ++ [i.request year day] }
            (cacheFileName year day) d).2) := by
  simp only [Input.Reader, hmiss, Input.fetch, hresp, ioReadAll]
  simp

/-- C5: remote failure. When the cache file is missing and the remote service
answers with a status other than 200 and a body `m`, `Reader` returns no stream
and the error `errors.New(m)`, whose message is `m`; the files are left as they
were, so no cache file is created; and `Bytes`, `Strings`, `Ints`, `Int64s`,
`Floats`, `BigInts` and `BigFloats` return that same error. -/
theorem Reader_remote_failure (i : Input) (year day : Int) (w : World) (status : Int)
    (m : ByteSeq)
    (hmiss : w.files (cacheFileName year day) = .missing)
    (hresp : w.remote w.sent (i.request year day) = .reply status m none)
    (hstatus : status ≠ 200) :
    (i.Reader year day w).1 = .error (.errorString m)
      ∧ (∀ quote : ByteSeq → ByteSeq, (GoError.errorString m).Error quote = m)
      ∧ (i.Reader year day w).2.files = w.files
      ∧ (i.Bytes year day w).1 = ([], some (.errorString m))
      ∧ (i.Strings year day w).1 = ([], some (.errorString m))
      ∧ (i.Ints year day w).1 = ([], some (.errorString m))
      ∧ (∀ base : Int, (i.Int64s year day base w).1 = ([], some (.errorString m)))
      ∧ (∀ parseFloat : ByteSeq → Int × Option GoError,
          (i.Floats parseFloat year day w).1 = ([], some (.errorString m)))
      ∧ (∀ (setString : ByteSeq → Int → Option Int) (base : Int),
          (i.BigInts setString year day base w).1 = .returns ([], some (.errorString m)))
      ∧ (∀ setString : ByteSeq → Option Int,
          (i.BigFloats setString year day w).1 = ([], some (.errorString m))) := by
  have h := Reader_fetch_failure i year day w status m hmiss hresp hstatus
  refine ⟨by rw [h], fun _ => rfl, by rw [h], ?_, ?_, ?_, ?_, ?_, ?_, ?_⟩
  · simp only [Input.Bytes, h]
  · simp only [Input.Strings, h]
  · simp only [Input.Ints, h]
  · intro base
    simp only [Input.Int64s, h]
  · intro parseFloat
    simp only [Input.Floats, h]
  · intro setString base
    simp only [Input.BigInts, h]
  · intro setString
    simp only [Input.BigFloats, h]

/-- C5, witness: status 403 with body `AoC please log in` gives an error with
that message and leaves the cache file missing. -/
theorem Reader_remote_failure_witness :
    (Input.Reader ⟨ascii "abc123"⟩ 2018 1
        (freshWorld (.reply 403 (ascii "AoC please log in") none) .done)).1
        = .error (.errorString (ascii "AoC please log in"))
      ∧ (Input.Reader ⟨ascii "abc123"⟩ 2018 1
          (freshWorld (.reply 403 (ascii "AoC please log in") none) .done)).2.files
          (cacheFileName 2018 1) = .missing :=
  ⟨(Reader_remote_failure ⟨ascii "abc123"⟩ 2018 1
      (freshWorld (.reply 403 (ascii "AoC please log in") none) .done) 403
      (ascii "AoC please log in") rfl rfl (by decide)).1,
    by rw [(Reader_remote_failure ⟨ascii "abc123"⟩ 2018 1
      (freshWorld (.reply 403 (ascii "AoC please log in") none) .done) 403
      (ascii "AoC please log in") rfl rfl (by decide)).2.2.1]; rfl⟩

/-- C6: persist-failure resilience. When the cache file is missing, the remote
service answers 200 with body `d` and `os.WriteFile` fails, `Reader` still returns
a nil error and a stream that delivers exactly `d`, and so does `Bytes`; the
error of `os.WriteFile` is not returned. -/
theorem Reader_persist_failure (i : Input) (year day : Int) (w : World) (d : ByteSeq)
    (err : GoError) (left : FileState)
    (hmiss : w.files (cacheFileName year day) = .missing)
    (hresp : w.remote w.sent (i.request year day) = .reply 200 d none)
    (hwrite : w.write (cacheFileName year day) d = .failed err left) :
    (i.Reader year day w).1 = .ok ⟨d, none⟩
      ∧ ioReadAll ⟨d, none⟩ = (d, none)
      ∧ (i.Bytes year day w).1 = (d, none)
      ∧ (osWriteFile { w with sent := w.sent ++ [i.request year day] }
          (cacheFileName year day) d).1 = some err := by
  have h := Reader_fetch_success i year day w d hmiss hresp
  refine ⟨by rw [h], rfl, ?_, ?_⟩
  · simp only [Input.Bytes, h, ioReadAll]
  · simp only [osWriteFile, hwrite]

/-- C6, witness: a write that fails with `read-only file system` leaves the
fetched content `10`, `20` as the result of `Reader`. -/
theorem Reader_persist_failure_witness :
    (Input.Reader ⟨ascii "abc123"⟩ 2018 1
        (freshWorld (.reply 200 (ascii "10\n20\n") none)
          (.failed (.sysError (ascii "read-only file system")) .missing))).1
        = .ok ⟨ascii "10\n20\n", none⟩ :=
  (Reader_persist_failure ⟨ascii "abc123"⟩ 2018 1
    (freshWorld (.reply 200 (ascii "10\n20\n") none)
      (.failed (.sysError (ascii "read-only file system")) .missing))
    (ascii "10\n20\n") (.sysError (ascii "read-only file system")) .missing rfl rfl rfl).1

/-- C4: cache round trip. When `Reader` of an `Input` `i` misses the cache, the
fetch answers 200 with body `d` and the write of the cache file succeeds, the
stream returned delivers `d`, the cache file holds `d`, and a following `Bytes`
of any `Input` `j` for the same year and day returns exactly `d` with a nil
error and leaves the world, in particular the list of requests sent, as it
was. -/
theorem cache_round_trip (i j : Input) (year day : Int) (w : World) (d : ByteSeq)
    (hmiss : w.files (cacheFileName year day) = .missing)
    (hresp : w.remote w.sent (i.request year day) = .reply 200 d none)
    (hwrite : w.write (cacheFileName year day) d = .done) :
    (i.Reader year day w).1 = .ok ⟨d, none⟩
      ∧ (i.Reader year day w).2.files (cacheFileName year day) = .regular d none
      ∧ j.Bytes year day (i.Reader year day w).2 = ((d, none), (i.Reader year day w).2)
      ∧ (j.Bytes year day (i.Reader year day w).2).2.sent = (i.Reader year day w).2.sent := by
  have h := Reader_fetch_success i year day w d hmiss hresp
  have hfile : (i.Reader year day w).2.files (cacheFileName year day) = .regular d none := by
    rw [h]
    simp [osWriteFile, hwrite]
  have hb : j.Bytes year day (i.Reader year day w).2 = ((d, none), (i.Reader year day w).2) := by
    simp only [Input.Bytes, Reader_hit j year day _ d none hfile, ioReadAll]
  exact ⟨by rw [h], hfile, hb, by rw [hb]⟩

/-- C4, witness: after a fetch of `10`, `20` by one `Input`, `Bytes` of another
`Input` returns the same bytes and the request count stays at one. -/
theorem cache_round_trip_witness :
    (Input.Bytes ⟨ascii "other"⟩ 2018 1
        (Input.Reader ⟨ascii "abc123"⟩ 2018 1
          (freshWorld (.reply 200 (ascii "10\n20\n") none) .done)).2).1
        = (ascii "10\n20\n", none)
      ∧ (Input.Bytes ⟨ascii "other"⟩ 2018 1
        (Input.Reader ⟨ascii "abc123"⟩ 2018 1
          (freshWorld (.reply 200 (ascii "10\n20\n") none) .done)).2).2.sent.length = 1 :=
  ⟨congrArg Prod.fst (cache_round_trip ⟨ascii "abc123"⟩ ⟨ascii "other"⟩ 2018 1
      (freshWorld (.reply 200 (ascii "10\n20\n") none) .done) (ascii "10\n20\n")
      rfl rfl rfl).2.2.1,
    by rw [(cache_round_trip ⟨ascii "abc123"⟩ ⟨ascii "other"⟩ 2018 1
      (freshWorld (.reply 200 (ascii "10\n20\n") none) .done) (ascii "10\n20\n")
      rfl rfl rfl).2.2.2]; rfl⟩

theorem cache_hit_after_fetch (i : Input) (year day : Int) (w : World) (d : ByteSeq)
    (hmiss : w.files (cacheFileName year day) = .missing)
    (hresp : w.remote w.sent (i.request year day) = .reply 200 d none)
    (hwrite : w.write (cacheFileName year day) d = .done) :
    (i.Reader year day w).2.sent = w.sent ++ [i.request year day]
      ∧ (i.Reader year day w).2.files (cacheFileName year day) = .regular d none := by
  rw [Reader_fetch_success i year day w d hmiss hresp]
  simp [osWriteFile, hwrite]

theorem Ints_world (i : Input) (year day : Int) (w : World) :
    (i.Ints year day w).2 = (i.Reader year day w).2 := by
  unfold Input.Ints
  split <;> simp_all

theorem Strings_world (i : Input) (year day : Int) (w : World) :
    (i.Strings year day w).2 = (i.Reader year day w).2 := by
  unfold Input.Strings
  split <;> simp_all

theorem Int64s_world (i : Input) (year day base : Int) (w : World) :
    (i.Int64s year day base w).2 = (i.Reader year day w).2 := by
  unfold Input.Int64s
  split <;> simp_all

theorem Floats_world {F : Type} (parseFloat : ByteSeq → F × Option GoError) (i : Input)
    (year day : Int) (w : World) :
    (i.Floats parseFloat year day w).2 = (i.Reader year day w).2 := by
  unfold Input.Floats
  split <;> simp_all

theorem BigInts_world {Z : Type} (setString : ByteSeq → Int → Option Z) (i : Input)
    (year day base : Int) (w : World) :
    (i.BigInts setString year day base w).2 = (i.Reader year day w).2 := by
  unfold Input.BigInts
  split <;> simp_all

theorem BigFloats_world {R : Type} (setString : ByteSeq → Option R) (i : Input)
    (year day : Int) (w : World) :
    (i.BigFloats setString year day w).2 = (i.Reader year day w).2 := by
  unfold Input.BigFloats
  split <;> simp_all

theorem Reader_blocked (i : Input) (year day : Int) (w : World) (e : GoError)
    (h : w.files (cacheFileName year day) = .blocked e) :
    i.Reader year day w = (.error e, w) := by
  simp only [Input.Reader, h]

theorem Reader_at_most_one_request (i : Input) (year day : Int) (w : World)
    (h : w.files (cacheFileName year day) = .missing →
      ∃ d, w.remote w.sent (i.request year day) = .reply 200 d none
        ∧ w.write (cacheFileName year day) d = .done) :
    AtMostOneRequest (cacheFileName year day) (fun v => (i.Reader year day v).2) w := by
  unfold AtMostOneRequest
  simp only
  rcases hf : w.files (cacheFileName year day) with _ | e | ⟨data, e⟩
  · obtain ⟨d, hresp, hwrite⟩ := h hf
    have h1 := cache_hit_after_fetch i year day w d hf hresp hwrite
    obtain ⟨hw, hfile⟩ := h1
    rw [Reader_hit i year day _ d none hfile]
    refine ⟨?_, rfl, fun _ => ⟨d, none, hfile⟩⟩
    rw [hw]
    simp
  · rw [Reader_blocked i year day w e hf, Reader_blocked i year day w e hf]
    exact ⟨by simp, rfl, fun hne => absurd rfl (hne e)⟩
  · rw [Reader_hit i year day w data e hf, Reader_hit i year day w data e hf]
    exact ⟨by simp, rfl, fun _ => ⟨data, e, hf⟩⟩

/-- C3, amended: at most one remote request over two calls of a typed-sequence
accessor. Suppose that, when the cache file is missing at the start, the fetch
of the first call answers 200 with a body that is read in full and the write of
the cache file succeeds. Then for each of `Strings`, `Ints`, `Int64s`, `Floats`,
`BigInts` and `BigFloats` (whatever the base and the conversions), two successive
calls send at most one request in total, the second call sends none, and, unless
the cache file could not be opened at the start, the second call finds the cache
file (`AtMostOneRequest`). Each of these accessors leaves the world that `Reader`
leaves, so the same holds for two calls of two different accessors. -/
theorem two_calls_at_most_one_request {F Z R : Type}
    (parseFloat : ByteSeq → F × Option GoError) (setInt : ByteSeq → Int → Option Z)
    (setFloat : ByteSeq → Option R) (i : Input) (year day base : Int) (w : World)
    (h : w.files (cacheFileName year day) = .missing →
      ∃ d, w.remote w.sent (i.request year day) = .reply 200 d none
        ∧ w.write (cacheFileName year day) d = .done) :
    AtMostOneRequest (cacheFileName year day) (fun v => (i.Strings year day v).2) w
      ∧ AtMostOneRequest (cacheFileName year day) (fun v => (i.Ints year day v).2) w
      ∧ AtMostOneRequest (cacheFileName year day) (fun v => (i.Int64s year day base v).2) w
      ∧ AtMostOneRequest (cacheFileName year day)
          (fun v => (i.Floats parseFloat year day v).2) w
      ∧ AtMostOneRequest (cacheFileName year day)
          (fun v => (i.BigInts setInt year day base v).2) w
      ∧ AtMostOneRequest (cacheFileName year day)
          (fun v => (i.BigFloats setFloat year day v).2) w
      ∧ (∀ v : World, (i.Strings year day v).2 = (i.Reader year day v).2
          ∧ (i.Ints year day v).2 = (i.Reader year day v).2
          ∧ (i.Int64s year day base v).2 = (i.Reader year day v).2
          ∧ (i.Floats parseFloat year day v).2 = (i.Reader year day v).2
          ∧ (i.BigInts setInt year day base v).2 = (i.Reader year day v).2
          ∧ (i.BigFloats setFloat year day v).2 = (i.Reader year day v).2) := by
  have hr := Reader_at_most_one_request i year day w h
  refine ⟨?_, ?_, ?_, ?_, ?_, ?_, fun v => ⟨Strings_world i year day v, Ints_world i year day v,
    Int64s_world i year day base v, Floats_world parseFloat i year day v,
    BigInts_world setInt i year day base v, BigFloats_world setFloat i year day v⟩⟩
  all_goals
    simp only [Strings_world, Ints_world, Int64s_world, Floats_world, BigInts_world,
      BigFloats_world]
    exact hr

/-- C3, witness: from an empty cache and a service that answers 200 with the
lines `10` and `20`, two calls of `Ints` send one request in total, and so do two
calls of `Strings`. -/
theorem two_calls_at_most_one_request_witness :
    (Input.Ints ⟨ascii "abc123"⟩ 2018 1
        (Input.Ints ⟨ascii "abc123"⟩ 2018 1
          (freshWorld (.reply 200 (ascii "10\n20\n") none) .done)).2).2.sent.length ≤ 0 + 1
      ∧ (Input.Strings ⟨ascii "abc123"⟩ 2018 1
        (Input.Strings ⟨ascii "abc123"⟩ 2018 1
          (freshWorld (.reply 200 (ascii "10\n20\n") none) .done)).2).2.sent.length ≤ 0 + 1 :=
  ⟨(two_calls_at_most_one_request Atoi (fun s base => numeralValue base s) (numeralValue 10)
      ⟨ascii "abc123"⟩ 2018 1 10 (freshWorld (.reply 200 (ascii "10\n20\n") none) .done)
      (fun _ => ⟨ascii "10\n20\n", rfl, rfl⟩)).2.1.1,
    (two_calls_at_most_one_request Atoi (fun s base => numeralValue base s) (numeralValue 10)
      ⟨ascii "abc123"⟩ 2018 1 10 (freshWorld (.reply 200 (ascii "10\n20\n") none) .done)
      (fun _ => ⟨ascii "10\n20\n", rfl, rfl⟩)).1.1⟩

/-- C3, counterexample: from an empty cache and a service that answers 403 to
every request, no cache file is written and two successive calls of `Ints` send
two requests. So do two calls when the service answers 200 and the write of the
cache file fails, leaving no file. And when the cache file exists but cannot be
opened, the second call sends no request and is no cache hit either: it returns
the error of `os.Open`. -/
theorem two_calls_two_requests_counterexample :
    (Input.Ints ⟨ascii "abc123"⟩ 2018 1
        (Input.Ints ⟨ascii "abc123"⟩ 2018 1
          (freshWorld (.reply 403 (ascii "AoC please log in") none) .done)).2).2.sent.length = 2
      ∧ (freshWorld (.reply 403 (ascii "AoC please log in") none) .done).sent.length = 0
      ∧ (Input.Ints ⟨ascii "abc123"⟩ 2018 1
        (Input.Ints ⟨ascii "abc123"⟩ 2018 1
          (freshWorld (.reply 200 (ascii "10\n20\n") none)
            (.failed (.sysError (ascii "read-only file system")) .missing))).2).2.sent.length
          = 2
      ∧ Input.Ints ⟨ascii "abc123"⟩ 2018 1
        (Input.Ints ⟨ascii "abc123"⟩ 2018 1
          (blockedWorld (.sysError (ascii "open 2018_1.txt: permission denied"))
            (.reply 200 (ascii "10\n20\n") none))).2
          = (([], some (.sysError (ascii "open 2018_1.txt: permission denied"))),
              blockedWorld (.sysError (ascii "open 2018_1.txt: permission denied"))
                (.reply 200 (ascii "10\n20\n") none)) := by
  refine ⟨rfl, rfl, rfl, rfl⟩

/-! ## The cache file name -/

theorem fmtDigits_unfold (fuel u : Nat) (h : u ≤ fuel) :
    fmtDigits fuel u
      = if u < 10 then [48 + u] else fmtDigits (fuel - 1) (u / 10) ++ [48 + u % 10] := by
  cases fuel with
  | zero =>
    have hu : u = 0 := by omega
    subst hu
    rfl
  | succ n => rfl

theorem fmtDigits_ne_nil (fuel u : Nat) : fmtDigits fuel u ≠ [] := by
  cases fuel with
  | zero => simp [fmtDigits]
  | succ n =>
    unfold fmtDigits
    split <;> simp

theorem fmtDigits_digit : ∀ (fuel u : Nat), u ≤ fuel → ∀ c ∈ fmtDigits fuel u, 48 ≤ c ∧ c ≤ 57
  | 0, u, h, c, hc => by
    have hu : u = 0 := by omega
    subst hu
    simp [fmtDigits] at hc
    omega
  | fuel + 1, u, h, c, hc => by
    unfold fmtDigits at hc
    split at hc
    · simp at hc
      omega
    · rcases List.mem_append.1 hc with hc | hc
      · exact fmtDigits_digit fuel (u / 10) (by omega) c hc
      · simp at hc
        omega

theorem fmtDigits_injective : ∀ (u v f g : Nat), u ≤ f → v ≤ g →
    fmtDigits f u = fmtDigits g v → u = v := by
  intro u
  induction u using Nat.strong_induction_on with
  | _ u ih =>
    intro v f g hu hv h
    rw [fmtDigits_unfold f u hu, fmtDigits_unfold g v hv] at h
    by_cases hu10 : u < 10 <;> by_cases hv10 : v < 10
    · simp only [hu10, hv10, if_true, List.cons.injEq, and_true] at h
      omega
    · simp only [hu10, hv10, if_true, if_false] at h
      have hlen := congrArg List.length h
      have := List.length_pos.2 (fmtDigits_ne_nil (g - 1) (v / 10))
      simp only [List.length_cons, List.length_nil, List.length_append,
        List.length_singleton] at hlen
      omega
    · simp only [hu10, hv10, if_true, if_false] at h
      have hlen := congrArg List.length h
      have := List.length_pos.2 (fmtDigits_ne_nil (f - 1) (u / 10))
      simp only [List.length_cons, List.length_nil, List.length_append,
        List.length_singleton] at hlen
      omega
    · simp only [hu10, hv10, if_false] at h
      obtain ⟨h1, h2⟩ := List.append_inj' h rfl
      have hq := ih (u / 10) (by omega) (v / 10) (f - 1) (g - 1) (by omega) (by omega) h1
      simp only [List.cons.injEq, and_true] at h2
      omega

theorem fmtNat_injective (u v : Nat) (h : fmtNat u = fmtNat v) : u = v :=
  fmtDigits_injective u v u v (le_refl u) (le_refl v) h

theorem fmtNat_digit (u : Nat) : ∀ c ∈ fmtNat u, 48 ≤ c ∧ c ≤ 57 :=
  fmtDigits_digit u u (le_refl u)

theorem fmtNat_head (u : Nat) : ∃ c rest, fmtNat u = c :: rest ∧ 48 ≤ c := by
  rcases hfm : fmtNat u with _ | ⟨c, rest⟩
  · exact absurd hfm (fmtDigits_ne_nil u u)
  · exact ⟨c, rest, rfl, (fmtNat_digit u c (by simp [hfm])).1⟩

theorem fmtInt_injective (a b : Int) (h : fmtInt a = fmtInt b) : a = b := by
  unfold fmtInt at h
  obtain ⟨c, rest, hc, hc48⟩ := fmtNat_head a.natAbs
  obtain ⟨c', rest', hc', hc48'⟩ := fmtNat_head b.natAbs
  by_cases ha : a < 0 <;> by_cases hb : b < 0
  · simp only [ha, hb, if_true, List.cons.injEq, true_and] at h
    have := fmtNat_injective _ _ h
    omega
  · simp only [ha, hb, if_true, if_false, hc'] at h
    simp only [List.cons.injEq] at h
    omega
  · simp only [ha, hb, if_true, if_false, hc] at h
    simp only [List.cons.injEq] at h
    omega
  · simp only [ha, hb, if_false] at h
    have := fmtNat_injective _ _ h
    omega

theorem fmtInt_no_underscore (a : Int) : 95 ∉ fmtInt a := by
  intro h
  unfold fmtInt at h
  split at h
  · rcases List.mem_cons.1 h with h | h
    · omega
    · have := fmtNat_digit _ _ h
      omega
  · have := fmtNat_digit _ _ h
    omega

theorem append_sep_inj : ∀ (a c b d : ByteSeq), 95 ∉ a → 95 ∉ c →
    a ++ 95 :: b = c ++ 95 :: d → a = c ∧ b = d
  | [], [], b, d, _, _, h => by simpa using h
  | [], y :: c, b, d, _, hc, h => by
    simp only [List.nil_append, List.cons_append, List.cons.injEq] at h
    exact absurd (by simp [← h.1]) hc
  | x :: a, [], b, d, ha, _, h => by
    simp only [List.nil_append, List.cons_append, List.cons.injEq] at h
    exact absurd (by simp [h.1]) ha
  | x :: a, y :: c, b, d, ha, hc, h => by
    simp only [List.cons_append, List.cons.injEq] at h
    obtain ⟨h1, h2⟩ := append_sep_inj a c b d (fun hm => ha (by simp [hm]))
      (fun hm => hc (by simp [hm])) h.2
    exact ⟨by rw [h.1, h1], h2⟩

/-- C10: cache key injectivity. The cache file name of `Reader`, the decimal
rendering of the year, an underscore, the decimal rendering of the day and
`.txt`, is the same for two pairs of integers, negative ones included, only when
the years are equal and the days are equal. -/
theorem cacheFileName_injective (year1 day1 year2 day2 : Int) :
    cacheFileName year1 day1 = cacheFileName year2 day2 ↔ year1 = year2 ∧ day1 = day2 := by
  constructor
  · intro h
    have hsep : ascii "_" = [95] := by decide
    simp only [cacheFileName, hsep, List.append_assoc, List.singleton_append] at h
    obtain ⟨h1, h2⟩ := append_sep_inj _ _ _ _ (fmtInt_no_underscore year1)
      (fmtInt_no_underscore year2) h
    exact ⟨fmtInt_injective _ _ h1, fmtInt_injective _ _ (List.append_cancel_right h2)⟩
  · rintro ⟨rfl, rfl⟩
    rfl

/-- C10, witness: the name for year 2018 and day 1 is `2018_1.txt`, and it differs
from the name for year 201 and day 81. -/
theorem cacheFileName_injective_witness :
    cacheFileName 2018 1 = ascii "2018_1.txt" ∧ cacheFileName 2018 1 ≠ cacheFileName 201 81 :=
  ⟨by decide, fun h => absurd ((cacheFileName_injective 2018 1 201 81).1 h).1 (by decide)⟩

/-! ## The cause of a parse error -/

theorem scanLoop_ok_exists {α ε : Type} (convert : ByteSeq → Except ε α)
    (failure : Nat → ByteSeq → ε → GoError) :
    ∀ toks : List ByteSeq, (∀ t ∈ toks, ∃ v, convert t = .ok v) →
      ∃ vals : List α, vals.length = toks.length ∧ ∀ (rest : List ByteSeq) (acc : List α),
        scanLoop convert failure (toks ++ rest) acc = scanLoop convert failure rest (acc ++ vals)
  | [], _ => ⟨[], rfl, fun rest acc => by simp⟩
  | t :: toks, h => by
    obtain ⟨v, hv⟩ := h t (by simp)
    obtain ⟨vals, hlen, ih⟩ := scanLoop_ok_exists convert failure toks
      (fun x hx => h x (by simp [hx]))
    refine ⟨v :: vals, by simp [hlen], fun rest acc => ?_⟩
    rw [List.cons_append, scanLoop]
    simp only [hv]
    rw [ih]
    simp

/-- The result of a typed accessor over a text whose first lines convert and whose
next line does not. -/
theorem scanLoop_stops_exists {α ε : Type} (convert : ByteSeq → Except ε α)
    (failure : Nat → ByteSeq → ε → GoError) (rc : Stream)
    (good : List ByteSeq) (bad : ByteSeq) (later : List ByteSeq) (e : ε)
    (hlines : splitLines rc.data = good ++ bad :: later)
    (hfit : ∀ l ∈ good ++ [bad], l.length < MaxScanTokenSize)
    (hgood : ∀ l ∈ good, ∃ v, convert (dropCR l) = .ok v)
    (hbad : convert (dropCR bad) = .error e) :
    ∃ vals : List α, vals.length = good.length ∧
      scanLoop convert failure (Scanner rc).1 []
        = (vals, some (failure good.length (dropCR bad) e)) := by
  obtain ⟨rest, hrest⟩ := Scanner_front rc (good ++ [bad]) later (by simpa using hlines) hfit
  obtain ⟨vals, hlen, hloop⟩ := scanLoop_ok_exists convert failure (good.map dropCR)
    (by simpa using hgood)
  refine ⟨vals, by simpa using hlen, ?_⟩
  rw [hrest, List.map_append, List.append_assoc, hloop]
  simp only [List.map_cons, List.map_nil, List.singleton_append, List.nil_append]
  rw [scanLoop_error convert failure _ _ _ e hbad]
  simp [hlen]

theorem checkOk_ok {α : Type} (r : Option α) (v : α) (h : r = some v) : checkOk r = .ok v := by
  simp only [checkOk, h]

theorem checkOk_error {α : Type} (r : Option α) (h : r = none) : checkOk r = .error () := by
  simp only [checkOk, h]

theorem bigIntsLoop_stops {Z : Type} (setString : ByteSeq → Int → Option Z) (base : Int)
    (bad : ByteSeq) (rest : List ByteSeq)
    (hbad : bigIntSetString setString bad base = .returns none) :
    ∀ (good : List ByteSeq) (acc : List Z),
      (∀ t ∈ good, ∃ z, bigIntSetString setString t base = .returns (some z)) →
      ∃ vals : List Z, vals.length = good.length ∧
        bigIntsLoop setString base (good ++ bad :: rest) acc
          = .returns (acc ++ vals, some (atIndexCouldNotParse (acc.length + good.length) bad))
  | [], acc, _ => ⟨[], rfl, by simp [bigIntsLoop, hbad]⟩
  | t :: good, acc, h => by
    obtain ⟨z, hz⟩ := h t (by simp)
    obtain ⟨vals, hlen, ih⟩ := bigIntsLoop_stops setString base bad rest hbad good (acc ++ [z])
      (fun x hx => h x (by simp [hx]))
    refine ⟨z :: vals, by simp [hlen], ?_⟩
    rw [List.cons_append, bigIntsLoop]
    simp only [hz]
    rw [ih]
    simp [Nat.add_assoc, Nat.add_comm 1]

theorem bigIntSetString_returns {Z : Type} (setString : ByteSeq → Int → Option Z)
    (s : ByteSeq) (base : Int) (hbase : base = 0 ∨ (2 ≤ base ∧ base ≤ 62)) :
    bigIntSetString setString s base
      = .returns (if s.length = 0 then none else setString s base) := by
  unfold bigIntSetString
  split_ifs <;> rfl

/-- C8, amended: what the error of a typed accessor carries. Let the stream that
`Reader` returns have the pieces `good ++ bad :: later` between its newlines,
each piece of `good` and `bad` (a line together with the carriage return that
may stand in front of its newline) shorter than `MaxScanTokenSize` bytes, and
let `bad` be the first piece whose line does not convert. Then `Ints`, `Int64s`
and `Floats` return the values of `good` and the error
`fmt.Errorf("At index %d: %w", len(good), cause)`, where `cause` is what the
conversion of the line reported, and `errors.Unwrap` of that error is `cause`.
`BigInts` and `BigFloats`, whose conversions report only `ok == false`, return the
values of `good` and `errors.New` of the text `At index k: could not parse `
followed by the line; that error wraps nothing and `errors.Unwrap` of it is
nil. For `BigInts` the conversions of these lines are to return, as they all do
when the base is 0 or from 2 to 62: in another base `SetString` panics on a line
that is not empty. -/
theorem parse_error_cause {F Z R : Type} (parseFloat : ByteSeq → F × Option GoError)
    (setInt : ByteSeq → Int → Option Z) (setFloat : ByteSeq → Option R)
    (i : Input) (year day base : Int) (w w1 : World) (rc : Stream)
    (good : List ByteSeq) (bad : ByteSeq) (later : List ByteSeq)
    (hread : i.Reader year day w = (.ok rc, w1))
    (hlines : splitLines rc.data = good ++ bad :: later)
    (hfit : ∀ l ∈ good ++ [bad], l.length < MaxScanTokenSize) :
    (∀ cause, (∀ l ∈ good, (Atoi (dropCR l)).2 = none) → (Atoi (dropCR bad)).2 = some cause →
        ∃ vals : List Int, vals.length = good.length
          ∧ (i.Ints year day w).1 = (vals, some (atIndexWrap good.length cause))
          ∧ errorsUnwrap (atIndexWrap good.length cause) = some cause)
      ∧ (∀ cause, (∀ l ∈ good, (ParseInt (dropCR l) base 64).2 = none) →
          (ParseInt (dropCR bad) base 64).2 = some cause →
        ∃ vals : List Int, vals.length = good.length
          ∧ (i.Int64s year day base w).1 = (vals, some (atIndexWrap good.length cause))
          ∧ errorsUnwrap (atIndexWrap good.length cause) = some cause)
      ∧ (∀ cause, (∀ l ∈ good, (parseFloat (dropCR l)).2 = none) →
          (parseFloat (dropCR bad)).2 = some cause →
        ∃ vals : List F, vals.length = good.length
          ∧ (i.Floats parseFloat year day w).1 = (vals, some (atIndexWrap good.length cause))
          ∧ errorsUnwrap (atIndexWrap good.length cause) = some cause)
      ∧ ((∀ l ∈ good, ∃ z, bigIntSetString setInt (dropCR l) base = .returns (some z)) →
          bigIntSetString setInt (dropCR bad) base = .returns none →
        ∃ vals : List Z, vals.length = good.length
          ∧ (i.BigInts setInt year day base w).1
              = .returns (vals, some (atIndexCouldNotParse good.length (dropCR bad)))
          ∧ errorsUnwrap (atIndexCouldNotParse good.length (dropCR bad)) = none)
      ∧ ((base = 0 ∨ (2 ≤ base ∧ base ≤ 62)) → ∀ s : ByteSeq,
          bigIntSetString setInt s base
            = .returns (if s.length = 0 then none else setInt s base))
      ∧ ((∀ l ∈ good, ∃ z, setFloat (dropCR l) = some z) → setFloat (dropCR bad) = none →
        ∃ vals : List R, vals.length = good.length
          ∧ (i.BigFloats setFloat year day w).1
              = (vals, some (atIndexCouldNotParse good.length (dropCR bad)))
          ∧ errorsUnwrap (atIndexCouldNotParse good.length (dropCR bad)) = none)
      ∧ (∀ (cause : GoError) (quote : ByteSeq → ByteSeq),
          (atIndexWrap good.length cause).Error quote
            = ascii "At index " ++ fmtNat good.length ++ ascii ": " ++ cause.Error quote)
      ∧ (∀ quote : ByteSeq → ByteSeq,
          (atIndexCouldNotParse good.length (dropCR bad)).Error quote
            = ascii "At index " ++ fmtNat good.length ++ ascii ": could not parse "
                ++ dropCR bad) := by
  refine ⟨?_, ?_, ?_, ?_, ?_, ?_, ?_, ?_⟩
  · intro cause hgood hbad
    obtain ⟨vals, hlen, h⟩ := scanLoop_stops_exists (fun text => checkErr (Atoi text))
      (fun n _ err => atIndexWrap n err) rc good bad later cause hlines hfit
      (fun l hl => ⟨_, checkErr_ok _ (hgood l hl)⟩) (checkErr_error _ _ hbad)
    exact ⟨vals, hlen, by simp only [Input.Ints, hread, h], rfl⟩
  · intro cause hgood hbad
    obtain ⟨vals, hlen, h⟩ := scanLoop_stops_exists (fun text => checkErr (ParseInt text base 64))
      (fun n _ err => atIndexWrap n err) rc good bad later cause hlines hfit
      (fun l hl => ⟨_, checkErr_ok _ (hgood l hl)⟩) (checkErr_error _ _ hbad)
    exact ⟨vals, hlen, by simp only [Input.Int64s, hread, h], rfl⟩
  · intro cause hgood hbad
    obtain ⟨vals, hlen, h⟩ := scanLoop_stops_exists (fun text => checkErr (parseFloat text))
      (fun n _ err => atIndexWrap n err) rc good bad later cause hlines hfit
      (fun l hl => ⟨_, checkErr_ok _ (hgood l hl)⟩) (checkErr_error _ _ hbad)
    exact ⟨vals, hlen, by simp only [Input.Floats, hread, h], rfl⟩
  · intro hgood hbad
    obtain ⟨rest, hrest⟩ := Scanner_front rc (good ++ [bad]) later (by simpa using hlines) hfit
    obtain ⟨vals, hlen, h⟩ := bigIntsLoop_stops setInt base (dropCR bad) rest hbad
      (good.map dropCR) [] (by simpa using hgood)
    refine ⟨vals, by simpa using hlen, ?_, rfl⟩
    simp only [Input.BigInts, hread, hrest, List.map_append, List.map_cons, List.map_nil,
      List.append_assoc, List.singleton_append, List.nil_append]
    rw [h]
    simp
  · intro hbase s
    exact bigIntSetString_returns setInt s base hbase
  · intro hgood hbad
    obtain ⟨vals, hlen, h⟩ := scanLoop_stops_exists (fun s => checkOk (setFloat s))
      (fun n s _ => atIndexCouldNotParse n s) rc good bad later () hlines hfit
      (fun l hl => (hgood l hl).imp (fun z hz => checkOk_ok _ z hz)) (checkOk_error _ hbad)
    exact ⟨vals, hlen, by simp only [Input.BigFloats, hread, h], rfl⟩
  · intro cause quote
    simp [atIndexWrap, GoError.Error]
  · intro quote
    simp [atIndexCouldNotParse, GoError.Error]

/-- C8, witness: for the lines `10`, `20`, `bad`, `40` the errors of `Ints` and of
`Int64s` in base 10 carry index 2 and unwrap to the syntax error of `Atoi` and
of `ParseInt` on `bad`; the error of `BigInts`, here over the conversion that
accepts the base-10 numerals, carries index 2 and the line, and unwraps to
nil. -/
theorem parse_error_cause_witness :
    (∃ vals : List Int, vals.length = 2
        ∧ (Input.Ints ⟨[]⟩ 2018 1
            (cachedWorld (cacheFileName 2018 1) (ascii "10\n20\nbad\n40"))).1
            = (vals, some (atIndexWrap 2 (syntaxError fnAtoi (ascii "bad"))))
        ∧ errorsUnwrap (atIndexWrap 2 (syntaxError fnAtoi (ascii "bad")))
            = some (syntaxError fnAtoi (ascii "bad")))
      ∧ (∃ vals : List Int, vals.length = 2
        ∧ (Input.Int64s ⟨[]⟩ 2018 1 10
            (cachedWorld (cacheFileName 2018 1) (ascii "10\n20\nbad\n40"))).1
            = (vals, some (atIndexWrap 2 (syntaxError fnParseInt (ascii "bad"))))
        ∧ errorsUnwrap (atIndexWrap 2 (syntaxError fnParseInt (ascii "bad")))
            = some (syntaxError fnParseInt (ascii "bad")))
      ∧ (∃ vals : List Int, vals.length = 2
        ∧ (Input.BigInts (fun s base => numeralValue base s) ⟨[]⟩ 2018 1 10
            (cachedWorld (cacheFileName 2018 1) (ascii "10\n20\nbad\n40"))).1
            = .returns (vals, some (atIndexCouldNotParse 2 (ascii "bad")))
        ∧ errorsUnwrap (atIndexCouldNotParse 2 (ascii "bad")) = none) :=
  ⟨(parse_error_cause Atoi (fun s base => numeralValue base s) (numeralValue 10)
      ⟨[]⟩ 2018 1 10 (cachedWorld (cacheFileName 2018 1) (ascii "10\n20\nbad\n40")) _ _
      [ascii "10", ascii "20"] (ascii "bad") [ascii "40"]
      (Reader_cachedWorld _ _ _ _) (by decide) (by decide)).1
      (syntaxError fnAtoi (ascii "bad")) (by decide) (by decide),
    (parse_error_cause Atoi (fun s base => numeralValue base s) (numeralValue 10)
      ⟨[]⟩ 2018 1 10 (cachedWorld (cacheFileName 2018 1) (ascii "10\n20\nbad\n40")) _ _
      [ascii "10", ascii "20"] (ascii "bad") [ascii "40"]
      (Reader_cachedWorld _ _ _ _) (by decide) (by decide)).2.1
      (syntaxError fnParseInt (ascii "bad")) (by decide) (by decide),
    (parse_error_cause Atoi (fun s base => numeralValue base s) (numeralValue 10)
      ⟨[]⟩ 2018 1 10 (cachedWorld (cacheFileName 2018 1) (ascii "10\n20\nbad\n40")) _ _
      [ascii "10", ascii "20"] (ascii "bad") [ascii "40"]
      (Reader_cachedWorld _ _ _ _) (by decide) (by decide)).2.2.2.1
      (fun l hl => ⟨((numeralValue 10 (dropCR l)).getD 0), by
        simp only [List.mem_cons, List.mem_singleton, List.mem_nil_iff, or_false] at hl
        rcases hl with rfl | rfl <;> decide⟩)
      (by decide)⟩

/-- C8, counterexample. First, `BigInts` on the one line `bad` in base 10: for every
conversion that rejects the line, the error returned is `errors.New` of the text
`At index 0: could not parse bad`, and `errors.Unwrap` of it is nil, not a failure
that the conversion reported. Second, `Int64s` in base 10 on the input of
`longLineInput`, whose line 0 (65536 zeros) converts and whose line 1 (`bad`) is
the first that does not: the scanner stops on line 0 and `Int64s` returns a nil
error, so no error carries index 1; the same holds on the input of
`longLineCRInput`, whose line 0 has 65535 zeros and a carriage return in front
of its newline. Third, `BigInts` in base 1 on the one line `10`: whatever the
conversion does elsewhere, the call panics and returns no error at all. -/
theorem BigInts_error_counterexample :
    (¬ ∃ setString : ByteSeq → Int → Option Int, setString (ascii "bad") 10 = none
        ∧ (Input.BigInts setString ⟨[]⟩ 2018 1 10
            (cachedWorld (cacheFileName 2018 1) (ascii "bad"))).1
          ≠ .returns ([], some (atIndexCouldNotParse 0 (ascii "bad"))))
      ∧ errorsUnwrap (atIndexCouldNotParse 0 (ascii "bad")) = none
      ∧ splitLines longLineInput = [List.replicate 65536 48, ascii "bad"]
      ∧ ParseInt (List.replicate 65536 48) 10 64 = (0, none)
      ∧ (ParseInt (ascii "bad") 10 64).2 = some (syntaxError fnParseInt (ascii "bad"))
      ∧ (Input.Int64s ⟨[]⟩ 2018 1 10 (cachedWorld (cacheFileName 2018 1) longLineInput)).1
          = ([], none)
      ∧ textLines longLineCRInput = [List.replicate 65535 48, ascii "bad"]
      ∧ ParseInt (List.replicate 65535 48) 10 64 = (0, none)
      ∧ (Input.Int64s ⟨[]⟩ 2018 1 10 (cachedWorld (cacheFileName 2018 1) longLineCRInput)).1
          = ([], none)
      ∧ (∀ setString : ByteSeq → Int → Option Int,
          (Input.BigInts setString ⟨[]⟩ 2018 1 1
            (cachedWorld (cacheFileName 2018 1) (ascii "10\n"))).1
            = .panics (ascii "invalid number base 1")) := by
  refine ⟨?_, rfl, splitLines_longLineInput,
    ParseInt_numeral 10 _ 0 (numeralValue_zeros 65535) (by norm_num) (by norm_num), by decide,
    Int64s_tooLong _ _ _ _ 65536 _ (by norm_num [MaxScanTokenSize]),
    textLines_longLineCRInput,
    ParseInt_numeral 10 _ 0 (numeralValue_zeros 65534) (by norm_num) (by norm_num),
    Int64s_longLineCRInput _ _ _ _, ?_⟩
  · rintro ⟨setString, hrej, hne⟩
    apply hne
    have hscan : Scanner ⟨ascii "bad", none⟩ = ([ascii "bad"], none) := by decide
    have hconv : bigIntSetString setString (ascii "bad") 10 = .returns none := by
      rw [bigIntSetString_returns setString _ 10 (by norm_num), ← hrej]
      rfl
    simp only [Input.BigInts, Reader_cachedWorld, hscan]
    simp only [bigIntsLoop, hconv]
    rfl
  · intro setString
    have hscan : Scanner ⟨ascii "10\n", none⟩ = ([ascii "10"], none) := by decide
    have hconv : bigIntSetString setString (ascii "10") 1
        = .panics (ascii "invalid number base 1") := by
      unfold bigIntSetString
      rw [if_neg (by decide), if_neg (by decide)]
      rfl
    simp only [Input.BigInts, Reader_cachedWorld, hscan]
    simp only [bigIntsLoop, hconv]

/-! ## The credential: `TrimSpace` -/

theorem spaceEncodings_eq : spaceEncodings =
    [[0x09], [0x0A], [0x0B], [0x0C], [0x0D], [0x20], [0xC2, 0x85], [0xC2, 0xA0],
      [0xE1, 0x9A, 0x80], [0xE2, 0x80, 0x80], [0xE2, 0x80, 0x81], [0xE2, 0x80, 0x82],
      [0xE2, 0x80, 0x83], [0xE2, 0x80, 0x84], [0xE2, 0x80, 0x85], [0xE2, 0x80, 0x86],
      [0xE2, 0x80, 0x87], [0xE2, 0x80, 0x88], [0xE2, 0x80, 0x89], [0xE2, 0x80, 0x8A],
      [0xE2, 0x80, 0xA8], [0xE2, 0x80, 0xA9], [0xE2, 0x80, 0xAF], [0xE2, 0x81, 0x9F],
      [0xE3, 0x80, 0x80]] := by decide

/-- Decoding a text that starts with a white space character yields that
character. -/
theorem DecodeRune_space (e x : ByteSeq) (h : e ∈ spaceEncodings) :
    ∃ r, DecodeRuneInString (e ++ x) = (r, e.length) ∧ IsSpace r = true := by
  rw [spaceEncodings_eq] at h
  simp only [List.mem_cons, List.mem_nil_iff, or_false] at h
  have h2 : ¬ (x.length + 1 + 1 < 2) := by omega
  have h3 : ¬ (x.length + 1 + 1 + 1 < 3) := by omega
  rcases h with h | h | h | h | h | h | h | h | h | h | h | h | h | h | h | h | h | h | h | h | h | h | h | h | h <;>
    subst h <;>
    simp [DecodeRuneInString, first, acceptRanges, IsSpace, h2, h3]


theorem first_cases (b : Nat) :
    (b < 0x80 ∧ first b = 0xF0)
      ∨ ((b < 0xC2 ∨ 0xF4 < b) ∧ 0x80 ≤ b ∧ first b = 0xF1)
      ∨ (0xC2 ≤ b ∧ b < 0xE0 ∧ first b = 0x02)
      ∨ (b = 0xE0 ∧ first b = 0x13)
      ∨ (0xE0 < b ∧ b < 0xF0 ∧ b ≠ 0xED ∧ first b = 0x03)
      ∨ (b = 0xED ∧ first b = 0x23)
      ∨ (b = 0xF0 ∧ first b = 0x34)
      ∨ (0xF0 < b ∧ b < 0xF4 ∧ first b = 0x04)
      ∨ (b = 0xF4 ∧ first b = 0x44) := by
  by_cases h1 : b < 0x80
  · exact Or.inl ⟨h1, by rw [first, if_pos h1]⟩
  by_cases h2 : b < 0xC2
  · exact Or.inr (Or.inl ⟨by omega, by omega, by rw [first, if_neg h1, if_pos h2]⟩)
  by_cases h3 : b < 0xE0
  · exact Or.inr (Or.inr (Or.inl ⟨by omega, h3, by rw [first, if_neg h1, if_neg h2, if_pos h3]⟩))
  by_cases h4 : b = 0xE0
  · exact Or.inr (Or.inr (Or.inr (Or.inl
      ⟨h4, by rw [first, if_neg h1, if_neg h2, if_neg h3, if_pos h4]⟩)))
  by_cases h5 : b < 0xED
  · exact Or.inr (Or.inr (Or.inr (Or.inr (Or.inl ⟨by omega, by omega, by omega,
      by rw [first, if_neg h1, if_neg h2, if_neg h3, if_neg h4, if_pos h5]⟩))))
  by_cases h6 : b = 0xED
  · exact Or.inr (Or.inr (Or.inr (Or.inr (Or.inr (Or.inl ⟨h6,
      by rw [first, if_neg h1, if_neg h2, if_neg h3, if_neg h4, if_neg h5, if_pos h6]⟩)))))
  by_cases h7 : b < 0xF0
  · exact Or.inr (Or.inr (Or.inr (Or.inr (Or.inl ⟨by omega, h7, h6,
      by rw [first, if_neg h1, if_neg h2, if_neg h3, if_neg h4, if_neg h5, if_neg h6,
        if_pos h7]⟩))))
  by_cases h8 : b = 0xF0
  · exact Or.inr (Or.inr (Or.inr (Or.inr (Or.inr (Or.inr (Or.inl ⟨h8,
      by rw [first, if_neg h1, if_neg h2, if_neg h3, if_neg h4, if_neg h5, if_neg h6,
        if_neg h7, if_pos h8]⟩))))))
  by_cases h9 : b < 0xF4
  · exact Or.inr (Or.inr (Or.inr (Or.inr (Or.inr (Or.inr (Or.inr (Or.inl ⟨by omega, h9,
      by rw [first, if_neg h1, if_neg h2, if_neg h3, if_neg h4, if_neg h5, if_neg h6,
        if_neg h7, if_neg h8, if_pos h9]⟩)))))))
  by_cases h10 : b = 0xF4
  · exact Or.inr (Or.inr (Or.inr (Or.inr (Or.inr (Or.inr (Or.inr (Or.inr ⟨h10,
      by rw [first, if_neg h1, if_neg h2, if_neg h3, if_neg h4, if_neg h5, if_neg h6,
        if_neg h7, if_neg h8, if_neg h9, if_pos h10]⟩)))))))
  · exact Or.inr (Or.inl ⟨by omega, by omega,
      by rw [first, if_neg h1, if_neg h2, if_neg h3, if_neg h4, if_neg h5, if_neg h6,
        if_neg h7, if_neg h8, if_neg h9, if_neg h10]⟩)

theorem DecodeRune_two (s0 s1 : Nat) (x : ByteSeq) (h0 : 0xC2 ≤ s0 ∧ s0 < 0xE0)
    (h1 : 0x80 ≤ s1 ∧ s1 ≤ 0xBF) :
    DecodeRuneInString (s0 :: s1 :: x) = (s0 % 32 * 64 + s1 % 64, 2) := by
  have hl : ¬ (x.length + 1 + 1 < 2) := by omega
  have hf : first s0 = 0x02 := by
    rcases first_cases s0 with h | h | h | h | h | h | h | h | h <;> omega
  have hr : ¬ (s1 < 128 ∨ 191 < s1) := by omega
  simp [DecodeRuneInString, hf, acceptRanges, hl, hr]

theorem DecodeRune_three (s0 s1 s2 : Nat) (x : ByteSeq) (h0 : 0xE0 ≤ s0 ∧ s0 < 0xF0)
    (h1 : 0x80 ≤ s1 ∧ s1 ≤ 0xBF) (hE0 : s0 = 0xE0 → 0xA0 ≤ s1) (hED : s0 = 0xED → s1 ≤ 0x9F)
    (h2 : 0x80 ≤ s2 ∧ s2 ≤ 0xBF) :
    DecodeRuneInString (s0 :: s1 :: s2 :: x)
      = (s0 % 16 * 4096 + s1 % 64 * 64 + s2 % 64, 3) := by
  have hl : ¬ (x.length + 1 + 1 + 1 < 3) := by omega
  have hr2 : ¬ (s2 < 128 ∨ 191 < s2) := by omega
  by_cases hs1 : s0 = 0xE0
  · have hf : first s0 = 0x13 := by
      rcases first_cases s0 with h | h | h | h | h | h | h | h | h <;> omega
    have hr : ¬ (s1 < 160 ∨ 191 < s1) := by omega
    simp [DecodeRuneInString, hf, acceptRanges, hl, hr, hr2]
  by_cases hs2 : s0 = 0xED
  · have hf : first s0 = 0x23 := by
      rcases first_cases s0 with h | h | h | h | h | h | h | h | h <;> omega
    have hr : ¬ (s1 < 128 ∨ 159 < s1) := by omega
    simp [DecodeRuneInString, hf, acceptRanges, hl, hr, hr2]
  · have hf : first s0 = 0x03 := by
      rcases first_cases s0 with h | h | h | h | h | h | h | h | h <;> omega
    have hr : ¬ (s1 < 128 ∨ 191 < s1) := by omega
    simp [DecodeRuneInString, hf, acceptRanges, hl, hr, hr2]

theorem DecodeRune_four (s0 s1 s2 s3 : Nat) (x : ByteSeq) (h0 : 0xF0 ≤ s0 ∧ s0 ≤ 0xF4)
    (h1 : 0x80 ≤ s1 ∧ s1 ≤ 0xBF) (hF0 : s0 = 0xF0 → 0x90 ≤ s1) (hF4 : s0 = 0xF4 → s1 ≤ 0x8F)
    (h2 : 0x80 ≤ s2 ∧ s2 ≤ 0xBF) (h3 : 0x80 ≤ s3 ∧ s3 ≤ 0xBF) :
    DecodeRuneInString (s0 :: s1 :: s2 :: s3 :: x)
      = (s0 % 8 * 262144 + s1 % 64 * 4096 + s2 % 64 * 64 + s3 % 64, 4) := by
  have hl : ¬ (x.length + 1 + 1 + 1 + 1 < 4) := by omega
  have hr2 : ¬ (s2 < 128 ∨ 191 < s2) := by omega
  have hr3 : ¬ (s3 < 128 ∨ 191 < s3) := by omega
  by_cases hs1 : s0 = 0xF0
  · have hf : first s0 = 0x34 := by
      rcases first_cases s0 with h | h | h | h | h | h | h | h | h <;> omega
    have hr : ¬ (s1 < 144 ∨ 191 < s1) := by omega
    simp [DecodeRuneInString, hf, acceptRanges, hl, hr, hr2, hr3]
  by_cases hs2 : s0 = 0xF4
  · have hf : first s0 = 0x44 := by
      rcases first_cases s0 with h | h | h | h | h | h | h | h | h <;> omega
    have hr : ¬ (s1 < 128 ∨ 143 < s1) := by omega
    simp [DecodeRuneInString, hf, acceptRanges, hl, hr, hr2, hr3]
  · have hf : first s0 = 0x04 := by
      rcases first_cases s0 with h | h | h | h | h | h | h | h | h <;> omega
    have hr : ¬ (s1 < 128 ∨ 191 < s1) := by omega
    simp [DecodeRuneInString, hf, acceptRanges, hl, hr, hr2, hr3]

theorem DecodeRune_shape3 (s0 : Nat) (rest : ByteSeq) (r size v lo hi : Nat)
    (h0 : 0xE0 ≤ s0 ∧ s0 < 0xF0) (hf : first s0 = v) (hv : ¬ v ≥ 0xF0) (hsz : v % 8 = 3)
    (hacc : acceptRanges (v / 16) = (lo, hi))
    (hlo : 0x80 ≤ lo ∧ (s0 = 0xE0 → 0xA0 ≤ lo)) (hhi : hi ≤ 0xBF ∧ (s0 = 0xED → hi ≤ 0x9F))
    (hfull : ∀ s1 s2 x, rest = s1 :: s2 :: x → lo ≤ s1 → s1 ≤ hi → 0x80 ≤ s2 → s2 ≤ 0xBF →
      DecodeRuneInString (s0 :: rest) = (s0 % 16 * 4096 + s1 % 64 * 64 + s2 % 64, 3))
    (h : DecodeRuneInString (s0 :: rest) = (r, size)) : RuneShape (s0 :: rest) r size := by
  unfold RuneShape
  rcases rest with _ | ⟨s1, _ | ⟨s2, x⟩⟩
  · simp [DecodeRuneInString, hf, hv, hsz] at h
    exact Or.inl ⟨h.2.symm, s0, [], rfl, Or.inr ⟨by omega, h.1.symm⟩⟩
  · simp [DecodeRuneInString, hf, hv, hsz] at h
    exact Or.inl ⟨h.2.symm, s0, _, rfl, Or.inr ⟨by omega, h.1.symm⟩⟩
  · by_cases h1 : lo ≤ s1 ∧ s1 ≤ hi
    · by_cases h2 : 0x80 ≤ s2 ∧ s2 ≤ 0xBF
      · rw [hfull s1 s2 x rfl h1.1 h1.2 h2.1 h2.2] at h
        simp only [Prod.mk.injEq] at h
        exact Or.inr (Or.inr (Or.inl ⟨h.2.symm, s0, s1, s2, x, rfl, h0, ⟨by omega, by omega⟩,
          fun he => le_trans (hlo.2 he) h1.1, fun he => le_trans h1.2 (hhi.2 he), h2,
          h.1.symm⟩))
      · have h1' : ¬ (s1 < lo ∨ hi < s1) := by omega
        have h2' : s2 < 128 ∨ 191 < s2 := by omega
        simp [DecodeRuneInString, hf, hv, hsz, hacc, h1', h2'] at h
        exact Or.inl ⟨h.2.symm, s0, _, rfl, Or.inr ⟨by omega, h.1.symm⟩⟩
    · have h1' : s1 < lo ∨ hi < s1 := by omega
      simp [DecodeRuneInString, hf, hv, hsz, hacc, h1'] at h
      exact Or.inl ⟨h.2.symm, s0, _, rfl, Or.inr ⟨by omega, h.1.symm⟩⟩

theorem DecodeRune_shape4 (s0 : Nat) (rest : ByteSeq) (r size v lo hi : Nat)
    (h0 : 0xF0 ≤ s0 ∧ s0 ≤ 0xF4) (hf : first s0 = v) (hv : ¬ v ≥ 0xF0) (hsz : v % 8 = 4)
    (hacc : acceptRanges (v / 16) = (lo, hi))
    (hlo : 0x80 ≤ lo ∧ (s0 = 0xF0 → 0x90 ≤ lo)) (hhi : hi ≤ 0xBF ∧ (s0 = 0xF4 → hi ≤ 0x8F))
    (hfull : ∀ s1 s2 s3 x, rest = s1 :: s2 :: s3 :: x → lo ≤ s1 → s1 ≤ hi → 0x80 ≤ s2 →
      s2 ≤ 0xBF → 0x80 ≤ s3 → s3 ≤ 0xBF →
      DecodeRuneInString (s0 :: rest)
        = (s0 % 8 * 262144 + s1 % 64 * 4096 + s2 % 64 * 64 + s3 % 64, 4))
    (h : DecodeRuneInString (s0 :: rest) = (r, size)) : RuneShape (s0 :: rest) r size := by
  unfold RuneShape
  rcases rest with _ | ⟨s1, _ | ⟨s2, _ | ⟨s3, x⟩⟩⟩
  · simp [DecodeRuneInString, hf, hv, hsz] at h
    exact Or.inl ⟨h.2.symm, s0, [], rfl, Or.inr ⟨by omega, h.1.symm⟩⟩
  · simp [DecodeRuneInString, hf, hv, hsz] at h
    exact Or.inl ⟨h.2.symm, s0, _, rfl, Or.inr ⟨by omega, h.1.symm⟩⟩
  · simp [DecodeRuneInString, hf, hv, hsz] at h
    exact Or.inl ⟨h.2.symm, s0, _, rfl, Or.inr ⟨by omega, h.1.symm⟩⟩
  · by_cases h1 : lo ≤ s1 ∧ s1 ≤ hi
    · by_cases h2 : 0x80 ≤ s2 ∧ s2 ≤ 0xBF
      · by_cases h3 : 0x80 ≤ s3 ∧ s3 ≤ 0xBF
        · rw [hfull s1 s2 s3 x rfl h1.1 h1.2 h2.1 h2.2 h3.1 h3.2] at h
          simp only [Prod.mk.injEq] at h
          exact Or.inr (Or.inr (Or.inr ⟨h.2.symm, s0, s1, s2, s3, x, rfl, h0,
            ⟨by omega, by omega⟩, fun he => le_trans (hlo.2 he) h1.1,
            fun he => le_trans h1.2 (hhi.2 he), h2, h3, h.1.symm⟩))
        · have h1' : ¬ (s1 < lo ∨ hi < s1) := by omega
          have h2' : ¬ (s2 < 128 ∨ 191 < s2) := by omega
          have h3' : s3 < 128 ∨ 191 < s3 := by omega
          simp [DecodeRuneInString, hf, hv, hsz, hacc, h1', h2', h3'] at h
          exact Or.inl ⟨h.2.symm, s0, _, rfl, Or.inr ⟨by omega, h.1.symm⟩⟩
      · have h1' : ¬ (s1 < lo ∨ hi < s1) := by omega
        have h2' : s2 < 128 ∨ 191 < s2 := by omega
        simp [DecodeRuneInString, hf, hv, hsz, hacc, h1', h2'] at h
        exact Or.inl ⟨h.2.symm, s0, _, rfl, Or.inr ⟨by omega, h.1.symm⟩⟩
    · have h1' : s1 < lo ∨ hi < s1 := by omega
      simp [DecodeRuneInString, hf, hv, hsz, hacc, h1'] at h
      exact Or.inl ⟨h.2.symm, s0, _, rfl, Or.inr ⟨by omega, h.1.symm⟩⟩

theorem DecodeRune_shape (s0 : Nat) (rest : ByteSeq) (r size : Nat)
    (h : DecodeRuneInString (s0 :: rest) = (r, size)) : RuneShape (s0 :: rest) r size := by
  rcases first_cases s0 with hf | hf | hf | hf | hf | hf | hf | hf | hf
  · obtain ⟨hs, hf⟩ := hf
    simp [DecodeRuneInString, hf] at h
    exact Or.inl ⟨h.2.symm, s0, rest, rfl, Or.inl ⟨hs, h.1.symm⟩⟩
  · obtain ⟨_, hs, hf⟩ := hf
    simp [DecodeRuneInString, hf] at h
    exact Or.inl ⟨h.2.symm, s0, rest, rfl, Or.inr ⟨hs, h.1.symm⟩⟩
  · obtain ⟨hs1, hs2, hf⟩ := hf
    rcases rest with _ | ⟨s1, x⟩
    · simp [DecodeRuneInString, hf] at h
      exact Or.inl ⟨h.2.symm, s0, [], rfl, Or.inr ⟨by omega, h.1.symm⟩⟩
    · by_cases hr : 0x80 ≤ s1 ∧ s1 ≤ 0xBF
      · rw [DecodeRune_two s0 s1 x ⟨hs1, hs2⟩ hr] at h
        simp only [Prod.mk.injEq] at h
        exact Or.inr (Or.inl ⟨h.2.symm, s0, s1, x, rfl, ⟨hs1, hs2⟩, hr, h.1.symm⟩)
      · have hr' : s1 < 128 ∨ 191 < s1 := by omega
        simp [DecodeRuneInString, hf, acceptRanges, hr'] at h
        exact Or.inl ⟨h.2.symm, s0, _, rfl, Or.inr ⟨by omega, h.1.symm⟩⟩
  · obtain ⟨hs, hf⟩ := hf
    exact DecodeRune_shape3 s0 rest r size 0x13 0xA0 0xBF (by omega) hf (by decide) rfl rfl
      (by omega) (by omega)
      (fun s1 s2 x hx h1 h2 h3 h4 => by
        rw [hx]
        exact DecodeRune_three s0 s1 s2 x (by omega) (by omega) (by omega) (by omega)
          (by omega)) h
  · obtain ⟨hs1, hs2, hs3, hf⟩ := hf
    exact DecodeRune_shape3 s0 rest r size 0x03 0x80 0xBF (by omega) hf (by decide) rfl rfl
      (by omega) (by omega)
      (fun s1 s2 x hx h1 h2 h3 h4 => by
        rw [hx]
        exact DecodeRune_three s0 s1 s2 x (by omega) (by omega) (by omega) (by omega)
          (by omega)) h
  · obtain ⟨hs, hf⟩ := hf
    exact DecodeRune_shape3 s0 rest r size 0x23 0x80 0x9F (by omega) hf (by decide) rfl rfl
      (by omega) (by omega)
      (fun s1 s2 x hx h1 h2 h3 h4 => by
        rw [hx]
        exact DecodeRune_three s0 s1 s2 x (by omega) (by omega) (by omega) (by omega)
          (by omega)) h
  · obtain ⟨hs, hf⟩ := hf
    exact DecodeRune_shape4 s0 rest r size 0x34 0x90 0xBF (by omega) hf (by decide) rfl rfl
      (by omega) (by omega)
      (fun s1 s2 s3 x hx h1 h2 h3 h4 h5 h6 => by
        rw [hx]
        exact DecodeRune_four s0 s1 s2 s3 x (by omega) (by omega) (by omega) (by omega)
          (by omega) (by omega)) h
  · obtain ⟨hs1, hs2, hf⟩ := hf
    exact DecodeRune_shape4 s0 rest r size 0x04 0x80 0xBF (by omega) hf (by decide) rfl rfl
      (by omega) (by omega)
      (fun s1 s2 s3 x hx h1 h2 h3 h4 h5 h6 => by
        rw [hx]
        exact DecodeRune_four s0 s1 s2 s3 x (by omega) (by omega) (by omega) (by omega)
          (by omega) (by omega)) h
  · obtain ⟨hs, hf⟩ := hf
    exact DecodeRune_shape4 s0 rest r size 0x44 0x80 0x8F (by omega) hf (by decide) rfl rfl
      (by omega) (by omega)
      (fun s1 s2 s3 x hx h1 h2 h3 h4 h5 h6 => by
        rw [hx]
        exact DecodeRune_four s0 s1 s2 s3 x (by omega) (by omega) (by omega) (by omega)
          (by omega) (by omega)) h

theorem IsSpace_iff (r : Nat) : IsSpace r = true ↔
    (r = 0x09 ∨ r = 0x0A ∨ r = 0x0B ∨ r = 0x0C ∨ r = 0x0D ∨ r = 0x20 ∨ r = 0x85 ∨ r = 0xA0
      ∨ r = 0x1680 ∨ (0x2000 ≤ r ∧ r ≤ 0x200A) ∨ r = 0x2028 ∨ r = 0x2029 ∨ r = 0x202F
      ∨ r = 0x205F ∨ r = 0x3000) := by
  unfold IsSpace
  split_ifs with h <;> simp only [decide_eq_true_eq] <;> omega

theorem IsSpace_mem (r : Nat) (h : IsSpace r = true) : r ∈ whiteSpace := by
  rw [IsSpace_iff] at h
  simp only [whiteSpace, List.mem_cons, List.mem_nil_iff, or_false]
  omega

theorem encodeRune_mem (r : Nat) (h : IsSpace r = true) : encodeRune r ∈ spaceEncodings :=
  List.mem_map_of_mem encodeRune (IsSpace_mem r h)

theorem encodeRune_two (a b : Nat) (ha : 0xC2 ≤ a ∧ a < 0xE0) (hb : 0x80 ≤ b ∧ b ≤ 0xBF) :
    encodeRune (a % 32 * 64 + b % 64) = [a, b] := by
  have h1 : ¬ (a % 32 * 64 + b % 64 < 0x80) := by omega
  have h2 : a % 32 * 64 + b % 64 < 0x800 := by omega
  have h3 : 0xC0 + (a % 32 * 64 + b % 64) / 64 = a := by omega
  have h4 : 0x80 + (a % 32 * 64 + b % 64) % 64 = b := by omega
  rw [encodeRune, if_neg h1, if_pos h2, h3, h4]

theorem encodeRune_three (a b c : Nat) (ha : 0xE0 ≤ a ∧ a < 0xF0) (hb : 0x80 ≤ b ∧ b ≤ 0xBF)
    (hE0 : a = 0xE0 → 0xA0 ≤ b) (hc : 0x80 ≤ c ∧ c ≤ 0xBF) :
    encodeRune (a % 16 * 4096 + b % 64 * 64 + c % 64) = [a, b, c] := by
  have h1 : ¬ (a % 16 * 4096 + b % 64 * 64 + c % 64 < 0x80) := by omega
  have h2 : ¬ (a % 16 * 4096 + b % 64 * 64 + c % 64 < 0x800) := by omega
  have h3 : a % 16 * 4096 + b % 64 * 64 + c % 64 < 0x10000 := by omega
  have h4 : 0xE0 + (a % 16 * 4096 + b % 64 * 64 + c % 64) / 4096 = a := by omega
  have h5 : 0x80 + (a % 16 * 4096 + b % 64 * 64 + c % 64) / 64 % 64 = b := by omega
  have h6 : 0x80 + (a % 16 * 4096 + b % 64 * 64 + c % 64) % 64 = c := by omega
  rw [encodeRune, if_neg h1, if_neg h2, if_pos h3, h4, h5, h6]

/-- A decoded white space character stands at the front of the text, encoded. -/
theorem DecodeRune_space_inv (s : ByteSeq) (r size : Nat)
    (h : DecodeRuneInString s = (r, size)) (hr : IsSpace r = true) :
    ∃ e x, e ∈ spaceEncodings ∧ s = e ++ x ∧ e.length = size := by
  have hmem := encodeRune_mem r hr
  rw [IsSpace_iff] at hr
  rcases s with _ | ⟨s0, rest⟩
  · simp [DecodeRuneInString, RuneError] at h
    omega
  · rcases DecodeRune_shape s0 rest r size h with hs | hs | hs | hs
    · obtain ⟨hsize, a, x, hx, hcase⟩ := hs
      rcases hcase with ⟨ha, hra⟩ | ⟨ha, hra⟩
      · have henc : encodeRune r = [a] := by
          rw [encodeRune, if_pos (by omega), hra]
        rw [henc] at hmem
        exact ⟨[a], x, hmem, by simpa using hx, by simp [hsize]⟩
      · simp only [RuneError] at hra
        omega
    · obtain ⟨hsize, a, b, x, hx, ha, hb, hrab⟩ := hs
      rw [hrab, encodeRune_two a b ha hb] at hmem
      exact ⟨[a, b], x, hmem, by simpa using hx, by simp [hsize]⟩
    · obtain ⟨hsize, a, b, c, x, hx, ha, hb, hE0, _, hc, hrabc⟩ := hs
      rw [hrabc, encodeRune_three a b c ha hb hE0 hc] at hmem
      exact ⟨[a, b, c], x, hmem, by simpa using hx, by simp [hsize]⟩
    · obtain ⟨hsize, a, b, c, d, x, hx, ha, hb, hF0, _, hc, hd, hrabcd⟩ := hs
      have hlow : 0x10000 ≤ r := by omega
      omega

theorem spaceEncodings_head (e : ByteSeq) (h : e ∈ spaceEncodings) :
    ∃ b rest, e = b :: rest ∧ (b < 0x80 ∨ 0xBF < b) ∧ (b < 0x80 → rest = [] ∧ asciiSpace b = true)
      := by
  rw [spaceEncodings_eq] at h
  simp only [List.mem_cons, List.mem_nil_iff, or_false] at h
  rcases h with h | h | h | h | h | h | h | h | h | h | h | h | h | h | h | h | h | h | h | h | h | h | h | h | h <;>
    subst h <;> exact ⟨_, _, rfl, by decide, by decide⟩

theorem AllSpace_head (b : Nat) (x : ByteSeq) (h : AllSpace (b :: x)) : b < 0x80 ∨ 0xBF < b := by
  generalize hs : b :: x = s at h
  cases h with
  | nil => simp at hs
  | cons e rest he hrest =>
    obtain ⟨c, tail, rfl, hc, _⟩ := spaceEncodings_head e he
    simp only [List.cons_append, List.cons.injEq] at hs
    omega

/-- A byte that is not ASCII and stands in front of white space decodes with
width one unless it starts a complete rune, which white space cannot continue. -/
theorem DecodeRune_width_one (b : Nat) (suf : ByteSeq) (hsuf : AllSpace suf)
    (r size : Nat) (h : DecodeRuneInString (b :: suf) = (r, size)) : size = 1 := by
  rcases DecodeRune_shape b suf r size h with hs | hs | hs | hs
  · exact hs.1
  · obtain ⟨_, a, c, x, hx, _, hc, _⟩ := hs
    simp only [List.cons.injEq] at hx
    obtain ⟨rfl, rfl⟩ := hx
    have := AllSpace_head c x hsuf
    omega
  · obtain ⟨_, a, c, d, x, hx, _, hc, _⟩ := hs
    simp only [List.cons.injEq] at hx
    obtain ⟨rfl, rfl⟩ := hx
    have := AllSpace_head c _ hsuf
    omega
  · obtain ⟨_, a, c, d, f, x, hx, _, hc, _⟩ := hs
    simp only [List.cons.injEq] at hx
    obtain ⟨rfl, rfl⟩ := hx
    have := AllSpace_head c _ hsuf
    omega

/-- A rune of width two or more decodes the same whatever follows it. -/
theorem DecodeRune_append (c x : ByteSeq) (r n : Nat) (h : DecodeRuneInString c = (r, n))
    (hn : 2 ≤ n) : DecodeRuneInString (c ++ x) = (r, n) ∧ ∃ b rest, c = b :: rest ∧ 0x80 ≤ b := by
  rcases c with _ | ⟨s0, rest⟩
  · simp [DecodeRuneInString] at h
    omega
  · rcases DecodeRune_shape s0 rest r n h with hs | hs | hs | hs
    · omega
    · obtain ⟨rfl, a, b, y, hy, ha, hb, rfl⟩ := hs
      rw [hy]
      exact ⟨DecodeRune_two a b (y ++ x) ha hb, a, _, rfl, by omega⟩
    · obtain ⟨rfl, a, b, c, y, hy, ha, hb, hE0, hED, hc, rfl⟩ := hs
      rw [hy]
      exact ⟨DecodeRune_three a b c (y ++ x) ha hb hE0 hED hc, a, _, rfl, by omega⟩
    · obtain ⟨rfl, a, b, c, d, y, hy, ha, hb, hF0, hF4, hc, hd, rfl⟩ := hs
      rw [hy]
      exact ⟨DecodeRune_four a b c d (y ++ x) ha hb hF0 hF4 hc hd, a, _, rfl, by omega⟩

theorem lastRuneBytes_spec (b1 : Nat) (before : ByteSeq) :
    ∃ p front, (b1 :: before).reverse = p ++ lastRuneBytes (b1 :: before)
      ∧ lastRuneBytes (b1 :: before) = front ++ [b1] := by
  rcases before with _ | ⟨b2, _ | ⟨b3, _ | ⟨b4, _ | ⟨b5, before5⟩⟩⟩⟩
  · exact ⟨[], [], by simp [lastRuneBytes], by simp [lastRuneBytes]⟩
  · by_cases h2 : RuneStart b2 = true
    · exact ⟨[], [b2], by simp [lastRuneBytes, h2], by simp [lastRuneBytes, h2]⟩
    · exact ⟨[], [b2], by simp [lastRuneBytes, h2], by simp [lastRuneBytes, h2]⟩
  · by_cases h2 : RuneStart b2 = true
    · exact ⟨[b3], [b2], by simp [lastRuneBytes, h2], by simp [lastRuneBytes, h2]⟩
    · by_cases h3 : RuneStart b3 = true
      · exact ⟨[], [b3, b2], by simp [lastRuneBytes, h2, h3], by simp [lastRuneBytes, h2, h3]⟩
      · exact ⟨[], [b3, b2], by simp [lastRuneBytes, h2, h3], by simp [lastRuneBytes, h2, h3]⟩
  · by_cases h2 : RuneStart b2 = true
    · exact ⟨[b4, b3], [b2], by simp [lastRuneBytes, h2], by simp [lastRuneBytes, h2]⟩
    · by_cases h3 : RuneStart b3 = true
      · exact ⟨[b4], [b3, b2], by simp [lastRuneBytes, h2, h3],
          by simp [lastRuneBytes, h2, h3]⟩
      · by_cases h4 : RuneStart b4 = true
        · exact ⟨[], [b4, b3, b2], by simp [lastRuneBytes, h2, h3, h4],
            by simp [lastRuneBytes, h2, h3, h4]⟩
        · exact ⟨[], [b4, b3, b2], by simp [lastRuneBytes, h2, h3, h4],
            by simp [lastRuneBytes, h2, h3, h4]⟩
  · by_cases h2 : RuneStart b2 = true
    · exact ⟨before5.reverse ++ [b5, b4, b3], [b2], by simp [lastRuneBytes, h2],
        by simp [lastRuneBytes, h2]⟩
    · by_cases h3 : RuneStart b3 = true
      · exact ⟨before5.reverse ++ [b5, b4], [b3, b2], by simp [lastRuneBytes, h2, h3],
          by simp [lastRuneBytes, h2, h3]⟩
      · by_cases h4 : RuneStart b4 = true
        · exact ⟨before5.reverse ++ [b5], [b4, b3, b2], by simp [lastRuneBytes, h2, h3, h4],
            by simp [lastRuneBytes, h2, h3, h4]⟩
        · exact ⟨before5.reverse, [b5, b4, b3, b2], by simp [lastRuneBytes, h2, h3, h4],
            by simp [lastRuneBytes, h2, h3, h4]⟩

/-- The text that `DecodeLastRuneInString` decodes, for a text `p ++ e` that ends
with a white space character `e` of two or more bytes. -/
theorem lastRuneBytes_space (p e : ByteSeq) (h : e ∈ spaceEncodings) (he : 2 ≤ e.length) :
    lastRuneBytes (p ++ e).reverse = e := by
  rw [spaceEncodings_eq] at h
  simp only [List.mem_cons, List.mem_nil_iff, or_false] at h
  rcases h with h | h | h | h | h | h | h | h | h | h | h | h | h | h | h | h | h | h | h | h | h | h | h | h | h <;>
    subst h <;>
    first
      | (simp at he; done)
      | simp [lastRuneBytes, RuneStart]

/-- The last rune of a non-empty text: its bytes stand at the end of the text;
it is one byte wide, or it is what decoding these bytes forwards yields. -/
theorem DecodeLast_shape (q : ByteSeq) (r size : Nat) (hq : q ≠ [])
    (h : DecodeLastRuneInString q = (r, size)) :
    ∃ p e, q = p ++ e ∧ e.length = size
      ∧ ((size = 1 ∧ ∃ b, e = [b] ∧ ((b < 0x80 ∧ r = b) ∨ (0x80 ≤ b ∧ r = RuneError)))
          ∨ (2 ≤ size ∧ DecodeRuneInString e = (r, size))) := by
  unfold DecodeLastRuneInString at h
  rcases hrev : q.reverse with _ | ⟨b1, before⟩
  · exact absurd (List.reverse_eq_nil_iff.1 hrev) hq
  · have hq' : q = before.reverse ++ [b1] := by
      have := congrArg List.reverse hrev
      simpa using this
    rw [hrev] at h
    simp only at h
    by_cases hb : b1 < RuneSelf
    · rw [if_pos hb] at h
      simp only [Prod.mk.injEq] at h
      refine ⟨before.reverse, [b1], hq', by simp [← h.2], Or.inl ⟨h.2.symm, b1, rfl, Or.inl ⟨?_, h.1.symm⟩⟩⟩
      simpa [RuneSelf] using hb
    · rw [if_neg hb] at h
      have hb' : 0x80 ≤ b1 := by
        simp only [RuneSelf] at hb
        omega
      obtain ⟨p, front, hp, hfront⟩ := lastRuneBytes_spec b1 before
      by_cases hsz : (DecodeRuneInString (lastRuneBytes (b1 :: before))).2
          ≠ (lastRuneBytes (b1 :: before)).length
      · rw [if_pos hsz] at h
        simp only [Prod.mk.injEq] at h
        exact ⟨before.reverse, [b1], hq', by simp [← h.2],
          Or.inl ⟨h.2.symm, b1, rfl, Or.inr ⟨hb', h.1.symm⟩⟩⟩
      · rw [if_neg hsz] at h
        have hsz' := not_not.1 hsz
        rw [h] at hsz'
        simp only at hsz'
        have hqp : q = p ++ lastRuneBytes (b1 :: before) := by
          rw [← hp, ← hrev, List.reverse_reverse]
        refine ⟨p, lastRuneBytes (b1 :: before), hqp, hsz'.symm, ?_⟩
        by_cases h1 : size = 1
        · left
          refine ⟨h1, b1, ?_, Or.inr ⟨hb', ?_⟩⟩
          · have hlen : (front ++ [b1]).length = 1 := by rw [← hfront, ← hsz', h1]
            have hfr : front = [] := by
              simp only [List.length_append, List.length_singleton] at hlen
              exact List.length_eq_zero.1 (by omega)
            rw [hfront, hfr]
            rfl
          · have hlen : (front ++ [b1]).length = 1 := by rw [← hfront, ← hsz', h1]
            have hfr : front = [] := by
              simp only [List.length_append, List.length_singleton] at hlen
              exact List.length_eq_zero.1 (by omega)
            rw [hfront, hfr] at h
            rcases DecodeRune_shape b1 [] r size h with hs | hs | hs | hs
            · obtain ⟨_, a, x, hx, hcase⟩ := hs
              simp only [List.nil_append, List.cons.injEq] at hx
              obtain ⟨rfl, _⟩ := hx
              rcases hcase with ⟨ha, _⟩ | ⟨_, hr⟩
              · omega
              · exact hr
            · omega
            · omega
            · omega
        · right
          have hpos : 1 ≤ size := by
            rw [hfront] at hsz'
            simp only [List.length_append, List.length_singleton] at hsz'
            omega
          exact ⟨by omega, h⟩

/-- The last rune of a text that ends with a white space character is that
character. -/
theorem DecodeLast_space (p e : ByteSeq) (h : e ∈ spaceEncodings) :
    ∃ r, DecodeLastRuneInString (p ++ e) = (r, e.length) ∧ IsSpace r = true := by
  obtain ⟨b, rest, hbe, hb, hascii⟩ := spaceEncodings_head e h
  obtain ⟨r, hdec, hsp⟩ := DecodeRune_space e [] h
  rw [List.append_nil] at hdec
  by_cases hlen : 2 ≤ e.length
  · have hcand := lastRuneBytes_space p e h hlen
    refine ⟨r, ?_, hsp⟩
    unfold DecodeLastRuneInString
    rcases hrev : (p ++ e).reverse with _ | ⟨b1, before⟩
    · have := List.reverse_eq_nil_iff.1 hrev
      rw [hbe] at this
      simp at this
    · rw [hrev] at hcand
      simp only
      have hb1 : ¬ b1 < RuneSelf := by
        intro hlt
        have hlast : (p ++ e).reverse.head? = some b1 := by rw [hrev]; rfl
        rw [spaceEncodings_eq] at h
        simp only [List.mem_cons, List.mem_nil_iff, or_false] at h
        rcases h with h | h | h | h | h | h | h | h | h | h | h | h | h | h | h | h | h | h | h | h | h | h | h | h | h <;>
          subst h <;> simp [RuneSelf] at hlen hlast hlt <;> omega
      rw [if_neg hb1, hcand, hdec]
      simp
  · have hrest : rest = [] := by
      rw [hbe] at hlen
      simp only [List.length_cons] at hlen
      exact List.length_eq_zero.1 (by omega)
    subst hrest
    subst hbe
    have hblt : b < 0x80 := by
      rcases hb with hb | hb
      · exact hb
      · rw [spaceEncodings_eq] at h
        simp at h
        omega
    have hr : r = b := by
      rcases DecodeRune_shape b [] r 1 (by simpa using hdec) with hs | hs | hs | hs
      · obtain ⟨_, a, x, hx, hcase⟩ := hs
        simp only [List.cons.injEq] at hx
        obtain ⟨rfl, _⟩ := hx
        rcases hcase with ⟨_, hr⟩ | ⟨ha, _⟩
        · exact hr
        · omega
      · omega
      · omega
      · omega
    subst hr
    refine ⟨r, ?_, hsp⟩
    simp [DecodeLastRuneInString, RuneSelf, hblt]

/-- A white space character that is the last rune of a text stands at the end of
the text, encoded. -/
theorem DecodeLast_space_inv (q : ByteSeq) (r size : Nat)
    (h : DecodeLastRuneInString q = (r, size)) (hr : IsSpace r = true) :
    ∃ p e, e ∈ spaceEncodings ∧ q = p ++ e ∧ e.length = size := by
  by_cases hq : q = []
  · subst hq
    simp [DecodeLastRuneInString] at h
    rw [← h.1] at hr
    exact absurd hr (by decide)
  · obtain ⟨p, e, hqe, hlen, hcase⟩ := DecodeLast_shape q r size hq h
    rcases hcase with ⟨h1, b, hb, hbr⟩ | ⟨h2, hdec⟩
    · rcases hbr with ⟨hblt, hrb⟩ | ⟨_, hrb⟩
      · have hmem := encodeRune_mem r hr
        have henc : encodeRune r = [b] := by
          rw [encodeRune, if_pos (by omega), hrb]
        rw [henc, ← hb] at hmem
        exact ⟨p, e, hmem, hqe, hlen⟩
      · rw [hrb] at hr
        exact absurd hr (by decide)
    · obtain ⟨e', x, hmem, hex, hlen'⟩ := DecodeRune_space_inv e r size hdec hr
      have hx : x = [] := by
        have := congrArg List.length hex
        simp only [List.length_append] at this
        exact List.length_eq_zero.1 (by omega)
      subst hx
      rw [List.append_nil] at hex
      subst hex
      exact ⟨p, e, hmem, hqe, hlen⟩

theorem AllSpace_append (a b : ByteSeq) (ha : AllSpace a) (hb : AllSpace b) :
    AllSpace (a ++ b) := by
  induction ha with
  | nil => simpa using hb
  | cons e rest he _ ih =>
    rw [List.append_assoc]
    exact AllSpace.cons e (rest ++ b) he ih

theorem asciiSpace_mem (b : Nat) (h : asciiSpace b = true) : [b] ∈ spaceEncodings := by
  simp only [asciiSpace, decide_eq_true_eq] at h
  rcases h with rfl | rfl | rfl | rfl | rfl | rfl <;> decide

theorem AllSpace_of_ascii : ∀ l : ByteSeq, (∀ b ∈ l, asciiSpace b = true) → AllSpace l
  | [], _ => AllSpace.nil
  | b :: l, h =>
    AllSpace.cons [b] l (asciiSpace_mem b (h b (by simp)))
      (AllSpace_of_ascii l (fun c hc => h c (by simp [hc])))

theorem spaceEncodings_ne_nil (e : ByteSeq) (h : e ∈ spaceEncodings) : e ≠ [] := by
  obtain ⟨b, rest, rfl, _⟩ := spaceEncodings_head e h
  simp

theorem not_StartsWithSpace_nil : ¬ StartsWithSpace [] := by
  rintro ⟨e, he, hpre⟩
  exact spaceEncodings_ne_nil e he (List.prefix_nil.1 hpre)

theorem not_EndsWithSpace_nil : ¬ EndsWithSpace [] := by
  rintro ⟨e, he, hsuf⟩
  exact spaceEncodings_ne_nil e he (List.suffix_nil.1 hsuf)

theorem StartsWithSpace_mono (v t : ByteSeq) (hvt : v <+: t) (h : StartsWithSpace v) :
    StartsWithSpace t := by
  obtain ⟨e, he, hpre⟩ := h
  exact ⟨e, he, hpre.trans hvt⟩

theorem StartsWithSpace_decode (u : ByteSeq) (h : StartsWithSpace u) :
    IsSpace (DecodeRuneInString u).1 = true := by
  obtain ⟨e, he, x, rfl⟩ := h
  obtain ⟨r, hdec, hsp⟩ := DecodeRune_space e x he
  rw [hdec]
  exact hsp

theorem EndsWithSpace_decode (q : ByteSeq) (h : EndsWithSpace q) :
    IsSpace (DecodeLastRuneInString q).1 = true := by
  obtain ⟨e, he, p, rfl⟩ := h
  obtain ⟨r, hdec, hsp⟩ := DecodeLast_space p e he
  rw [hdec]
  exact hsp

theorem indexFunc_spec : ∀ (fuel : Nat) (rest : ByteSeq) (i : Nat), rest.length ≤ fuel →
    (indexFunc IsSpace false fuel rest i = none ∧ AllSpace rest)
      ∨ (∃ pre u, rest = pre ++ u ∧ AllSpace pre
          ∧ indexFunc IsSpace false fuel rest i = some (i + pre.length)
          ∧ IsSpace (DecodeRuneInString u).1 = false)
  | 0, rest, i, h => by
    have : rest = [] := List.length_eq_zero.1 (by omega)
    subst this
    exact Or.inl ⟨rfl, AllSpace.nil⟩
  | fuel + 1, rest, i, h => by
    by_cases hnil : rest = []
    · subst hnil
      exact Or.inl ⟨by simp [indexFunc], AllSpace.nil⟩
    · obtain ⟨r, size, hdec⟩ : ∃ r size, DecodeRuneInString rest = (r, size) := ⟨_, _, rfl⟩
      by_cases hsp : IsSpace r = false
      · right
        refine ⟨[], rest, rfl, AllSpace.nil, ?_, by rw [hdec]; exact hsp⟩
        rw [indexFunc]
        simp only [hnil, if_false, hdec, hsp, if_true, List.length_nil, Nat.add_zero]
      · have hsp' : IsSpace r = true := by
          simpa using hsp
        obtain ⟨e, x, he, hex, hlen⟩ := DecodeRune_space_inv rest r size hdec hsp'
        have hpos := List.length_pos.2 (spaceEncodings_ne_nil e he)
        have hdrop : rest.drop size = x := by
          rw [← hlen]
          conv_lhs => rw [hex]
          exact List.drop_left' rfl
        have hx : x.length ≤ fuel := by
          have := congrArg List.length hex
          simp only [List.length_append] at this
          omega
        have hstep : indexFunc IsSpace false (fuel + 1) rest i
            = indexFunc IsSpace false fuel x (i + e.length) := by
          rw [indexFunc]
          simp only [hnil, if_false, hdec, hsp', Bool.true_eq_false, hdrop, hlen]
        rcases indexFunc_spec fuel x (i + e.length) hx with ⟨h1, h2⟩ | ⟨pre, u, h1, h2, h3, h4⟩
        · left
          rw [hstep, hex]
          exact ⟨h1, AllSpace.cons e x he h2⟩
        · right
          refine ⟨e ++ pre, u, ?_, AllSpace.cons e pre he h2, ?_, h4⟩
          · rw [hex, h1, List.append_assoc]
          · rw [hstep, h3, List.length_append, Nat.add_assoc]

/-- The result of `TrimLeftFunc` with `IsSpace`: the text without the white space
in front of it. -/
theorem TrimLeftFunc_spec (s : ByteSeq) :
    ∃ pre, s = pre ++ TrimLeftFunc s IsSpace ∧ AllSpace pre
      ∧ ¬ StartsWithSpace (TrimLeftFunc s IsSpace) := by
  unfold TrimLeftFunc
  rcases indexFunc_spec (s.length + 1) s 0 (by omega) with ⟨h1, h2⟩ | ⟨pre, u, h1, h2, h3, h4⟩
  · rw [h1]
    exact ⟨s, by simp, h2, not_StartsWithSpace_nil⟩
  · rw [h3]
    have hdrop : s.drop (0 + pre.length) = u := by
      rw [Nat.zero_add]
      conv_lhs => rw [h1]
      exact List.drop_left' rfl
    simp only [hdrop]
    refine ⟨pre, h1, h2, fun hstart => ?_⟩
    rw [StartsWithSpace_decode u hstart] at h4
    exact absurd h4 (by decide)

theorem take_split (s p e : ByteSeq) (i : Nat) (h : s.take i = p ++ e) :
    s = p ++ e ++ s.drop i ∧ s.drop p.length = e ++ s.drop i := by
  have hs : s = p ++ e ++ s.drop i := by
    rw [← h, List.take_append_drop]
  refine ⟨hs, ?_⟩
  conv_lhs => rw [hs, List.append_assoc]
  exact List.drop_left' rfl

theorem lastIndexFunc_spec (s : ByteSeq) : ∀ (fuel i : Nat), i ≤ fuel → i ≤ s.length →
    AllSpace (s.drop i) →
    (lastIndexFunc IsSpace false s fuel i = none ∧ AllSpace s)
      ∨ (∃ i' r size, 0 < i' ∧ i' ≤ s.length ∧ AllSpace (s.drop i')
          ∧ DecodeLastRuneInString (s.take i') = (r, size) ∧ IsSpace r = false
          ∧ lastIndexFunc IsSpace false s fuel i = some (i' - size))
  | 0, i, h, _, hsp => by
    have : i = 0 := by omega
    subst this
    exact Or.inl ⟨rfl, by simpa using hsp⟩
  | fuel + 1, i, h, hi, hsp => by
    by_cases hpos : i > 0
    · obtain ⟨r, size, hdec⟩ : ∃ r size, DecodeLastRuneInString (s.take i) = (r, size) :=
        ⟨_, _, rfl⟩
      by_cases hr : IsSpace r = false
      · right
        refine ⟨i, r, size, hpos, hi, hsp, hdec, hr, ?_⟩
        rw [lastIndexFunc]
        simp only [hpos, if_true, hdec, hr]
      · have hr' : IsSpace r = true := by simpa using hr
        obtain ⟨p, e, he, hpe, hlen⟩ := DecodeLast_space_inv (s.take i) r size hdec hr'
        have hepos := List.length_pos.2 (spaceEncodings_ne_nil e he)
        have htake : (s.take i).length = i := List.length_take_of_le hi
        have hip : i - size = p.length := by
          rw [hpe, List.length_append] at htake
          omega
        obtain ⟨_, hdrop⟩ := take_split s p e i hpe
        have hstep : lastIndexFunc IsSpace false s (fuel + 1) i
            = lastIndexFunc IsSpace false s fuel p.length := by
          rw [lastIndexFunc]
          simp only [hpos, if_true, hdec, hr', Bool.true_eq_false, if_false, hip]
        have hple : p.length ≤ s.length := by omega
        rcases lastIndexFunc_spec s fuel p.length (by omega) hple
            (by rw [hdrop]; exact AllSpace.cons e _ he hsp) with h1 | h1
        · left
          rw [hstep]
          exact h1
        · right
          rw [hstep]
          exact h1
    · have : i = 0 := by omega
      subst this
      exact Or.inl ⟨by simp [lastIndexFunc], by simpa using hsp⟩

/-- The slice that `TrimRightFunc` returns once `lastIndexFunc` has stopped at the
rune `e` that ends `p ++ e`, in front of white space: it ends after `e`. -/
theorem trimRight_cut (p e suf : ByteSeq) (r size : Nat)
    (hdec : DecodeLastRuneInString (p ++ e) = (r, size)) (hlen : e.length = size)
    (hcase : (size = 1 ∧ ∃ b, e = [b] ∧ ((b < 0x80 ∧ r = b) ∨ (0x80 ≤ b ∧ r = RuneError)))
      ∨ (2 ≤ size ∧ DecodeRuneInString e = (r, size)))
    (hsuf : AllSpace suf) :
    (if (p ++ e ++ suf).getD p.length 0 ≥ RuneSelf then
        (p ++ e ++ suf).take (p.length + (DecodeRuneInString ((p ++ e ++ suf).drop p.length)).2)
      else (p ++ e ++ suf).take (p.length + 1)) = p ++ e := by
  have hdrop : (p ++ e ++ suf).drop p.length = e ++ suf := by
    rw [List.append_assoc]
    exact List.drop_left' rfl
  have htake : (p ++ e ++ suf).take (p.length + e.length) = p ++ e := by
    apply List.take_left'
    simp
  rcases hcase with ⟨h1, b, hb, _⟩ | ⟨h2, hd⟩
  · subst hb
    have hw : (DecodeRuneInString (b :: suf)).2 = 1 :=
      DecodeRune_width_one b suf hsuf _ _ rfl
    simp only [List.length_singleton] at htake
    rw [hdrop]
    simp only [List.singleton_append, hw, htake, ite_self]
  · obtain ⟨hd', b, rest, hbe, hb⟩ := DecodeRune_append e suf r size hd h2
    have hget : (p ++ e ++ suf).getD p.length 0 = b := by
      rw [hbe, List.append_assoc, List.getD_eq_getElem?_getD,
        List.getElem?_append_right (le_refl _)]
      simp
    rw [hget, if_pos (by simpa [RuneSelf] using hb), hdrop, hd']
    simp only
    rw [← hlen]
    exact htake

/-- The result of `TrimRightFunc` with `IsSpace`: the text without the white
space behind it. -/
theorem TrimRightFunc_spec (s : ByteSeq) :
    ∃ suf, s = TrimRightFunc s IsSpace ++ suf ∧ AllSpace suf
      ∧ ¬ EndsWithSpace (TrimRightFunc s IsSpace) := by
  unfold TrimRightFunc
  rcases lastIndexFunc_spec s (s.length + 1) s.length (by omega) (le_refl _)
      (by simpa using AllSpace.nil) with ⟨h1, h2⟩ | ⟨i', r, size, hpos, hle, hsp, hdec, hr, hres⟩
  · rw [h1]
    exact ⟨s, by simp, h2, by simpa using not_EndsWithSpace_nil⟩
  · rw [hres]
    have hne : s.take i' ≠ [] := by
      intro h0
      have := congrArg List.length h0
      rw [List.length_take_of_le hle] at this
      simp at this
      omega
    obtain ⟨p, e, hpe, hlen, hcase⟩ := DecodeLast_shape (s.take i') r size hne hdec
    have htl : (s.take i').length = i' := List.length_take_of_le hle
    have hip : i' - size = p.length := by
      rw [hpe, List.length_append] at htl
      omega
    obtain ⟨hs, _⟩ := take_split s p e i' hpe
    rw [hpe] at hdec
    have hcut := trimRight_cut p e (s.drop i') r size hdec hlen hcase hsp
    rw [← hs] at hcut
    simp only [hip, hcut]
    refine ⟨s.drop i', hs, hsp, fun hend => ?_⟩
    have := EndsWithSpace_decode (p ++ e) hend
    rw [hdec] at this
    rw [this] at hr
    exact absurd hr (by decide)

/-- The result of `TrimFunc` with `IsSpace`. -/
theorem TrimFunc_spec (s : ByteSeq) :
    ∃ pre suf, s = pre ++ TrimFunc s IsSpace ++ suf ∧ AllSpace pre ∧ AllSpace suf
      ∧ ¬ StartsWithSpace (TrimFunc s IsSpace) ∧ ¬ EndsWithSpace (TrimFunc s IsSpace) := by
  unfold TrimFunc
  obtain ⟨pre, h1, h2, h3⟩ := TrimLeftFunc_spec s
  obtain ⟨suf, h4, h5, h6⟩ := TrimRightFunc_spec (TrimLeftFunc s IsSpace)
  refine ⟨pre, suf, ?_, h2, h5, fun hstart => h3 ?_, h6⟩
  · rw [List.append_assoc, ← h4]
    exact h1
  · exact StartsWithSpace_mono _ _ ⟨suf, h4.symm⟩ hstart

theorem spaceEncodings_last (e : ByteSeq) (h : e ∈ spaceEncodings) :
    ∃ front l, e = front ++ [l] ∧ (asciiSpace l = true ∨ 0x80 ≤ l) := by
  rw [spaceEncodings_eq] at h
  simp only [List.mem_cons, List.mem_nil_iff, or_false] at h
  rcases h with h | h | h | h | h | h | h | h | h | h | h | h | h | h | h | h | h | h | h | h | h | h | h | h | h <;>
    subst h <;>
    first
      | exact ⟨[], _, rfl, by decide⟩
      | exact ⟨[_], _, rfl, by decide⟩
      | exact ⟨[_, _], _, rfl, by decide⟩

theorem not_StartsWithSpace_cons (c : Nat) (rest : ByteSeq) (hc : c < 0x80)
    (hsp : asciiSpace c = false) : ¬ StartsWithSpace (c :: rest) := by
  rintro ⟨e, he, x, hex⟩
  obtain ⟨b, tail, rfl, hb, hascii⟩ := spaceEncodings_head e he
  simp only [List.cons_append, List.cons.injEq] at hex
  obtain ⟨rfl, _⟩ := hex
  have := (hascii hc).2
  rw [hsp] at this
  exact absurd this (by decide)

theorem not_EndsWithSpace_concat (c : Nat) (front : ByteSeq) (hc : c < 0x80)
    (hsp : asciiSpace c = false) : ¬ EndsWithSpace (front ++ [c]) := by
  rintro ⟨e, he, x, hex⟩
  obtain ⟨f, l, rfl, hl⟩ := spaceEncodings_last e he
  rw [← List.append_assoc] at hex
  have := List.append_inj' hex rfl
  simp only [List.cons.injEq, and_true] at this
  obtain ⟨_, rfl⟩ := this
  rcases hl with hl | hl
  · rw [hsp] at hl
    exact absurd hl (by decide)
  · omega

theorem trimSpaceStop_spec (t : ByteSeq) (hstart : ¬ StartsWithSpace t) :
    ∀ stop : Nat, stop ≤ t.length → (∀ b ∈ t.drop stop, asciiSpace b = true) →
      ∃ suf, t = trimSpaceStop t stop ++ suf ∧ AllSpace suf
        ∧ ¬ StartsWithSpace (trimSpaceStop t stop) ∧ ¬ EndsWithSpace (trimSpaceStop t stop)
  | 0, _, h => by
    refine ⟨t, by simp [trimSpaceStop], AllSpace_of_ascii t (by simpa using h), ?_, ?_⟩
    · simpa [trimSpaceStop] using not_StartsWithSpace_nil
    · simpa [trimSpaceStop] using not_EndsWithSpace_nil
  | stop + 1, hle, h => by
    have hlt : stop < t.length := by omega
    have hget : t.getD stop 0 = t[stop] := by
      rw [List.getD_eq_getElem?_getD, List.getElem?_eq_getElem hlt]
      rfl
    have htake : t.take (stop + 1) = t.take stop ++ [t[stop]] := by
      rw [List.take_succ, List.getElem?_eq_getElem hlt]
      rfl
    have hsplit : t = t.take (stop + 1) ++ t.drop (stop + 1) := (List.take_append_drop _ _).symm
    have hrest : AllSpace (t.drop (stop + 1)) := AllSpace_of_ascii _ h
    rw [trimSpaceStop]
    simp only [hget]
    by_cases hself : t[stop] ≥ RuneSelf
    · rw [if_pos hself]
      obtain ⟨suf1, h1, h2, h3⟩ := TrimRightFunc_spec (t.take (stop + 1))
      refine ⟨suf1 ++ t.drop (stop + 1), ?_, AllSpace_append _ _ h2 hrest, fun hs => hstart ?_, h3⟩
      · rw [← List.append_assoc, ← h1]
        exact hsplit
      · refine StartsWithSpace_mono _ t ⟨suf1 ++ t.drop (stop + 1), ?_⟩ hs
        rw [← List.append_assoc, ← h1]
        exact hsplit.symm
    · rw [if_neg hself]
      have hc : t[stop] < 0x80 := by
        simp only [RuneSelf] at hself
        omega
      by_cases hsp : asciiSpace t[stop] = false
      · rw [if_pos hsp]
        refine ⟨t.drop (stop + 1), hsplit, hrest, fun hs => hstart ?_, ?_⟩
        · exact StartsWithSpace_mono _ t ⟨t.drop (stop + 1), hsplit.symm⟩ hs
        · rw [htake]
          exact not_EndsWithSpace_concat _ _ hc hsp
      · rw [if_neg hsp]
        have hsp' : asciiSpace t[stop] = true := by simpa using hsp
        apply trimSpaceStop_spec t hstart stop (by omega)
        intro b hb
        rw [List.drop_eq_getElem_cons hlt, List.mem_cons] at hb
        rcases hb with rfl | hb
        · exact hsp'
        · exact h b hb

/-- The result of `TrimSpace`: the text without the white space in front of it
and behind it. -/
theorem TrimSpace_spec : ∀ s : ByteSeq,
    ∃ pre suf, s = pre ++ TrimSpace s ++ suf ∧ AllSpace pre ∧ AllSpace suf
      ∧ ¬ StartsWithSpace (TrimSpace s) ∧ ¬ EndsWithSpace (TrimSpace s)
  | [] => ⟨[], [], rfl, AllSpace.nil, AllSpace.nil,
      by simpa [TrimSpace] using not_StartsWithSpace_nil,
      by simpa [TrimSpace] using not_EndsWithSpace_nil⟩
  | c :: rest => by
    rw [TrimSpace]
    by_cases hself : c ≥ RuneSelf
    · rw [if_pos hself]
      exact TrimFunc_spec (c :: rest)
    · rw [if_neg hself]
      have hc : c < 0x80 := by
        simp only [RuneSelf] at hself
        omega
      by_cases hsp : asciiSpace c = false
      · rw [if_pos hsp]
        obtain ⟨suf, h1, h2, h3, h4⟩ := trimSpaceStop_spec (c :: rest)
          (not_StartsWithSpace_cons c rest hc hsp) (c :: rest).length (le_refl _) (by simp)
        exact ⟨[], suf, by simpa using h1, AllSpace.nil, h2, h3, h4⟩
      · rw [if_neg hsp]
        have hsp' : asciiSpace c = true := by simpa using hsp
        obtain ⟨pre, suf, h1, h2, h3, h4, h5⟩ := TrimSpace_spec rest
        refine ⟨c :: pre, suf, ?_, AllSpace.cons [c] pre (asciiSpace_mem c hsp') h2, h3, h4, h5⟩
        simp only [List.cons_append, List.cons.injEq, true_and]
        exact h1

theorem NewInputFromFile_cachedWorld (f c : ByteSeq) :
    NewInputFromFile f (cachedWorld f c) = (some ⟨TrimSpace c⟩, none) := by
  simp [NewInputFromFile, osReadFile, cachedWorld]

/-- C7: credential trimming. For a file that reads in full with content `c`,
`NewInputFromFile` returns a nil error and an `Input` whose `SessionID` is `c`
without a front part and a back part that consist of white space characters only,
the bytes in between unchanged, and the `SessionID` neither starts nor ends with
a white space character. When `os.ReadFile` reports an error, `NewInputFromFile`
returns that error and no `Input`. -/
theorem NewInputFromFile_trims (f : ByteSeq) (w : World) :
    (∀ c : ByteSeq, w.files f = .regular c none →
      ∃ sid pre suf, NewInputFromFile f w = (some ⟨sid⟩, none)
        ∧ c = pre ++ sid ++ suf ∧ AllSpace pre ∧ AllSpace suf
        ∧ ¬ StartsWithSpace sid ∧ ¬ EndsWithSpace sid)
      ∧ (∀ err : GoError, (osReadFile w f).2 = some err →
          NewInputFromFile f w = (none, some err)) := by
  constructor
  · intro c hc
    obtain ⟨pre, suf, h1, h2, h3, h4, h5⟩ := TrimSpace_spec c
    refine ⟨TrimSpace c, pre, suf, ?_, h1, h2, h3, h4, h5⟩
    simp only [NewInputFromFile, osReadFile, hc]
  · intro err herr
    unfold NewInputFromFile
    rcases hrd : osReadFile w f with ⟨b, e⟩
    rw [hrd] at herr
    simp only at herr
    subst herr
    rfl

/-- C7, witness: the content `abc123` followed by a newline yields the `SessionID`
`abc123`; a missing file yields the error of `os.ReadFile` and no `Input`. -/
theorem NewInputFromFile_trims_witness :
    NewInputFromFile (ascii "session_id") (cachedWorld (ascii "session_id") (ascii "abc123\n"))
        = (some ⟨ascii "abc123"⟩, none)
      ∧ NewInputFromFile (ascii "session_id") (cachedWorld (ascii "other") (ascii "abc123\n"))
        = (none, some (.sysError (ascii "open session_id: no such file or directory"))) :=
  ⟨by
      obtain ⟨sid, pre, suf, h, _⟩ := (NewInputFromFile_trims (ascii "session_id")
        (cachedWorld (ascii "session_id") (ascii "abc123\n"))).1 (ascii "abc123\n") (by decide)
      rw [NewInputFromFile_cachedWorld] at h ⊢
      decide,
    (NewInputFromFile_trims (ascii "session_id")
      (cachedWorld (ascii "other") (ascii "abc123\n"))).2 _ (by decide)⟩

end Aocutil
